import Mathlib

/-!
# Ownership layer of the tensor runtime: `intrusive_ptr`, `StorageImpl`, `Storage`

A shallow embedding of `intrusive_ptr.hpp`, `StorageImpl.hpp`, `Storage.hpp`,
`Allocator.hpp` and `config.hpp`.

* A `size_t` is a natural number below `2 ^ 64`; the arithmetic of the atomic
  counter is written with an explicit `% 2 ^ 64`.
* A pointer is a natural number, `nullptr` is `0`.
* The free store is a partial map from addresses to targets; handles
  (`intrusive_ptr` objects) live in numbered slots, a slot is numbered by the
  order of construction and is never reused.
* A member function that can end in `std::terminate` (the `assert` macro of
  `config.hpp`) or in undefined behaviour returns `Except Fault _`.
* A deleter is a function pointer, a natural number; a call of a deleter is
  recorded as the pair of the function pointer and its argument.
* The temporaries of the assignment operators are not given slots: an
  assignment is one step, with the effects of constructing, swapping and
  destroying the temporary in the order of the source.
-/

namespace c10

/-! ## config.hpp -/

/-- The ways an operation can fail to return. -/
inductive Fault
  /-- `std::terminate()` reached through the `assert` macro. -/
  | terminate
  /-- Undefined behaviour: a null, dangling or dead object is used, or a null
  function pointer is called. -/
  | undefined
  /-- The free store cannot answer like this: `operator new` never returns
  null or the address of an object that is still alive. -/
  | infeasible
  deriving DecidableEq, Repr

/-- The macro `assert(expression, message)` of `config.hpp`:
`if (!(expression)) { ...; std::terminate(); }`. -/
def assert (expression : Bool) : Except Fault Unit :=
  if !expression then .error .terminate else .ok ()

/-! ## intrusive_ptr.hpp -/

/-- The class `intrusive_ptr_target`: the counter `refcount_` and, in `obj`,
the members of the derived class. -/
structure intrusive_ptr_target (α : Type) where
  refcount_ : Nat
  obj : α

/-- The constructor `intrusive_ptr_target() : refcount_(0)`. -/
def intrusive_ptr_target.ctor {α : Type} (obj : α) : intrusive_ptr_target α :=
  { refcount_ := 0, obj := obj }

/-- The copy constructor `intrusive_ptr_target(const intrusive_ptr_target& other)
: intrusive_ptr_target()`, for a target whose derived class builds the members
`obj`. Returns the new target and the source. -/
def intrusive_ptr_target.copy_ctor {α : Type} (other : intrusive_ptr_target α) (obj : α) :
    intrusive_ptr_target α × intrusive_ptr_target α :=
  (intrusive_ptr_target.ctor obj, other)

/-- The move constructor `intrusive_ptr_target(intrusive_ptr_target&& other)
: intrusive_ptr_target()`, for a target whose derived class builds the members
`obj`. Returns the new target and the source. -/
def intrusive_ptr_target.move_ctor {α : Type} (other : intrusive_ptr_target α) (obj : α) :
    intrusive_ptr_target α × intrusive_ptr_target α :=
  (intrusive_ptr_target.ctor obj, other)

/-- Copy assignment `operator=(const intrusive_ptr_target& other)`, whose body
is `return *this;`. Returns the destination and the source. -/
def intrusive_ptr_target.copy_assign {α : Type} (self other : intrusive_ptr_target α) :
    intrusive_ptr_target α × intrusive_ptr_target α :=
  (self, other)

/-- Move assignment `operator=(intrusive_ptr_target&& other)`, whose body is
`return *this;`. Returns the destination and the source. -/
def intrusive_ptr_target.move_assign {α : Type} (self other : intrusive_ptr_target α) :
    intrusive_ptr_target α × intrusive_ptr_target α :=
  (self, other)

/-- The function `intrusive_target_default_null_type::singleton()`. -/
def singleton : Nat := 0

/-- The function `detail::atomic_refcount_increment`: `fetch_add(1) + 1`.
First component: the value left in the counter; second: the value returned. -/
def atomic_refcount_increment (refcount : Nat) : Nat × Nat :=
  ((refcount + 1) % 2 ^ 64, (refcount + 1) % 2 ^ 64)

/-- The function `detail::atomic_refcount_decrement`: `fetch_sub(1) - 1`.
First component: the value left in the counter; second: the value returned. -/
def atomic_refcount_decrement (refcount : Nat) : Nat × Nat :=
  ((refcount + (2 ^ 64 - 1)) % 2 ^ 64, (refcount + (2 ^ 64 - 1)) % 2 ^ 64)

/-- The program state seen by the handle operations. -/
structure Machine (α : Type) where
  /-- The free store: the targets that are alive, by address. -/
  heap : Nat → Option (intrusive_ptr_target α)
  /-- The handle objects, by slot: `none` for a handle whose lifetime has
  ended, `some p` for a live handle with `target_ == p`. -/
  handles : List (Option Nat)
  /-- Every `delete target_` executed so far, oldest first, with the address
  and the members of the deleted target. -/
  deleted : List (Nat × α)

/-- The state of a program that has not created anything yet. -/
def Machine.init {α : Type} : Machine α :=
  { heap := fun _ => none, handles := [], deleted := [] }

/-- Write (or, with `none`, free) the target at address `p`. -/
def Machine.store {α : Type} (m : Machine α) (p : Nat)
    (t : Option (intrusive_ptr_target α)) : Machine α :=
  { m with heap := fun q => if q = p then t else m.heap q }

/-- Read the member `target_` of the handle in slot `h`. -/
def Machine.target_ {α : Type} (m : Machine α) (h : Nat) : Except Fault Nat :=
  match m.handles[h]? with
  | some (some p) => .ok p
  | _ => .error .undefined

/-- Assign the member `target_` of the handle in slot `h`. -/
def Machine.setTarget {α : Type} (m : Machine α) (h p : Nat) : Machine α :=
  { m with handles := m.handles.set h (some p) }

/-- A new handle object with `target_ == p` begins its lifetime. -/
def Machine.push {α : Type} (m : Machine α) (p : Nat) : Machine α :=
  { m with handles := m.handles ++ [some p] }

/-- The lifetime of the handle in slot `h` ends. -/
def Machine.kill {α : Type} (m : Machine α) (h : Nat) : Machine α :=
  { m with handles := m.handles.set h none }

/-- The number of live handles whose `target_` is `p`. -/
def Machine.holders {α : Type} (m : Machine α) (p : Nat) : Nat :=
  m.handles.count (some p)

/-- The number of live handles. -/
def Machine.liveHandles {α : Type} (m : Machine α) : Nat :=
  m.handles.countP Option.isSome

namespace intrusive_ptr

variable {α : Type}

/-- The member `retain_()` run by a handle whose `target_` is `target_`. -/
def retain_ (m : Machine α) (target_ : Nat) : Except Fault (Machine α) :=
  if target_ ≠ singleton then
    match m.heap target_ with
    | none => .error .undefined
    | some t =>
      let r := atomic_refcount_increment t.refcount_
      let m1 := m.store target_ (some { t with refcount_ := r.1 })
      match assert (r.2 != 1) with
      | .ok _ => .ok m1
      | .error e => .error e
  else .ok m

/-- The member `reset_()` run by a handle whose `target_` is `target_`. -/
def reset_ (m : Machine α) (target_ : Nat) : Except Fault (Machine α) :=
  if target_ ≠ singleton then
    match m.heap target_ with
    | none => .error .undefined
    | some t =>
      let r := atomic_refcount_decrement t.refcount_
      if r.2 = 0 then
        .ok { m.store target_ none with deleted := m.deleted ++ [(target_, t.obj)] }
      else
        .ok (m.store target_ (some { t with refcount_ := r.1 }))
  else .ok m

/-- The private constructor `explicit intrusive_ptr(TTarget* target)`. -/
def ctor_ptr (m : Machine α) (target : Nat) : Except Fault (Machine α) :=
  if target ≠ singleton then
    match m.heap target with
    | none => .error .undefined
    | some t =>
      match assert (t.refcount_ == 0) with
      | .ok _ => .ok ((m.store target (some { t with refcount_ := 1 })).push target)
      | .error e => .error e
  else .ok (m.push target)

/-- The constructor `intrusive_ptr() : intrusive_ptr(NullType::singleton())`. -/
def default_ctor (m : Machine α) : Except Fault (Machine α) :=
  ctor_ptr m singleton

/-- The static member `make(args...)`: `intrusive_ptr(new TTarget(args...))`,
where `new` answers with the address `addr` and the constructor of the derived
class builds `obj`. -/
def make (m : Machine α) (addr : Nat) (obj : α) : Except Fault (Machine α) :=
  if addr = 0 ∨ (m.heap addr).isSome then .error .infeasible
  else ctor_ptr (m.store addr (some (intrusive_ptr_target.ctor obj))) addr

/-- The copy constructor `intrusive_ptr(const intrusive_ptr& rhs)`. -/
def copy_ctor (m : Machine α) (rhs : Nat) : Except Fault (Machine α) := do
  let p ← m.target_ rhs
  let m1 ← retain_ m p
  pure (m1.push p)

/-- The move constructor `intrusive_ptr(intrusive_ptr&& rhs)`. -/
def move_ctor (m : Machine α) (rhs : Nat) : Except Fault (Machine α) := do
  let p ← m.target_ rhs
  pure ((m.push p).setTarget rhs singleton)

/-- The destructor `~intrusive_ptr()`. -/
def dtor (m : Machine α) (h : Nat) : Except Fault (Machine α) := do
  let p ← m.target_ h
  let m1 ← reset_ m p
  pure (m1.kill h)

/-- The member `reset()`. -/
def reset (m : Machine α) (h : Nat) : Except Fault (Machine α) := do
  let p ← m.target_ h
  let m1 ← reset_ m p
  pure (m1.setTarget h singleton)

/-- The member `swap(intrusive_ptr& rhs)`. -/
def swap (m : Machine α) (lhs rhs : Nat) : Except Fault (Machine α) := do
  let tmp ← m.target_ lhs
  let r ← m.target_ rhs
  pure ((m.setTarget lhs r).setTarget rhs tmp)

/-- Copy assignment `operator=(const intrusive_ptr& rhs)`:
`intrusive_ptr tmp = rhs; swap(tmp);` and then the destructor of `tmp`. -/
def copy_assign (m : Machine α) (lhs rhs : Nat) : Except Fault (Machine α) := do
  let _ ← m.target_ lhs
  let p ← m.target_ rhs
  let m1 ← retain_ m p
  let old ← m1.target_ lhs
  reset_ (m1.setTarget lhs p) old

/-- Move assignment `operator=(intrusive_ptr&& rhs)`:
`intrusive_ptr tmp = std::move(rhs); swap(tmp);` and then the destructor of
`tmp`. -/
def move_assign (m : Machine α) (lhs rhs : Nat) : Except Fault (Machine α) := do
  let _ ← m.target_ lhs
  let p ← m.target_ rhs
  let m1 := m.setTarget rhs singleton
  let old ← m1.target_ lhs
  reset_ (m1.setTarget lhs p) old

/-- The member `release()`; the raw pointer it returns is dropped here. -/
def release (m : Machine α) (h : Nat) : Except Fault (Machine α) := do
  let _ ← m.target_ h
  pure (m.setTarget h singleton)

/-- The member `get()`. -/
def get (m : Machine α) (h : Nat) : Except Fault Nat :=
  m.target_ h

/-- The member `defined()`. -/
def defined (m : Machine α) (h : Nat) : Except Fault Bool := do
  let p ← m.target_ h
  pure (p != singleton)

/-- The member `use_count()`. -/
def use_count (m : Machine α) (h : Nat) : Except Fault Nat := do
  let p ← m.target_ h
  if p = singleton then pure 0
  else
    match m.heap p with
    | none => .error .undefined
    | some t => pure t.refcount_

/-- The member `unique()`. -/
def unique (m : Machine α) (h : Nat) : Except Fault Bool := do
  let n ← use_count m h
  pure (n == 1)

/-- The free function `operator==(lhs, rhs)`: `lhs.get() == rhs.get()`. -/
def eq (m : Machine α) (lhs rhs : Nat) : Except Fault Bool := do
  let a ← get m lhs
  let b ← get m rhs
  pure (a == b)

end intrusive_ptr

/-! ## Allocator.hpp -/

/-- The type `DataPtr = std::unique_ptr<void, DeleterFnPtr>`: the owned pointer
(`get()`) and the deleter (`get_deleter()`, a function pointer, `0` when null). -/
structure DataPtr where
  ptr : Nat
  deleter : Nat
  deriving DecidableEq, Repr

/-- A call `deleter(ptr)`: the function pointer called and its argument. -/
abbrev DeleterCall : Type := Nat × Nat

namespace DataPtr

/-- The destructor of `std::unique_ptr`: `if (ptr != nullptr)
get_deleter()(ptr);`. The deleter is called on the owned pointer unless that
pointer is null; the call goes through the stored function pointer, so it is
undefined when that function pointer is null. Returns the deleter calls made. -/
def dtor (d : DataPtr) : Except Fault (List DeleterCall) :=
  if d.ptr ≠ 0 then
    if d.deleter ≠ 0 then .ok [(d.deleter, d.ptr)] else .error .undefined
  else .ok []

/-- The move constructor of `std::unique_ptr`: the new object and what is left
of the source. -/
def move_ctor (src : DataPtr) : DataPtr × DataPtr :=
  ({ ptr := src.ptr, deleter := src.deleter }, { ptr := 0, deleter := src.deleter })

/-- The member `reset(p)` of `std::unique_ptr`: the pointer is replaced and the
deleter is called on the old pointer unless it is null, as in the destructor
(undefined when the old pointer is not null and the deleter is). Returns the
object and the deleter calls made. -/
def reset (self : DataPtr) (p : Nat) : Except Fault (DataPtr × List DeleterCall) := do
  let calls ← self.dtor
  pure ({ ptr := p, deleter := self.deleter }, calls)

/-- Move assignment of `std::unique_ptr`: `reset(src.release())`, then the
deleter of `src` is taken over. Returns the assigned object, what is left of
the source, and the deleter calls made. -/
def move_assign (self src : DataPtr) : Except Fault (DataPtr × DataPtr × List DeleterCall) := do
  let r ← self.reset src.ptr
  pure ({ ptr := r.1.ptr, deleter := src.deleter }, { ptr := 0, deleter := src.deleter }, r.2)

/-- Assignment of `nullptr` to a `std::unique_ptr`: `reset()`. -/
def assign_nullptr (self : DataPtr) : Except Fault (DataPtr × List DeleterCall) :=
  self.reset 0

/-- The member `release()` of `std::unique_ptr`: the pointer given up and what
is left of the object. No deleter is called. -/
def release (self : DataPtr) : Nat × DataPtr :=
  (self.ptr, { ptr := 0, deleter := self.deleter })

end DataPtr

/-- The struct `Allocator`, by its virtual members: `allocate(n)` and
`raw_deleter()` (a function pointer, `0` when null). -/
structure Allocator where
  allocate : Nat → Except Fault DataPtr
  raw_deleter : Nat

namespace Allocator

/-- A backend that overrides only `allocate`: its `raw_deleter()` is the one of
the base class, `return nullptr;`. -/
def ofAllocate (allocate : Nat → Except Fault DataPtr) : Allocator :=
  { allocate := allocate, raw_deleter := 0 }

/-- The member `raw_allocate(n)`: `auto dptr = allocate(n); return
dptr.release();`. Returns the raw pointer and the deleter calls made when
`dptr` goes out of scope. -/
def raw_allocate (a : Allocator) (n : Nat) : Except Fault (Nat × List DeleterCall) := do
  let dptr ← a.allocate n
  let r := dptr.release
  let calls ← r.2.dtor
  pure (r.1, calls)

/-- The member `raw_deallocate(ptr)`: `auto d = raw_deleter(); assert(d !=
nullptr, ...); d(ptr);`. Returns the deleter calls made. -/
def raw_deallocate (a : Allocator) (ptr : Nat) : Except Fault (List DeleterCall) :=
  let d := a.raw_deleter
  match assert (d != 0) with
  | .ok _ => .ok [(d, ptr)]
  | .error e => .error e

end Allocator

/-! ## alloc_cpu.hpp

The branch without `_MSC_VER` is embedded. The answer of the platform to
`posix_memalign(&data, alignment, size)` is a parameter: the error code it
returns and the pointer it stores in `data`. -/

/-- The constant `gAlignment`. -/
def gAlignment : Nat := 64

/-- The conversion `(ptrdiff_t)nbytes` of a 64-bit `size_t`. -/
def to_ptrdiff_t (nbytes : Nat) : Int :=
  if nbytes < 2 ^ 63 then (nbytes : Int) else (nbytes : Int) - 2 ^ 64

/-- The function `alloc_cpu(nbytes)`. First component: the calls of
`posix_memalign` made, as (alignment, size); second: the outcome. -/
def alloc_cpu (posix_memalign : Nat → Nat → Int × Nat) (nbytes : Nat) :
    List (Nat × Nat) × Except Fault Nat :=
  if nbytes = 0 then ([], .ok 0)
  else
    match assert (decide (to_ptrdiff_t nbytes ≥ 0)) with
    | .error e => ([], .error e)
    | .ok _ =>
      let r := posix_memalign gAlignment nbytes
      match assert (r.1 == 0) with
      | .error e => ([(gAlignment, nbytes)], .error e)
      | .ok _ => ([(gAlignment, nbytes)], .ok r.2)

/-- The function `free_cpu(data)`: the pointers passed to `free`. -/
def free_cpu (data : Nat) : List Nat := [data]

/-! ## CPUAllocator.hpp -/

namespace DefaultCPUAllocator

/-- The function pointer `&Delete`; it is not null. -/
def DeleteFn : Nat := 1

/-- The static member `Delete(ptr)`: the pointers passed to `free`. -/
def Delete (ptr : Nat) : List Nat :=
  if ptr = 0 then [] else free_cpu ptr

/-- The member `allocate(nbytes)`. -/
def allocate (posix_memalign : Nat → Nat → Int × Nat) (nbytes : Nat) :
    Except Fault DataPtr := do
  let data ← (alloc_cpu posix_memalign nbytes).2
  pure { ptr := data, deleter := DeleteFn }

/-- The member `raw_deleter()`: `return Delete;`. -/
def raw_deleter : Nat := DeleteFn

/-- The pointers passed to `free` by those of the deleter calls that go to
`Delete`. -/
def freed (calls : List DeleterCall) : List Nat :=
  (calls.map (fun c => if c.1 = DeleteFn then Delete c.2 else [])).flatten

end DefaultCPUAllocator

/-- The struct `DefaultCPUAllocator` as an `Allocator`. -/
def DefaultCPUAllocator (posix_memalign : Nat → Nat → Int × Nat) : Allocator :=
  { allocate := DefaultCPUAllocator.allocate posix_memalign,
    raw_deleter := DefaultCPUAllocator.raw_deleter }

/-! ## StorageImpl.hpp -/

/-- The members of `StorageImpl`. The pointer `allocator_` is `none` when null. -/
structure StorageImpl where
  data_ptr_ : DataPtr
  size_bytes_ : Nat
  resizable_ : Bool
  allocator_ : Option Allocator

namespace StorageImpl

/-- The constructor `StorageImpl(size_bytes, data_ptr, allocator, resizable)`. -/
def ctor (size_bytes : Nat) (data_ptr : DataPtr) (allocator : Option Allocator)
    (resizable : Bool) : StorageImpl :=
  { data_ptr_ := (DataPtr.move_ctor data_ptr).1, size_bytes_ := size_bytes,
    resizable_ := resizable, allocator_ := allocator }

/-- The constructor `StorageImpl(size_bytes, allocator, resizable)`, which
delegates with `allocator->allocate(size_bytes)`. -/
def ctor_allocate (size_bytes : Nat) (allocator : Option Allocator) (resizable : Bool) :
    Except Fault StorageImpl :=
  match allocator with
  | none => .error .undefined
  | some a => do
    let data_ptr ← a.allocate size_bytes
    pure (ctor size_bytes data_ptr allocator resizable)

/-- The destructor `~StorageImpl() = default`: the member `data_ptr_` is
destroyed. Returns the deleter calls made. -/
def dtor (self : StorageImpl) : Except Fault (List DeleterCall) :=
  self.data_ptr_.dtor

/-- The member `reset()`: `data_ptr_ = nullptr; size_bytes_ = 0;`. Returns the
block and the deleter calls made. -/
def reset (self : StorageImpl) : Except Fault (StorageImpl × List DeleterCall) := do
  let r ← self.data_ptr_.assign_nullptr
  pure ({ self with data_ptr_ := r.1, size_bytes_ := 0 }, r.2)

/-- The member `release_resources()`: `data_ptr_ = nullptr;`. Returns the block
and the deleter calls made. -/
def release_resources (self : StorageImpl) : Except Fault (StorageImpl × List DeleterCall) := do
  let r ← self.data_ptr_.assign_nullptr
  pure ({ self with data_ptr_ := r.1 }, r.2)

/-- The member `nbytes()`. -/
def nbytes (self : StorageImpl) : Nat := self.size_bytes_

/-- The member `set_nbytes(size_bytes)`. -/
def set_nbytes (self : StorageImpl) (size_bytes : Nat) : StorageImpl :=
  { self with size_bytes_ := size_bytes }

/-- The member `resizable()`. -/
def resizable (self : StorageImpl) : Bool := self.resizable_

/-- The member `data_ptr()`. -/
def data_ptr (self : StorageImpl) : DataPtr := self.data_ptr_

/-- The member `set_data_ptr(data_ptr)`. Returns the block, the `DataPtr`
returned, what is left of the argument, and the deleter calls made. -/
def set_data_ptr (self : StorageImpl) (data_ptr : DataPtr) :
    Except Fault (StorageImpl × DataPtr × DataPtr × List DeleterCall) := do
  let old := DataPtr.move_ctor self.data_ptr_
  let a ← DataPtr.move_assign old.2 data_ptr
  pure ({ self with data_ptr_ := a.1 }, old.1, a.2.1, a.2.2)

/-- The member `set_data_ptr_noswap(data_ptr)`. Returns the block, what is
left of the argument, and the deleter calls made. -/
def set_data_ptr_noswap (self : StorageImpl) (data_ptr : DataPtr) :
    Except Fault (StorageImpl × DataPtr × List DeleterCall) := do
  let a ← DataPtr.move_assign self.data_ptr_ data_ptr
  pure ({ self with data_ptr_ := a.1 }, a.2.1, a.2.2)

/-- The member `data()`. -/
def data (self : StorageImpl) : Nat := self.data_ptr_.ptr

/-- The member `allocator()`. -/
def allocator (self : StorageImpl) : Option Allocator := self.allocator_

/-- The member `set_allocator(allocator)`. -/
def set_allocator (self : StorageImpl) (allocator : Option Allocator) : StorageImpl :=
  { self with allocator_ := allocator }

/-- The member `set_resizable(resizable)`. -/
def set_resizable (self : StorageImpl) (resizable : Bool) : Except Fault StorageImpl := do
  if resizable then
    assert self.allocator_.isSome
  pure { self with resizable_ := resizable }

end StorageImpl

/-! ## Storage.hpp

A `Storage` has the single member `storage_impl_`, an
`intrusive_ptr<StorageImpl>`; its slot in the machine is the slot of that
member, and its implicit copy and move constructors, assignments and
destructor are those of the member. -/

namespace Storage

/-- The constructor `Storage(size_bytes, data_ptr, allocator, resizable)`;
`new` answers with the address `addr`. -/
def ctor_data_ptr (m : Machine StorageImpl) (addr size_bytes : Nat) (data_ptr : DataPtr)
    (allocator : Option Allocator) (resizable : Bool) : Except Fault (Machine StorageImpl) :=
  intrusive_ptr.make m addr (StorageImpl.ctor size_bytes data_ptr allocator resizable)

/-- The constructor `Storage(size_bytes, allocator, resizable)`; `new` answers
with the address `addr`. -/
def ctor_allocate (m : Machine StorageImpl) (addr size_bytes : Nat)
    (allocator : Option Allocator) (resizable : Bool) : Except Fault (Machine StorageImpl) := do
  let impl ← StorageImpl.ctor_allocate size_bytes allocator resizable
  intrusive_ptr.make m addr impl

/-- The member `use_count()`. -/
def use_count (m : Machine StorageImpl) (h : Nat) : Except Fault Nat :=
  intrusive_ptr.use_count m h

/-- The member `unique()`. -/
def unique (m : Machine StorageImpl) (h : Nat) : Except Fault Bool :=
  intrusive_ptr.unique m h

/-- The member `is_alias_of(other)`. -/
def is_alias_of (m : Machine StorageImpl) (self other : Nat) : Except Fault Bool :=
  intrusive_ptr.eq m self other

/-- The member `set_data_ptr(data_ptr)`: `storage_impl_.get()->set_data_ptr(...)`.
Returns the state, the `DataPtr` returned, what is left of the argument, and
the deleter calls made. -/
def set_data_ptr (m : Machine StorageImpl) (h : Nat) (data_ptr : DataPtr) :
    Except Fault (Machine StorageImpl × DataPtr × DataPtr × List DeleterCall) := do
  let p ← intrusive_ptr.get m h
  if p = singleton then .error .undefined
  else
    match m.heap p with
    | none => .error .undefined
    | some t => do
      let r ← t.obj.set_data_ptr data_ptr
      pure (m.store p (some { t with obj := r.1 }), r.2.1, r.2.2.1, r.2.2.2)

/-- The block a member call `storage_impl_->f()` or `storage_impl_.get()->f()`
works on: its address and the target there. The call is undefined when the
handle is null or the block is gone. -/
def block (m : Machine StorageImpl) (h : Nat) :
    Except Fault (Nat × intrusive_ptr_target StorageImpl) := do
  let p ← intrusive_ptr.get m h
  if p = singleton then .error .undefined
  else
    match m.heap p with
    | none => .error .undefined
    | some t => pure (p, t)

/-- The member `nbytes()`. -/
def nbytes (m : Machine StorageImpl) (h : Nat) : Except Fault Nat := do
  let b ← block m h
  pure b.2.obj.nbytes

/-- The member `set_nbytes(size_bytes)`. -/
def set_nbytes (m : Machine StorageImpl) (h : Nat) (size_bytes : Nat) :
    Except Fault (Machine StorageImpl) := do
  let b ← block m h
  pure (m.store b.1 (some { b.2 with obj := b.2.obj.set_nbytes size_bytes }))

/-- The member `resizable()`. -/
def resizable (m : Machine StorageImpl) (h : Nat) : Except Fault Bool := do
  let b ← block m h
  pure b.2.obj.resizable

/-- The member `data()`. -/
def data (m : Machine StorageImpl) (h : Nat) : Except Fault Nat := do
  let b ← block m h
  pure b.2.obj.data

/-- The member `data_ptr()`. -/
def data_ptr (m : Machine StorageImpl) (h : Nat) : Except Fault DataPtr := do
  let b ← block m h
  pure b.2.obj.data_ptr

/-- The member `allocator()`. -/
def allocator (m : Machine StorageImpl) (h : Nat) : Except Fault (Option Allocator) := do
  let b ← block m h
  pure b.2.obj.allocator

/-- The member `unsafeGetStorageImpl()`. -/
def unsafeGetStorageImpl (m : Machine StorageImpl) (h : Nat) : Except Fault Nat :=
  intrusive_ptr.get m h

/-- The member `unsafeReleaseStorageImpl()`; the raw pointer it returns is
dropped here. -/
def unsafeReleaseStorageImpl (m : Machine StorageImpl) (h : Nat) :
    Except Fault (Machine StorageImpl) :=
  intrusive_ptr.release m h

/-- The call `p->reset()` of `StorageImpl::reset` on the block at address `p`,
as through `unsafeGetStorageImpl()`. Returns the state and the deleter calls
made. -/
def reset_block (m : Machine StorageImpl) (p : Nat) :
    Except Fault (Machine StorageImpl × List DeleterCall) :=
  if p = singleton then .error .undefined
  else
    match m.heap p with
    | none => .error .undefined
    | some t => do
      let r ← t.obj.reset
      pure (m.store p (some { t with obj := r.1 }), r.2)

/-- The destructors of the deleted blocks `log`, run in the order of deletion.
Returns the deleter calls made; the first destructor that does not return ends
the program there. -/
def destroyed : List (Nat × StorageImpl) → Except Fault (List DeleterCall)
  | [] => .ok []
  | e :: log => do
    let calls ← StorageImpl.dtor e.2
    let rest ← destroyed log
    pure (calls ++ rest)

/-- The deleter calls made by the destructors of the blocks deleted so far, or
the fault with which one of those destructors ended the program. -/
def deleterCalls (m : Machine StorageImpl) : Except Fault (List DeleterCall) :=
  destroyed m.deleted

end Storage

/-! ## Programs over handles -/

/-- The operations a program performs on its handles. -/
inductive Op (α : Type)
  | make_intrusive (addr : Nat) (obj : α)
  | default_ctor
  | copy_ctor (rhs : Nat)
  | move_ctor (rhs : Nat)
  | copy_assign (lhs rhs : Nat)
  | move_assign (lhs rhs : Nat)
  | swap (lhs rhs : Nat)
  | reset (h : Nat)
  | dtor (h : Nat)
  | release (h : Nat)

/-- Does the operation call `release()`? -/
def Op.isRelease {α : Type} : Op α → Bool
  | .release _ => true
  | _ => false

/-- One operation of the program. -/
def step {α : Type} (m : Machine α) : Op α → Except Fault (Machine α)
  | .make_intrusive addr obj => intrusive_ptr.make m addr obj
  | .default_ctor => intrusive_ptr.default_ctor m
  | .copy_ctor rhs => intrusive_ptr.copy_ctor m rhs
  | .move_ctor rhs => intrusive_ptr.move_ctor m rhs
  | .copy_assign lhs rhs => intrusive_ptr.copy_assign m lhs rhs
  | .move_assign lhs rhs => intrusive_ptr.move_assign m lhs rhs
  | .swap lhs rhs => intrusive_ptr.swap m lhs rhs
  | .reset h => intrusive_ptr.reset m h
  | .dtor h => intrusive_ptr.dtor m h
  | .release h => intrusive_ptr.release m h

/-! ## Vocabulary of the claims -/

/-- The counter stored at address `q`; `0` where no target lives. -/
def Machine.counter {α : Type} (m : Machine α) (q : Nat) : Nat :=
  match m.heap q with
  | some t => t.refcount_
  | none => 0

/-- The number of targets alive at address `q`: `1` or `0`. -/
def Machine.alive {α : Type} (m : Machine α) (q : Nat) : Nat :=
  if (m.heap q).isSome then 1 else 0

/-- The number of `delete target_` executed so far on address `q`. -/
def Machine.deletions {α : Type} (m : Machine α) (q : Nat) : Nat :=
  (m.deleted.map Prod.fst).count q

/-- The number of targets that the operations `ops` construct at address `q`. -/
def constructions {α : Type} : List (Op α) → Nat → Nat
  | [], _ => 0
  | .make_intrusive addr _ :: ops, q => (if addr = q then 1 else 0) + constructions ops q
  | _ :: ops, q => constructions ops q

/-- The counting discipline: the counter of every live target is the number of
live handles that hold it, at least one handle holds it, and no live handle
holds an address where no target lives. -/
def Machine.Counted {α : Type} (m : Machine α) : Prop :=
  ∀ q, q ≠ 0 →
    (∀ t, m.heap q = some t → t.refcount_ = m.holders q ∧ 1 ≤ m.holders q) ∧
    (m.heap q = none → m.holders q = 0)

/-- An execution: `Exec m ops m1` says that the operations `ops`, run in order
from state `m`, all return and end in state `m1`. No operation is `release()`,
and fewer than `2 ^ 64` handle objects are alive after each of them (a handle
occupies at least one byte of a 64-bit address space). -/
inductive Exec {α : Type} : Machine α → List (Op α) → Machine α → Prop
  | nil (m : Machine α) : Exec m [] m
  | cons {m m1 m2 : Machine α} {op : Op α} {ops : List (Op α)} :
      op.isRelease = false → step m op = .ok m1 → m1.liveHandles < 2 ^ 64 →
      Exec m1 ops m2 → Exec m (op :: ops) m2

/-- The operands of the operation are live handles, and the address a
`make_intrusive` receives from `new` is non-null and not in use. -/
def Op.wellFormed {α : Type} (m : Machine α) : Op α → Prop
  | .make_intrusive addr _ => addr ≠ 0 ∧ m.heap addr = none
  | .default_ctor => True
  | .copy_ctor rhs => ∃ p, m.target_ rhs = .ok p
  | .move_ctor rhs => ∃ p, m.target_ rhs = .ok p
  | .copy_assign lhs rhs => (∃ p, m.target_ lhs = .ok p) ∧ ∃ p, m.target_ rhs = .ok p
  | .move_assign lhs rhs => (∃ p, m.target_ lhs = .ok p) ∧ ∃ p, m.target_ rhs = .ok p
  | .swap lhs rhs => (∃ p, m.target_ lhs = .ok p) ∧ ∃ p, m.target_ rhs = .ok p
  | .reset h => ∃ p, m.target_ h = .ok p
  | .dtor h => ∃ p, m.target_ h = .ok p
  | .release h => ∃ p, m.target_ h = .ok p

/-- Run the operations in order; stop at the first one that does not return. -/
def run {α : Type} : Machine α → List (Op α) → Except Fault (Machine α)
  | m, [] => .ok m
  | m, op :: ops => do
    let m1 ← step m op
    run m1 ops

/-- One copy-then-drop round on the handle in slot `h`: a copy of it is
constructed (it takes the next free slot) and destroyed again. -/
def copyThenDrop {α : Type} (m : Machine α) (h : Nat) : Except Fault (Machine α) := do
  let m1 ← intrusive_ptr.copy_ctor m h
  intrusive_ptr.dtor m1 m.handles.length

/-- The function `rounds n m h` runs `n` copy-then-drop rounds on the handle `h`. -/
def rounds {α : Type} : Nat → Machine α → Nat → Except Fault (Machine α)
  | 0, m, _ => .ok m
  | n + 1, m, h => do
    let m1 ← copyThenDrop m h
    rounds n m1 h

/-- The state in which `ops`, run from the empty program state, end; the empty
state again if one of them does not return. -/
def finalState {α : Type} (ops : List (Op α)) : Machine α :=
  match run Machine.init ops with
  | .ok m => m
  | .error _ => Machine.init

/-- Is the operation a copy construction or a destruction? -/
def Op.isCopyOrDrop {α : Type} : Op α → Bool
  | .copy_ctor _ => true
  | .dtor _ => true
  | _ => false

/-- The number of copy constructions among the operations. -/
def copies {α : Type} : List (Op α) → Nat
  | [] => 0
  | .copy_ctor _ :: ops => copies ops + 1
  | _ :: ops => copies ops

/-- The number of destructions among the operations. -/
def drops {α : Type} : List (Op α) → Nat
  | [] => 0
  | .dtor _ :: ops => drops ops + 1
  | _ :: ops => drops ops

/-- The construction a handle derives from: `originOf g h` is the number of the
construction (the slot of the handle that `make_intrusive` returned) from which
the handle in slot `h` got its target by copies and moves; `none` for a handle
that holds no target. -/
def originOf (g : List (Option Nat)) (h : Nat) : Option Nat :=
  (g[h]?).join

/-- How one operation passes origins on: a construction starts a new origin, a
copy or move hands the origin of the source to the destination, and a handle
that is moved from, reset, released or destroyed has none. -/
def originStep {α : Type} (g : List (Option Nat)) : Op α → List (Option Nat)
  | .make_intrusive _ _ => g ++ [some g.length]
  | .default_ctor => g ++ [none]
  | .copy_ctor rhs => g ++ [originOf g rhs]
  | .move_ctor rhs => (g ++ [originOf g rhs]).set rhs none
  | .copy_assign lhs rhs => g.set lhs (originOf g rhs)
  | .move_assign lhs rhs => (g.set rhs none).set lhs (originOf g rhs)
  | .swap lhs rhs => (g.set lhs (originOf g rhs)).set rhs (originOf g lhs)
  | .reset h => g.set h none
  | .dtor h => g.set h none
  | .release h => g.set h none

/-- The origins of all handles after the operations `ops`, started with the
origins `g`. -/
def originsFrom {α : Type} (g : List (Option Nat)) (ops : List (Op α)) : List (Option Nat) :=
  ops.foldl originStep g

/-- The origins of all handles after the operations `ops` of a program. -/
def origins {α : Type} (ops : List (Op α)) : List (Option Nat) :=
  originsFrom [] ops

/-- The predicate `resizable()` implies `allocator() != nullptr`. -/
def StorageImpl.resizableHasAllocator (self : StorageImpl) : Prop :=
  self.resizable = true → self.allocator.isSome = true

/-! ## Vocabulary of the proofs -/

/-- What one operation does to a state that keeps the counting discipline: the
discipline is kept, and the operation deletes exactly the target that lost its
last holder. -/
def StepFacts {α : Type} (m m1 : Machine α) : Prop :=
  ∀ q, q ≠ 0 →
    m1.counter q = m1.holders q ∧ m1.alive q = min 1 (m1.holders q) ∧
    m1.deletions q
      = m.deletions q + (if 1 ≤ m.holders q ∧ m1.holders q = 0 then 1 else 0)

/-- The origin read off a handle slot when the target at address `p` was made
by construction `f p`. -/
def tag (f : Nat → Nat) : Option Nat → Option Nat
  | some p => if p = 0 then none else some (f p)
  | none => none

/-- What an operation that returns does to the handle slots. -/
def handleStep {α : Type} (l : List (Option Nat)) : Op α → List (Option Nat)
  | .make_intrusive addr _ => l ++ [some addr]
  | .default_ctor => l ++ [some 0]
  | .copy_ctor rhs => l ++ [(l[rhs]?).join]
  | .move_ctor rhs => (l ++ [(l[rhs]?).join]).set rhs (some 0)
  | .copy_assign lhs rhs => l.set lhs ((l[rhs]?).join)
  | .move_assign lhs rhs => (l.set rhs (some 0)).set lhs ((l[rhs]?).join)
  | .swap lhs rhs => (l.set lhs ((l[rhs]?).join)).set rhs ((l[lhs]?).join)
  | .reset h => l.set h (some 0)
  | .dtor h => l.set h none
  | .release h => l.set h (some 0)

/-- The link between handle slots and origins: the origins are read off the
slots through a numbering `f` of the live targets by construction. -/
def Linked {α : Type} (m : Machine α) (g : List (Option Nat)) : Prop :=
  ∃ f : Nat → Nat, g = m.handles.map (tag f) ∧
    (∀ p, p ≠ 0 → m.alive p = 1 → f p < g.length) ∧
    (∀ p q, p ≠ 0 → q ≠ 0 → m.alive p = 1 → m.alive q = 1 → f p = f q → p = q)

/-! ## Sample programs and states -/

/-- A sample program: a target is made at address 5, the handle is copied,
then both handles are destroyed. -/
def sampleDropAll : List (Op Unit) :=
  [.make_intrusive 5 (), .copy_ctor 0, .dtor 0, .dtor 1]

/-- A sample program: a target is made at address 5, the handle is copied
twice, then the first handle is destroyed. -/
def sampleKeepTwo : List (Op Unit) :=
  [.make_intrusive 5 (), .copy_ctor 0, .copy_ctor 1, .dtor 0]

/-- A sample program: one target is made at address 5. -/
def sampleOne : List (Op Unit) := [.make_intrusive 5 ()]

/-- A sample block: 16 bytes at address 100, to be freed by the deleter 7, no
allocator, not resizable. -/
def sampleImpl : StorageImpl := StorageImpl.ctor 16 { ptr := 100, deleter := 7 } none false

/-- A sample program: a `Storage` is constructed around `sampleImpl`, copied
three times, and two of the copies are dropped. -/
def sampleStorageOps : List (Op StorageImpl) :=
  [.make_intrusive 5 sampleImpl, .copy_ctor 0, .copy_ctor 0, .copy_ctor 1, .dtor 1, .dtor 3]

/-- A sample program: a `Storage` of size 0 is constructed around a null
buffer with the deleter 7, and dropped. -/
def sampleNullBufferOps : List (Op StorageImpl) :=
  [.make_intrusive 5 (StorageImpl.ctor 0 { ptr := 0, deleter := 7 } none false), .dtor 0]

/-- A state in which the counter of the target at address 5 holds the largest
`size_t`, as after `2 ^ 64 - 2` rounds of copying the handle and calling
`release()` on the copy, or after a store to the public member `refcount_`.
One handle, in slot 0, holds the target. -/
def saturated : Machine Unit :=
  { heap := fun q => if q = 5 then some { refcount_ := 2 ^ 64 - 1, obj := () } else none,
    handles := [some 5], deleted := [] }

/-- A state in which the counter of the target at address 5 is zero while a
handle in slot 0 points at it, as after a store of 0 to the public member
`refcount_`. -/
def zeroed : Machine Unit :=
  { heap := fun q => if q = 5 then some { refcount_ := 0, obj := () } else none,
    handles := [some 5], deleted := [] }

/-- A sample program: two `Storage` objects are constructed independently, with
the same size. -/
def sampleTwoStorages : List (Op StorageImpl) :=
  [.make_intrusive 5 sampleImpl, .make_intrusive 6 sampleImpl]

/-- A sample program: two `Storage` objects are default-constructed. -/
def sampleTwoDefaults : List (Op StorageImpl) := [.default_ctor, .default_ctor]

/-- A sample program: a `Storage` is default-constructed. -/
def sampleDefault : List (Op StorageImpl) := [.default_ctor]

/-- A sample program: a `Storage` is constructed around `sampleImpl` and then
moved from. The moved-from handle is in slot 0. -/
def sampleMovedFrom : List (Op StorageImpl) := [.make_intrusive 5 sampleImpl, .move_ctor 0]

/-- A sample program: a `Storage` is constructed around `sampleImpl` and its
block is released with `unsafeReleaseStorageImpl()`. -/
def sampleReleased : List (Op StorageImpl) := [.make_intrusive 5 sampleImpl, .release 0]

/-- A sample program: a `Storage` is constructed around `sampleImpl`, copied
once, and both handles are dropped. -/
def sampleStorageAllDropped : List (Op StorageImpl) :=
  [.make_intrusive 5 sampleImpl, .copy_ctor 0, .dtor 0, .dtor 1]

/-- A sample program: a `Storage` is constructed around `sampleImpl` and
dropped. -/
def sampleStorageDropped : List (Op StorageImpl) := [.make_intrusive 5 sampleImpl, .dtor 0]

/-- A sample block: 16 bytes at address 100 with the deleter 7, asked to be
resizable, with no allocator. -/
def sampleResizableNoAllocator : StorageImpl :=
  StorageImpl.ctor 16 { ptr := 100, deleter := 7 } none true

/-- A sample allocator: it answers every request with a null buffer and has
the deleter 7. -/
def sampleAllocator : Allocator :=
  { allocate := fun _ => .ok { ptr := 0, deleter := 7 }, raw_deleter := 7 }

/-- A sample block: 16 bytes at address 100 with the deleter 7, resizable, made
by `sampleAllocator`. -/
def sampleResizable : StorageImpl :=
  StorageImpl.ctor 16 { ptr := 100, deleter := 7 } (some sampleAllocator) true

/-- A sample platform: `posix_memalign` succeeds and stores the pointer 4096. -/
def samplePlatform : Nat → Nat → Int × Nat := fun _ _ => (0, 4096)

/-- A sample program: a target is made at address 5 and the handle is copied,
so that the handles in slots 0 and 1 hold the same target. -/
def sampleShared : List (Op Unit) := [.make_intrusive 5 (), .copy_ctor 0]

/-- A sample program: two targets are made, at the addresses 5 and 6; the
handles in slots 0 and 1 hold one each. -/
def sampleTwoTargets : List (Op Unit) := [.make_intrusive 5 (), .make_intrusive 6 ()]

/-! ## Theorems -/

/-! ### Lists and `Except` -/

theorem count_set_add {β : Type} [BEq β] [LawfulBEq β] (l : List β) (i : Nat)
    (x y a : β) (h : l[i]? = some x) :
    (l.set i y).count a + (if x == a then 1 else 0)
      = l.count a + (if y == a then 1 else 0) := by
  induction l generalizing i with
  | nil => simp at h
  | cons b l ih =>
    cases i with
    | zero =>
      simp at h
      subst h
      simp only [List.set_cons_zero, List.count_cons]
      omega
    | succ i =>
      simp at h
      have := ih i h
      simp only [List.set_cons_succ, List.count_cons]
      omega

theorem count_some_le_countP (l : List (Option Nat)) (p : Nat) :
    l.count (some p) ≤ l.countP Option.isSome := by
  induction l with
  | nil => simp
  | cons b l ih =>
    simp only [List.count_cons, List.countP_cons, beq_iff_eq]
    cases b with
    | none => simp; omega
    | some v => simp; split <;> omega

theorem bind_ok {ε β γ : Type} (x : Except ε β) (f : β → Except ε γ) (b : γ) :
    (x >>= f) = .ok b ↔ ∃ a, x = .ok a ∧ f a = .ok b := by
  cases x <;> simp [bind, Except.bind]

/-! ### The machine -/

section machine
variable {α : Type}

theorem target_ok (m : Machine α) (h p : Nat) :
    m.target_ h = .ok p ↔ m.handles[h]? = some (some p) := by
  unfold Machine.target_
  split
  · next q hq => simp [hq]
  · next hne =>
    constructor
    · intro h1; cases h1
    · intro h1; exact absurd h1 (hne p)

theorem holders_le_live (m : Machine α) (p : Nat) : m.holders p ≤ m.liveHandles :=
  count_some_le_countP m.handles p

theorem holders_pos (m : Machine α) (h p : Nat) (hp : m.target_ h = .ok p) :
    1 ≤ m.holders p := by
  rw [target_ok] at hp
  have : some p ∈ m.handles := List.getElem?_mem hp
  exact List.count_pos_iff.mpr this

theorem holders_push (m : Machine α) (p q : Nat) :
    (m.push p).holders q = m.holders q + (if p = q then 1 else 0) := by
  simp [Machine.push, Machine.holders, List.count_singleton]

theorem holders_setTarget (m : Machine α) (h x y q : Nat) (hx : m.target_ h = .ok x) :
    (m.setTarget h y).holders q + (if x = q then 1 else 0)
      = m.holders q + (if y = q then 1 else 0) := by
  rw [target_ok] at hx
  have := count_set_add m.handles h (some x) (some y) (some q) hx
  simpa [Machine.setTarget, Machine.holders] using this

theorem holders_kill (m : Machine α) (h x q : Nat) (hx : m.target_ h = .ok x) :
    (m.kill h).holders q + (if x = q then 1 else 0) = m.holders q := by
  rw [target_ok] at hx
  have := count_set_add m.handles h (some x) none (some q) hx
  simpa [Machine.kill, Machine.holders] using this

theorem target_setTarget (m : Machine α) (h p k : Nat) (x : Nat) (hx : m.target_ h = .ok x) :
    (m.setTarget h p).target_ k = if k = h then .ok p else m.target_ k := by
  rw [target_ok] at hx
  have hlt : h < m.handles.length := by
    by_contra hc
    rw [List.getElem?_eq_none (by omega)] at hx
    cases hx
  unfold Machine.target_ Machine.setTarget
  simp only [List.getElem?_set]
  by_cases hk : k = h
  · subst hk; simp [hlt]
  · have : ¬ h = k := fun e => hk e.symm
    simp [hk, this]

theorem retain_null (m : Machine α) : intrusive_ptr.retain_ m 0 = .ok m := by
  simp [intrusive_ptr.retain_, singleton]

theorem reset_null (m : Machine α) : intrusive_ptr.reset_ m 0 = .ok m := by
  simp [intrusive_ptr.reset_, singleton]

theorem retain_spec (m : Machine α) (p : Nat) (t : intrusive_ptr_target α)
    (hp : p ≠ 0) (ht : m.heap p = some t) :
    intrusive_ptr.retain_ m p =
      if (t.refcount_ + 1) % 2 ^ 64 = 1 then .error .terminate
      else .ok (m.store p (some { t with refcount_ := (t.refcount_ + 1) % 2 ^ 64 })) := by
  simp only [intrusive_ptr.retain_, singleton, ne_eq, hp, not_false_eq_true, if_true, ht,
    atomic_refcount_increment, assert]
  split_ifs <;> simp_all

theorem reset_spec (m : Machine α) (p : Nat) (t : intrusive_ptr_target α)
    (hp : p ≠ 0) (ht : m.heap p = some t) :
    intrusive_ptr.reset_ m p =
      if (t.refcount_ + (2 ^ 64 - 1)) % 2 ^ 64 = 0 then
        .ok { m.store p none with deleted := m.deleted ++ [(p, t.obj)] }
      else
        .ok (m.store p (some { t with refcount_ := (t.refcount_ + (2 ^ 64 - 1)) % 2 ^ 64 })) := by
  simp only [intrusive_ptr.reset_, singleton, ne_eq, hp, not_false_eq_true, if_true, ht,
    atomic_refcount_decrement]

theorem counted_iff (m : Machine α) :
    m.Counted ↔ ∀ q, q ≠ 0 →
      m.counter q = m.holders q ∧ m.alive q = min 1 (m.holders q) := by
  unfold Machine.Counted Machine.counter Machine.alive
  constructor
  · intro h q hq
    obtain ⟨h1, h2⟩ := h q hq
    cases ht : m.heap q with
    | none => have := h2 ht; simp [this]
    | some t => have := h1 t ht; simp; omega
  · intro h q hq
    obtain ⟨h1, h2⟩ := h q hq
    cases ht : m.heap q with
    | none => simp [ht] at h1 h2; simp; omega
    | some t =>
      simp [ht] at h1 h2
      simp
      exact ⟨h1, h2⟩

theorem counter_store (m : Machine α) (p q : Nat) (t : Option (intrusive_ptr_target α)) :
    (m.store p t).counter q
      = if q = p then (match t with | some u => u.refcount_ | none => 0)
        else m.counter q := by
  unfold Machine.counter Machine.store
  by_cases h : q = p <;> simp [h]

theorem alive_store (m : Machine α) (p q : Nat) (t : Option (intrusive_ptr_target α)) :
    (m.store p t).alive q = if q = p then (if t.isSome then 1 else 0) else m.alive q := by
  unfold Machine.alive Machine.store
  by_cases h : q = p <;> simp [h]

theorem counter_of_heap (m : Machine α) (p : Nat) (t : intrusive_ptr_target α)
    (ht : m.heap p = some t) : m.counter p = t.refcount_ ∧ m.alive p = 1 := by
  simp [Machine.counter, Machine.alive, ht]

/-- A held address is the address of a live target. -/
theorem held_alive {m : Machine α} (hm : m.Counted) {h p : Nat}
    (hp : m.target_ h = .ok p) (h0 : p ≠ 0) :
    ∃ t, m.heap p = some t ∧ t.refcount_ = m.holders p := by
  have hpos := holders_pos m h p hp
  obtain ⟨h1, h2⟩ := hm p h0
  cases ht : m.heap p with
  | none => have := h2 ht; omega
  | some t => exact ⟨t, rfl, (h1 t ht).1⟩

theorem retain_ok (m m1 : Machine α) (p : Nat) (h : intrusive_ptr.retain_ m p = .ok m1) :
    m1.handles = m.handles ∧ m1.deleted = m.deleted ∧ (p = 0 → m1 = m) ∧
    (p ≠ 0 → m.alive p = 1 ∧ (m.counter p + 1) % 2 ^ 64 ≠ 1 ∧
      ∀ q, m1.counter q = (if q = p then (m.counter p + 1) % 2 ^ 64 else m.counter q) ∧
        m1.alive q = m.alive q) := by
  by_cases h0 : p = 0
  · subst h0
    rw [retain_null] at h
    cases h
    simp
  · cases ht : m.heap p with
    | none => simp [intrusive_ptr.retain_, singleton, h0, ht] at h
    | some t =>
      obtain ⟨hc, ha⟩ := counter_of_heap m p t ht
      rw [retain_spec m p t h0 ht] at h
      split at h
      · cases h
      · next hne =>
        cases h
        refine ⟨rfl, rfl, fun e => absurd e h0, fun _ => ⟨ha, by rw [hc]; exact hne, fun q => ?_⟩⟩
        rw [counter_store, alive_store, hc]
        by_cases hq : q = p
        · subst hq; simp [ha]
        · simp [hq]

theorem reset_ok (m m1 : Machine α) (p : Nat) (h : intrusive_ptr.reset_ m p = .ok m1) :
    m1.handles = m.handles ∧ (p = 0 → m1 = m) ∧
    (p ≠ 0 → m.alive p = 1 ∧
      ((m.counter p + (2 ^ 64 - 1)) % 2 ^ 64 = 0 →
        (∃ t, m.heap p = some t ∧ m1.deleted = m.deleted ++ [(p, t.obj)]) ∧
        ∀ q, m1.counter q = (if q = p then 0 else m.counter q) ∧
          m1.alive q = (if q = p then 0 else m.alive q)) ∧
      ((m.counter p + (2 ^ 64 - 1)) % 2 ^ 64 ≠ 0 →
        m1.deleted = m.deleted ∧
        ∀ q, m1.counter q
            = (if q = p then (m.counter p + (2 ^ 64 - 1)) % 2 ^ 64 else m.counter q) ∧
          m1.alive q = m.alive q)) := by
  by_cases h0 : p = 0
  · subst h0
    rw [reset_null] at h
    cases h
    simp
  · cases ht : m.heap p with
    | none => simp [intrusive_ptr.reset_, singleton, h0, ht] at h
    | some t =>
      obtain ⟨hc, ha⟩ := counter_of_heap m p t ht
      rw [reset_spec m p t h0 ht] at h
      split at h
      · next he =>
        cases h
        refine ⟨rfl, fun e => absurd e h0, fun _ => ⟨ha, fun _ => ⟨⟨t, rfl, rfl⟩, fun q => ?_⟩,
          fun hne => absurd (by rw [hc]; exact he) hne⟩⟩
        have h1 := counter_store m p q none
        have h2 := alive_store m p q none
        simpa [Machine.counter, Machine.alive, Machine.store] using And.intro h1 h2
      · next hne =>
        cases h
        refine ⟨rfl, fun e => absurd e h0, fun _ => ⟨ha, fun he => absurd (by rw [← hc]; exact he) hne,
          fun _ => ⟨rfl, fun q => ?_⟩⟩⟩
        rw [counter_store, alive_store, hc]
        by_cases hq : q = p
        · subst hq; simp [ha]
        · simp [hq]

theorem holders_congr (m m1 : Machine α) (h : m1.handles = m.handles) (q : Nat) :
    m1.holders q = m.holders q := by
  simp [Machine.holders, h]

theorem target_congr (m m1 : Machine α) (h : m1.handles = m.handles) (k : Nat) :
    m1.target_ k = m.target_ k := by
  simp [Machine.target_, h]

theorem retain_eff (m m1 : Machine α) (p : Nat) (h : intrusive_ptr.retain_ m p = .ok m1) :
    m1.handles = m.handles ∧ m1.deleted = m.deleted ∧
    ∀ q, q ≠ 0 →
      m1.counter q = (if q = p then (m.counter q + 1) % 2 ^ 64 else m.counter q) ∧
      m1.alive q = m.alive q ∧ (q = p → m.alive q = 1 ∧ (m.counter q + 1) % 2 ^ 64 ≠ 1) := by
  obtain ⟨a, b, c, d⟩ := retain_ok m m1 p h
  refine ⟨a, b, fun q hq => ?_⟩
  by_cases h0 : p = 0
  · have := c h0
    subst this
    have : ¬ q = p := fun e => hq (e.trans h0)
    simp [this]
  · obtain ⟨d1, d2, d3⟩ := d h0
    refine ⟨?_, (d3 q).2, fun e => ?_⟩
    · rw [(d3 q).1]
      by_cases e : q = p
      · subst e; simp
      · simp [e]
    · subst e; exact ⟨d1, d2⟩

theorem deletions_append (m m1 : Machine α) (p q : Nat) (v : α)
    (h : m1.deleted = m.deleted ++ [(p, v)]) :
    m1.deletions q = m.deletions q + (if q = p then 1 else 0) := by
  unfold Machine.deletions
  rw [h]
  by_cases e : q = p
  · subst e; simp
  · have : ¬ p = q := fun e2 => e e2.symm
    simp [e, this, List.count_singleton]

theorem deletions_congr (m m1 : Machine α) (h : m1.deleted = m.deleted) (q : Nat) :
    m1.deletions q = m.deletions q := by
  simp [Machine.deletions, h]

theorem reset_eff (m m1 : Machine α) (p : Nat) (h : intrusive_ptr.reset_ m p = .ok m1) :
    m1.handles = m.handles ∧
    ∀ q, q ≠ 0 →
      m1.counter q = (if q = p then (m.counter q + (2 ^ 64 - 1)) % 2 ^ 64 else m.counter q) ∧
      m1.alive q
        = (if q = p ∧ (m.counter q + (2 ^ 64 - 1)) % 2 ^ 64 = 0 then 0 else m.alive q) ∧
      m1.deletions q = m.deletions q
        + (if q = p ∧ (m.counter q + (2 ^ 64 - 1)) % 2 ^ 64 = 0 then 1 else 0) ∧
      (q = p → m.alive q = 1) := by
  obtain ⟨a, c, d⟩ := reset_ok m m1 p h
  refine ⟨a, fun q hq => ?_⟩
  by_cases h0 : p = 0
  · have := c h0
    subst this
    have : ¬ q = p := fun e => hq (e.trans h0)
    simp [this]
  · obtain ⟨d1, d2, d3⟩ := d h0
    by_cases e : q = p
    · subst e
      by_cases hz : (m.counter q + (2 ^ 64 - 1)) % 2 ^ 64 = 0
      · have := ((d2 hz).2 q)
        obtain ⟨t, -, ht⟩ := (d2 hz).1
        have hd := deletions_append m m1 q q t.obj ht
        simp only [if_true] at this hd
        simp only [if_true, hz, and_self, true_and]
        exact ⟨this.1, this.2, hd, fun _ => d1⟩
      · have := ((d3 hz).2 q)
        have hd := deletions_congr m m1 (d3 hz).1 q
        simp only [if_true] at this
        simp only [if_true, hz, and_false, if_false, true_and]
        exact ⟨this.1, this.2, hd, fun _ => d1⟩
    · by_cases hz : (m.counter p + (2 ^ 64 - 1)) % 2 ^ 64 = 0
      · have := ((d2 hz).2 q)
        obtain ⟨t, -, ht⟩ := (d2 hz).1
        have hd := deletions_append m m1 p q t.obj ht
        simp only [e, if_false] at this hd
        simp only [e, if_false, false_and, false_implies, and_true]
        exact ⟨this.1, this.2, hd⟩
      · have := ((d3 hz).2 q)
        have hd := deletions_congr m m1 (d3 hz).1 q
        simp only [e, if_false] at this
        simp only [e, if_false, false_and, false_implies, and_true]
        exact ⟨this.1, this.2, hd⟩

theorem copy_assign_facts (m m1 : Machine α) (lhs rhs : Nat) (hm : m.Counted)
    (hb : m.liveHandles < 2 ^ 64)
    (hs : intrusive_ptr.copy_assign m lhs rhs = .ok m1) (hb1 : m1.liveHandles < 2 ^ 64) :
    StepFacts m m1 := by
  simp only [intrusive_ptr.copy_assign, bind_ok] at hs
  obtain ⟨x, hx, p, hp, m2, h2, old, hold, hs⟩ := hs
  obtain ⟨rh, rd, r1⟩ := retain_eff m m2 p h2
  rw [target_congr m m2 rh, hx] at hold
  cases hold
  obtain ⟨sh, s1⟩ := reset_eff _ m1 x hs
  rw [counted_iff] at hm
  intro q hq
  have hx2 : m2.target_ lhs = .ok x := by rw [target_congr m m2 rh, hx]
  have e1 := holders_setTarget m2 lhs x p q hx2
  have e2 := holders_congr m m2 rh q
  have e3 := holders_congr _ m1 sh q
  have e4 := deletions_congr m m2 rd q
  have bq := holders_le_live m q
  have bq1 := holders_le_live m1 q
  have hmq := hm q hq
  have r1q := r1 q hq
  have s1q := s1 q hq
  have c1 : (m2.setTarget lhs p).counter q = m2.counter q := rfl
  have c2 : (m2.setTarget lhs p).alive q = m2.alive q := rfl
  have c3 : (m2.setTarget lhs p).deletions q = m2.deletions q := rfl
  rw [c1, c2, c3] at s1q
  clear hm r1 s1 hs h2 c1 c2 c3
  by_cases hqp : q = p
  · subst hqp
    by_cases hqx : q = x
    · subst hqx
      simp only [if_true, true_and, true_implies] at r1q s1q e1
      split_ifs at s1q ⊢ <;> omega
    · have hxq : ¬ x = q := fun e => hqx e.symm
      simp only [hqx, hxq, if_true, if_false, true_and, false_and, true_implies,
        false_implies, and_true] at r1q s1q e1
      split_ifs at s1q ⊢ <;> omega
  · have hpq : ¬ p = q := fun e => hqp e.symm
    by_cases hqx : q = x
    · subst hqx
      simp only [hqp, hpq, if_true, if_false, true_and, false_and, true_implies,
        false_implies, and_true] at r1q s1q e1
      split_ifs at s1q ⊢ <;> omega
    · have hxq : ¬ x = q := fun e => hqx e.symm
      simp only [hqp, hpq, hqx, hxq, if_true, if_false, true_and, false_and, true_implies,
        false_implies, and_true] at r1q s1q e1
      split_ifs at s1q ⊢ <;> omega

theorem target_push (m : Machine α) (p k x : Nat) (hx : m.target_ k = .ok x) :
    (m.push p).target_ k = .ok x := by
  rw [target_ok] at hx ⊢
  have hlt : k < m.handles.length := by
    by_contra hc
    rw [List.getElem?_eq_none (by omega)] at hx
    cases hx
  simp only [Machine.push]
  rw [List.getElem?_append_left hlt]
  exact hx

theorem reset_facts (m m1 : Machine α) (h : Nat) (hm : m.Counted)
    (hb : m.liveHandles < 2 ^ 64)
    (hs : intrusive_ptr.reset m h = .ok m1) :
    StepFacts m m1 := by
  simp only [intrusive_ptr.reset, bind_ok, pure, Except.pure, Except.ok.injEq] at hs
  obtain ⟨p, hp, m2, h2, rfl⟩ := hs
  obtain ⟨sh, s1⟩ := reset_eff m m2 p h2
  rw [counted_iff] at hm
  intro q hq
  have hp2 : m2.target_ h = .ok p := by rw [target_congr m m2 sh, hp]
  have e1 := holders_setTarget m2 h p singleton q hp2
  have e2 := holders_congr m m2 sh q
  have bq := holders_le_live m q
  have hmq := hm q hq
  have s1q := s1 q hq
  have c1 : (m2.setTarget h singleton).counter q = m2.counter q := rfl
  have c2 : (m2.setTarget h singleton).alive q = m2.alive q := rfl
  have c3 : (m2.setTarget h singleton).deletions q = m2.deletions q := rfl
  have h0q : ¬ singleton = q := fun e => hq e.symm
  rw [c1, c2, c3]
  clear hm s1 h2 c1 c2 c3
  by_cases hqp : q = p
  · subst hqp
    simp only [h0q, if_true, if_false, true_and, true_implies] at s1q e1
    split_ifs at s1q ⊢ <;> omega
  · have hpq : ¬ p = q := fun e => hqp e.symm
    simp only [h0q, hqp, hpq, if_true, if_false, true_and, false_and, true_implies,
        false_implies, and_true] at s1q e1
    split_ifs at s1q ⊢ <;> omega

theorem copy_ctor_facts (m m1 : Machine α) (rhs : Nat) (hm : m.Counted)
    (hb : m.liveHandles < 2 ^ 64)
    (hs : intrusive_ptr.copy_ctor m rhs = .ok m1) (hb1 : m1.liveHandles < 2 ^ 64) :
    StepFacts m m1 := by
  simp only [intrusive_ptr.copy_ctor, bind_ok, pure, Except.pure, Except.ok.injEq] at hs
  obtain ⟨p, hp, m2, h2, rfl⟩ := hs
  obtain ⟨rh, rd, r1⟩ := retain_eff m m2 p h2
  rw [counted_iff] at hm
  intro q hq
  have e1 := holders_push m2 p q
  have e2 := holders_congr m m2 rh q
  have e4 := deletions_congr m m2 rd q
  have bq := holders_le_live m q
  have bq1 := holders_le_live (m2.push p) q
  have hmq := hm q hq
  have r1q := r1 q hq
  have c1 : (m2.push p).counter q = m2.counter q := rfl
  have c2 : (m2.push p).alive q = m2.alive q := rfl
  have c3 : (m2.push p).deletions q = m2.deletions q := rfl
  rw [c1, c2, c3]
  clear hm r1 h2 c1 c2 c3
  by_cases hqp : q = p
  · subst hqp
    simp only [if_true, true_and, true_implies] at r1q e1
    split_ifs <;> omega
  · have hpq : ¬ p = q := fun e => hqp e.symm
    simp only [hqp, hpq, if_true, if_false, true_and, false_and, true_implies,
        false_implies, and_true] at r1q e1
    split_ifs <;> omega

theorem move_ctor_facts (m m1 : Machine α) (rhs : Nat) (hm : m.Counted)
    (hs : intrusive_ptr.move_ctor m rhs = .ok m1) :
    StepFacts m m1 := by
  simp only [intrusive_ptr.move_ctor, bind_ok, pure, Except.pure, Except.ok.injEq] at hs
  obtain ⟨p, hp, rfl⟩ := hs
  rw [counted_iff] at hm
  intro q hq
  have e1 := holders_push m p q
  have e2 := holders_setTarget (m.push p) rhs p singleton q (target_push m p rhs p hp)
  have hmq := hm q hq
  have h0q : ¬ singleton = q := fun e => hq e.symm
  have c1 : ((m.push p).setTarget rhs singleton).counter q = m.counter q := rfl
  have c2 : ((m.push p).setTarget rhs singleton).alive q = m.alive q := rfl
  have c3 : ((m.push p).setTarget rhs singleton).deletions q = m.deletions q := rfl
  rw [c1, c2, c3]
  simp only [h0q, if_false] at e2
  split_ifs <;> omega

theorem swap_facts (m m1 : Machine α) (lhs rhs : Nat) (hm : m.Counted)
    (hs : intrusive_ptr.swap m lhs rhs = .ok m1) :
    StepFacts m m1 := by
  simp only [intrusive_ptr.swap, bind_ok, pure, Except.pure, Except.ok.injEq] at hs
  obtain ⟨a, ha, b, hb, rfl⟩ := hs
  rw [counted_iff] at hm
  intro q hq
  have e1 := holders_setTarget m lhs a b q ha
  have hb2 : (m.setTarget lhs b).target_ rhs = .ok b := by
    rw [target_setTarget m lhs b rhs a ha]
    split
    · rfl
    · exact hb
  have e2 := holders_setTarget (m.setTarget lhs b) rhs b a q hb2
  have hmq := hm q hq
  have c1 : ((m.setTarget lhs b).setTarget rhs a).counter q = m.counter q := rfl
  have c2 : ((m.setTarget lhs b).setTarget rhs a).alive q = m.alive q := rfl
  have c3 : ((m.setTarget lhs b).setTarget rhs a).deletions q = m.deletions q := rfl
  rw [c1, c2, c3]
  split_ifs <;> omega

theorem default_ctor_facts (m m1 : Machine α) (hm : m.Counted)
    (hs : intrusive_ptr.default_ctor m = .ok m1) :
    StepFacts m m1 := by
  simp only [intrusive_ptr.default_ctor, intrusive_ptr.ctor_ptr, ne_eq, not_true_eq_false,
    if_false, Except.ok.injEq] at hs
  subst hs
  rw [counted_iff] at hm
  intro q hq
  have e1 := holders_push m singleton q
  have hmq := hm q hq
  have h0q : ¬ singleton = q := fun e => hq e.symm
  have c1 : (m.push singleton).counter q = m.counter q := rfl
  have c2 : (m.push singleton).alive q = m.alive q := rfl
  have c3 : (m.push singleton).deletions q = m.deletions q := rfl
  rw [c1, c2, c3]
  simp only [h0q, if_false] at e1
  split_ifs <;> omega

theorem dtor_facts (m m1 : Machine α) (h : Nat) (hm : m.Counted)
    (hb : m.liveHandles < 2 ^ 64)
    (hs : intrusive_ptr.dtor m h = .ok m1) :
    StepFacts m m1 := by
  simp only [intrusive_ptr.dtor, bind_ok, pure, Except.pure, Except.ok.injEq] at hs
  obtain ⟨p, hp, m2, h2, rfl⟩ := hs
  obtain ⟨sh, s1⟩ := reset_eff m m2 p h2
  rw [counted_iff] at hm
  intro q hq
  have hp2 : m2.target_ h = .ok p := by rw [target_congr m m2 sh, hp]
  have e1 := holders_kill m2 h p q hp2
  have e2 := holders_congr m m2 sh q
  have bq := holders_le_live m q
  have hmq := hm q hq
  have s1q := s1 q hq
  have c1 : (m2.kill h).counter q = m2.counter q := rfl
  have c2 : (m2.kill h).alive q = m2.alive q := rfl
  have c3 : (m2.kill h).deletions q = m2.deletions q := rfl
  rw [c1, c2, c3]
  clear hm s1 h2 c1 c2 c3
  by_cases hqp : q = p
  · subst hqp
    simp only [if_true, true_and, true_implies] at s1q e1
    split_ifs at s1q ⊢ <;> omega
  · have hpq : ¬ p = q := fun e => hqp e.symm
    simp only [hqp, hpq, if_true, if_false, true_and, false_and, true_implies,
        false_implies, and_true] at s1q e1
    split_ifs at s1q ⊢ <;> omega

theorem move_assign_facts (m m1 : Machine α) (lhs rhs : Nat) (hm : m.Counted)
    (hb : m.liveHandles < 2 ^ 64)
    (hs : intrusive_ptr.move_assign m lhs rhs = .ok m1) :
    StepFacts m m1 := by
  simp only [intrusive_ptr.move_assign, bind_ok] at hs
  obtain ⟨x, hx, p, hp, old, hold, hs⟩ := hs
  obtain ⟨sh, s1⟩ := reset_eff _ m1 old hs
  rw [counted_iff] at hm
  intro q hq
  have e1 := holders_setTarget m rhs p singleton q hp
  have e2 := holders_setTarget (m.setTarget rhs singleton) lhs old p q hold
  have e3 := holders_congr _ m1 sh q
  have bq := holders_le_live m q
  have hmq := hm q hq
  have s1q := s1 q hq
  have h0q : ¬ singleton = q := fun e => hq e.symm
  have c1 : ((m.setTarget rhs singleton).setTarget lhs p).counter q = m.counter q := rfl
  have c2 : ((m.setTarget rhs singleton).setTarget lhs p).alive q = m.alive q := rfl
  have c3 : ((m.setTarget rhs singleton).setTarget lhs p).deletions q = m.deletions q := rfl
  rw [c1, c2, c3] at s1q
  rw [target_setTarget m rhs singleton lhs p hp] at hold
  clear hm s1 hs c1 c2 c3
  by_cases hlr : lhs = rhs
  · simp only [hlr, if_true, Except.ok.injEq] at hold
    subst hold
    subst hlr
    rw [hx] at hp
    cases hp
    have hq0 : ¬ q = singleton := hq
    simp only [h0q, hq0, if_false, false_and] at s1q e1 e2
    split_ifs <;> omega
  · simp only [hlr, if_false] at hold
    rw [hx] at hold
    cases hold
    simp only [h0q, if_false] at e1
    by_cases hqx : q = x
    · subst hqx
      simp only [if_true, true_and, true_implies] at s1q e2
      split_ifs at s1q ⊢ <;> omega
    · have hxq : ¬ x = q := fun e => hqx e.symm
      simp only [hqx, hxq, if_false, false_and, false_implies, and_true] at s1q e2
      split_ifs <;> omega

theorem ctor_ptr_spec (m : Machine α) (p : Nat) (t : intrusive_ptr_target α)
    (hp : p ≠ 0) (ht : m.heap p = some t) :
    intrusive_ptr.ctor_ptr m p =
      if t.refcount_ = 0 then .ok ((m.store p (some { t with refcount_ := 1 })).push p)
      else .error .terminate := by
  simp only [intrusive_ptr.ctor_ptr, singleton, ne_eq, hp, not_false_eq_true, if_true, ht,
    assert]
  split_ifs <;> simp_all

theorem make_spec (m : Machine α) (addr : Nat) (obj : α) (h0 : addr ≠ 0)
    (hn : m.heap addr = none) :
    intrusive_ptr.make m addr obj
      = .ok (((m.store addr (some (intrusive_ptr_target.ctor obj))).store addr
          (some { refcount_ := 1, obj := obj })).push addr) := by
  unfold intrusive_ptr.make
  have hc : ¬ (addr = 0 ∨ (m.heap addr).isSome = true) := by simp [h0, hn]
  rw [if_neg hc]
  rw [ctor_ptr_spec _ addr (intrusive_ptr_target.ctor obj) h0 (by simp [Machine.store])]
  simp [intrusive_ptr_target.ctor]

theorem make_facts (m m1 : Machine α) (addr : Nat) (obj : α) (hm : m.Counted)
    (hs : intrusive_ptr.make m addr obj = .ok m1) :
    StepFacts m m1 ∧ addr ≠ 0 ∧ m.alive addr = 0 ∧
      ∀ q, m1.alive q = m.alive q + (if addr = q then 1 else 0) := by
  have hc : addr ≠ 0 ∧ m.heap addr = none := by
    unfold intrusive_ptr.make at hs
    split at hs
    · cases hs
    · next hc => simpa [not_or] using hc
  obtain ⟨h0, hn⟩ := hc
  rw [make_spec m addr obj h0 hn] at hs
  cases hs
  have ha : m.alive addr = 0 := by simp [Machine.alive, hn]
  rw [counted_iff] at hm
  have hal : ∀ q, (((m.store addr (some (intrusive_ptr_target.ctor obj))).store addr
      (some { refcount_ := 1, obj := obj })).push addr).alive q
      = m.alive q + (if addr = q then 1 else 0) := by
    intro q
    have c2 : ∀ x : Machine α, (x.push addr).alive q = x.alive q := fun _ => rfl
    rw [c2, alive_store, alive_store]
    by_cases hqa : q = addr
    · subst hqa; simp [ha]
    · have haq : ¬ addr = q := fun e => hqa e.symm
      simp [hqa, haq]
  refine ⟨fun q hq => ?_, h0, ha, hal⟩
  have hmq := hm q hq
  have e1 := holders_push m addr q
  have c0 : (((m.store addr (some (intrusive_ptr_target.ctor obj))).store addr
      (some { refcount_ := 1, obj := obj })).push addr).holders q = (m.push addr).holders q := rfl
  have c3 : (((m.store addr (some (intrusive_ptr_target.ctor obj))).store addr
      (some { refcount_ := 1, obj := obj })).push addr).deletions q = m.deletions q := rfl
  have c1 : ∀ x : Machine α, (x.push addr).counter q = x.counter q := fun _ => rfl
  rw [hal q, c0, c3, c1, counter_store, counter_store]
  by_cases hqa : q = addr
  · subst hqa
    simp only [if_true] at e1 ⊢
    rw [ha] at hmq
    split_ifs <;> omega
  · have haq : ¬ addr = q := fun e => hqa e.symm
    simp only [hqa, haq, if_false] at e1 ⊢
    split_ifs <;> omega

theorem alive_one (m : Machine α) (p : Nat) (h : m.alive p = 1) : ∃ t, m.heap p = some t := by
  unfold Machine.alive at h
  cases ht : m.heap p with
  | none => simp [ht] at h
  | some t => exact ⟨t, rfl⟩

theorem retain_progress (m : Machine α) (p : Nat)
    (h : p ≠ 0 → m.alive p = 1 ∧ (m.counter p + 1) % 2 ^ 64 ≠ 1) :
    ∃ m1, intrusive_ptr.retain_ m p = .ok m1 := by
  by_cases h0 : p = 0
  · subst h0; exact ⟨m, retain_null m⟩
  · obtain ⟨ha, hc⟩ := h h0
    obtain ⟨t, ht⟩ := alive_one m p ha
    rw [retain_spec m p t h0 ht]
    rw [(counter_of_heap m p t ht).1] at hc
    rw [if_neg hc]
    exact ⟨_, rfl⟩

theorem reset_progress (m : Machine α) (p : Nat) (h : p ≠ 0 → m.alive p = 1) :
    ∃ m1, intrusive_ptr.reset_ m p = .ok m1 := by
  by_cases h0 : p = 0
  · subst h0; exact ⟨m, reset_null m⟩
  · obtain ⟨t, ht⟩ := alive_one m p (h h0)
    rw [reset_spec m p t h0 ht]
    split <;> exact ⟨_, rfl⟩

/-- A held target is alive and its counter can be incremented. -/
theorem held_ready (m : Machine α) (hm : m.Counted) (hb : m.liveHandles < 2 ^ 64)
    (h p : Nat) (hp : m.target_ h = .ok p) (h0 : p ≠ 0) :
    m.alive p = 1 ∧ (m.counter p + 1) % 2 ^ 64 ≠ 1 := by
  have h1 := holders_pos m h p hp
  have h2 := holders_le_live m p
  have h3 := (counted_iff m).mp hm p h0
  omega

theorem step_progress (m : Machine α) (op : Op α) (hm : m.Counted)
    (hb : m.liveHandles < 2 ^ 64) (hw : op.wellFormed m) :
    ∃ m1, step m op = .ok m1 := by
  cases op with
  | make_intrusive addr obj =>
    exact ⟨_, make_spec m addr obj hw.1 hw.2⟩
  | default_ctor =>
    exact ⟨m.push singleton, by simp [step, intrusive_ptr.default_ctor, intrusive_ptr.ctor_ptr]⟩
  | copy_ctor rhs =>
    obtain ⟨p, hp⟩ := hw
    obtain ⟨m1, h1⟩ := retain_progress m p (held_ready m hm hb rhs p hp)
    exact ⟨m1.push p, by simp [step, intrusive_ptr.copy_ctor, hp, h1, bind, Except.bind, pure, Except.pure]⟩
  | move_ctor rhs =>
    obtain ⟨p, hp⟩ := hw
    exact ⟨(m.push p).setTarget rhs singleton,
      by simp [step, intrusive_ptr.move_ctor, hp, bind, Except.bind, pure, Except.pure]⟩
  | copy_assign lhs rhs =>
    obtain ⟨⟨x, hx⟩, p, hp⟩ := hw
    obtain ⟨m1, h1⟩ := retain_progress m p (held_ready m hm hb rhs p hp)
    obtain ⟨rh, -, r1⟩ := retain_eff m m1 p h1
    have hx1 : m1.target_ lhs = .ok x := by rw [target_congr m m1 rh, hx]
    obtain ⟨m2, h2⟩ := reset_progress (m1.setTarget lhs p) x (fun h0 => by
      have c2 : (m1.setTarget lhs p).alive x = m1.alive x := rfl
      rw [c2, (r1 x h0).2.1]
      exact (held_ready m hm hb lhs x hx h0).1)
    exact ⟨m2, by simp [step, intrusive_ptr.copy_assign, hp, hx, hx1, h1, h2, bind, Except.bind]⟩
  | move_assign lhs rhs =>
    obtain ⟨⟨x, hx⟩, p, hp⟩ := hw
    have hold := target_setTarget m rhs singleton lhs p hp
    by_cases hlr : lhs = rhs
    · simp only [hlr, if_true] at hold
      refine ⟨(m.setTarget rhs singleton).setTarget lhs p, ?_⟩
      simp only [step, intrusive_ptr.move_assign, hx, hp, bind, Except.bind]
      rw [hlr, hold]
      exact reset_null _
    · simp only [hlr, if_false] at hold
      rw [hx] at hold
      obtain ⟨m2, h2⟩ := reset_progress ((m.setTarget rhs singleton).setTarget lhs p) x
        (fun h0 => (held_ready m hm hb lhs x hx h0).1)
      exact ⟨m2, by simp [step, intrusive_ptr.move_assign, hp, hx, hold, h2, bind, Except.bind]⟩
  | swap lhs rhs =>
    obtain ⟨⟨x, hx⟩, p, hp⟩ := hw
    exact ⟨(m.setTarget lhs p).setTarget rhs x,
      by simp [step, intrusive_ptr.swap, hp, hx, bind, Except.bind, pure, Except.pure]⟩
  | reset h =>
    obtain ⟨p, hp⟩ := hw
    obtain ⟨m1, h1⟩ := reset_progress m p (fun h0 => (held_ready m hm hb h p hp h0).1)
    exact ⟨m1.setTarget h singleton, by simp [step, intrusive_ptr.reset, hp, h1, bind, Except.bind, pure, Except.pure]⟩
  | dtor h =>
    obtain ⟨p, hp⟩ := hw
    obtain ⟨m1, h1⟩ := reset_progress m p (fun h0 => (held_ready m hm hb h p hp h0).1)
    exact ⟨m1.kill h, by simp [step, intrusive_ptr.dtor, hp, h1, bind, Except.bind, pure, Except.pure]⟩
  | release h =>
    obtain ⟨p, hp⟩ := hw
    exact ⟨m.setTarget h singleton,
      by simp [step, intrusive_ptr.release, hp, bind, Except.bind, pure, Except.pure]⟩

theorem step_facts (m m1 : Machine α) (op : Op α) (hm : m.Counted)
    (hb : m.liveHandles < 2 ^ 64) (hr : op.isRelease = false)
    (hs : step m op = .ok m1) (hb1 : m1.liveHandles < 2 ^ 64) : StepFacts m m1 := by
  cases op with
  | make_intrusive addr obj => exact (make_facts m m1 addr obj hm hs).1
  | default_ctor => exact default_ctor_facts m m1 hm hs
  | copy_ctor rhs => exact copy_ctor_facts m m1 rhs hm hb hs hb1
  | move_ctor rhs => exact move_ctor_facts m m1 rhs hm hs
  | copy_assign lhs rhs => exact copy_assign_facts m m1 lhs rhs hm hb hs hb1
  | move_assign lhs rhs => exact move_assign_facts m m1 lhs rhs hm hb hs
  | swap lhs rhs => exact swap_facts m m1 lhs rhs hm hs
  | reset h => exact reset_facts m m1 h hm hb hs
  | dtor h => exact dtor_facts m m1 h hm hb hs
  | release h => simp [Op.isRelease] at hr

theorem counted_of_facts (m m1 : Machine α) (h : StepFacts m m1) : m1.Counted :=
  (counted_iff m1).mpr (fun q hq => ⟨(h q hq).1, (h q hq).2.1⟩)

theorem retain_alive (m m1 : Machine α) (p : Nat) (h : intrusive_ptr.retain_ m p = .ok m1)
    (q : Nat) (hq : q ≠ 0) : m1.alive q = m.alive q :=
  ((retain_eff m m1 p h).2.2 q hq).2.1

theorem reset_alive_le (m m1 : Machine α) (p : Nat) (h : intrusive_ptr.reset_ m p = .ok m1)
    (q : Nat) (hq : q ≠ 0) : m1.alive q ≤ m.alive q := by
  have := ((reset_eff m m1 p h).2 q hq).2.1
  rw [this]
  split_ifs <;> omega

/-- Only `make_intrusive` brings a target to life. -/
theorem alive_step (m m1 : Machine α) (op : Op α) (hm : m.Counted)
    (hs : step m op = .ok m1) (q : Nat) (hq : q ≠ 0) :
    m1.alive q ≤ m.alive q + constructions [op] q ∧
    (constructions [op] q = 1 → m1.alive q = m.alive q + 1) := by
  cases op with
  | make_intrusive addr obj =>
    have := (make_facts m m1 addr obj hm hs).2.2.2 q
    simp only [constructions]
    split_ifs at this ⊢ <;> omega
  | default_ctor =>
    simp only [step, intrusive_ptr.default_ctor, intrusive_ptr.ctor_ptr, ne_eq,
      not_true_eq_false, if_false, Except.ok.injEq] at hs
    subst hs
    have c : (m.push singleton).alive q = m.alive q := rfl
    simp [constructions, c]
  | copy_ctor rhs =>
    simp only [step, intrusive_ptr.copy_ctor, bind_ok, pure, Except.pure, Except.ok.injEq] at hs
    obtain ⟨p, -, m2, h2, rfl⟩ := hs
    have c : (m2.push p).alive q = m2.alive q := rfl
    have := retain_alive m m2 p h2 q hq
    simp only [constructions, c]
    omega
  | move_ctor rhs =>
    simp only [step, intrusive_ptr.move_ctor, bind_ok, pure, Except.pure, Except.ok.injEq] at hs
    obtain ⟨p, -, rfl⟩ := hs
    have c : ((m.push p).setTarget rhs singleton).alive q = m.alive q := rfl
    simp [constructions, c]
  | copy_assign lhs rhs =>
    simp only [step, intrusive_ptr.copy_assign, bind_ok] at hs
    obtain ⟨x, -, p, -, m2, h2, old, -, hs⟩ := hs
    have c : (m2.setTarget lhs p).alive q = m2.alive q := rfl
    have h3 := retain_alive m m2 p h2 q hq
    have h4 := reset_alive_le _ m1 old hs q hq
    simp only [constructions]
    omega
  | move_assign lhs rhs =>
    simp only [step, intrusive_ptr.move_assign, bind_ok] at hs
    obtain ⟨x, -, p, -, old, -, hs⟩ := hs
    have c : ((m.setTarget rhs singleton).setTarget lhs p).alive q = m.alive q := rfl
    have h4 := reset_alive_le _ m1 old hs q hq
    simp only [constructions]
    omega
  | swap lhs rhs =>
    simp only [step, intrusive_ptr.swap, bind_ok, pure, Except.pure, Except.ok.injEq] at hs
    obtain ⟨a, -, b, -, rfl⟩ := hs
    have c : ((m.setTarget lhs b).setTarget rhs a).alive q = m.alive q := rfl
    simp [constructions, c]
  | reset h =>
    simp only [step, intrusive_ptr.reset, bind_ok, pure, Except.pure, Except.ok.injEq] at hs
    obtain ⟨p, -, m2, h2, rfl⟩ := hs
    have c : (m2.setTarget h singleton).alive q = m2.alive q := rfl
    have h4 := reset_alive_le m m2 p h2 q hq
    simp only [constructions, c]
    omega
  | dtor h =>
    simp only [step, intrusive_ptr.dtor, bind_ok, pure, Except.pure, Except.ok.injEq] at hs
    obtain ⟨p, -, m2, h2, rfl⟩ := hs
    have c : (m2.kill h).alive q = m2.alive q := rfl
    have h4 := reset_alive_le m m2 p h2 q hq
    simp only [constructions, c]
    omega
  | release h =>
    simp only [step, intrusive_ptr.release, bind_ok, pure, Except.pure, Except.ok.injEq] at hs
    obtain ⟨p, -, rfl⟩ := hs
    have c : (m.setTarget h singleton).alive q = m.alive q := rfl
    simp [constructions, c]

theorem constructions_cons (op : Op α) (ops : List (Op α)) (q : Nat) :
    constructions (op :: ops) q = constructions [op] q + constructions ops q := by
  cases op <;> simp [constructions]

theorem constructions_one_le (op : Op α) (q : Nat) : constructions [op] q ≤ 1 := by
  cases op <;> simp [constructions]
  split_ifs <;> omega

/-- Along an execution the counting discipline is kept, and every target ever
constructed at an address has been deleted once, except the one alive there. -/
theorem exec_counted (m m1 : Machine α) (ops : List (Op α)) (hm : m.Counted)
    (hb : m.liveHandles < 2 ^ 64) (he : Exec m ops m1) :
    m1.Counted ∧ m1.liveHandles < 2 ^ 64 ∧
    ∀ q, q ≠ 0 →
      m1.deletions q + m1.alive q = m.deletions q + m.alive q + constructions ops q := by
  induction he with
  | nil m => exact ⟨hm, hb, fun q _ => by simp [constructions]⟩
  | @cons m m2 m3 op ops hr hs hb2 _ ih =>
    have hf := step_facts m m2 op hm hb hr hs hb2
    obtain ⟨i1, i2, i3⟩ := ih (counted_of_facts m m2 hf) hb2
    refine ⟨i1, i2, fun q hq => ?_⟩
    have h1 := i3 q hq
    have h2 := hf q hq
    have h3 := alive_step m m2 op hm hs q hq
    have h4 := (counted_iff m).mp hm q hq
    have h5 := constructions_one_le op q
    rw [constructions_cons]
    split_ifs at h2 <;> omega

theorem init_counted : (Machine.init : Machine α).Counted := by
  intro q _
  simp [Machine.init, Machine.holders]

theorem alive_iff (m : Machine α) (q : Nat) : m.alive q = 1 ↔ m.heap q ≠ none := by
  unfold Machine.alive
  cases m.heap q <;> simp

theorem use_count_ok (m : Machine α) (h n : Nat) :
    intrusive_ptr.use_count m h = .ok n ↔
      ∃ p, m.target_ h = .ok p ∧
        ((p = 0 ∧ n = 0) ∨ (p ≠ 0 ∧ ∃ t, m.heap p = some t ∧ t.refcount_ = n)) := by
  simp only [intrusive_ptr.use_count, bind_ok, singleton]
  constructor
  · rintro ⟨p, hp, h1⟩
    refine ⟨p, hp, ?_⟩
    by_cases h0 : p = 0
    · simp only [h0, if_true, pure, Except.pure, Except.ok.injEq] at h1
      exact Or.inl ⟨h0, h1.symm⟩
    · simp only [h0, if_false] at h1
      cases ht : m.heap p with
      | none => simp [ht] at h1
      | some t =>
        simp only [ht, pure, Except.pure, Except.ok.injEq] at h1
        exact Or.inr ⟨h0, t, rfl, h1⟩
  · rintro ⟨p, hp, h1⟩
    refine ⟨p, hp, ?_⟩
    rcases h1 with ⟨h0, hn⟩ | ⟨h0, t, ht, hn⟩
    · simp [h0, hn, pure, Except.pure]
    · simp [h0, ht, hn, pure, Except.pure]

theorem target_push_new (m : Machine α) (p : Nat) :
    (m.push p).target_ m.handles.length = .ok p := by
  rw [target_ok]
  simp [Machine.push]

theorem target_kill_ne (m : Machine α) (h k : Nat) (hk : k ≠ h) :
    (m.kill h).target_ k = m.target_ k := by
  unfold Machine.target_ Machine.kill
  simp only
  rw [List.getElem?_set_ne (fun e => hk e.symm)]

theorem target_lt (m : Machine α) (h p : Nat) (hp : m.target_ h = .ok p) :
    h < m.handles.length := by
  rw [target_ok] at hp
  by_contra hc
  rw [List.getElem?_eq_none (by omega)] at hp
  cases hp

theorem copyThenDrop_one (m : Machine α) (h : Nat)
    (hu : intrusive_ptr.use_count m h = .ok 1) :
    ∃ m1, copyThenDrop m h = .ok m1 ∧ intrusive_ptr.use_count m1 h = .ok 1 := by
  rw [use_count_ok] at hu
  obtain ⟨p, hp, h1⟩ := hu
  rcases h1 with ⟨-, hn⟩ | ⟨h0, t, ht, hn⟩
  · cases hn
  · have hlt := target_lt m h p hp
    have hr : intrusive_ptr.retain_ m p
        = .ok (m.store p (some { t with refcount_ := 2 })) := by
      rw [retain_spec m p t h0 ht, hn]
      norm_num
    have hc : intrusive_ptr.copy_ctor m h
        = .ok ((m.store p (some { t with refcount_ := 2 })).push p) := by
      simp [intrusive_ptr.copy_ctor, hp, hr, bind, Except.bind, pure, Except.pure]
    have hs : intrusive_ptr.reset_ ((m.store p (some { t with refcount_ := 2 })).push p) p
        = .ok (((m.store p (some { t with refcount_ := 2 })).push p).store p
            (some { t with refcount_ := 1 })) := by
      rw [reset_spec _ p { t with refcount_ := 2 } h0 (by simp [Machine.store, Machine.push])]
      norm_num
    have ht2 : ((m.store p (some { t with refcount_ := 2 })).push p).target_ m.handles.length
        = .ok p := target_push_new (m.store p (some { t with refcount_ := 2 })) p
    refine ⟨((((m.store p (some { t with refcount_ := 2 })).push p).store p
            (some { t with refcount_ := 1 })).kill m.handles.length), ?_, ?_⟩
    · simp only [copyThenDrop, hc, bind, Except.bind, intrusive_ptr.dtor, ht2, hs, pure,
        Except.pure]
    · rw [use_count_ok]
      refine ⟨p, ?_, Or.inr ⟨h0, { t with refcount_ := 1 }, ?_, rfl⟩⟩
      · rw [target_kill_ne _ _ _ (by omega)]
        exact target_push m p h p hp
      · simp [Machine.kill, Machine.store]

theorem rounds_use_count (n : Nat) (m : Machine α) (h : Nat)
    (hu : intrusive_ptr.use_count m h = .ok 1) :
    ∃ m1, rounds n m h = .ok m1 ∧ intrusive_ptr.use_count m1 h = .ok 1 := by
  induction n generalizing m with
  | zero => exact ⟨m, rfl, hu⟩
  | succ n ih =>
    obtain ⟨m1, h1, h2⟩ := copyThenDrop_one m h hu
    obtain ⟨m2, h3, h4⟩ := ih m1 h2
    exact ⟨m2, by simp [rounds, h1, h3, bind, Except.bind], h4⟩

theorem sampleDropAll_exec :
    Exec Machine.init sampleDropAll (finalState sampleDropAll) :=
  Exec.cons rfl rfl (by decide) (Exec.cons rfl rfl (by decide) (Exec.cons rfl rfl (by decide)
    (Exec.cons rfl rfl (by decide) (Exec.nil _))))

theorem sampleKeepTwo_exec :
    Exec Machine.init sampleKeepTwo (finalState sampleKeepTwo) :=
  Exec.cons rfl rfl (by decide) (Exec.cons rfl rfl (by decide) (Exec.cons rfl rfl (by decide)
    (Exec.cons rfl rfl (by decide) (Exec.nil _))))

theorem copy_ctor_spec (m : Machine α) (rhs p : Nat) (t : intrusive_ptr_target α)
    (hp : m.target_ rhs = .ok p) (h0 : p ≠ 0) (ht : m.heap p = some t) :
    intrusive_ptr.copy_ctor m rhs =
      if (t.refcount_ + 1) % 2 ^ 64 = 1 then .error .terminate
      else .ok ((m.store p (some { t with refcount_ := (t.refcount_ + 1) % 2 ^ 64 })).push p) := by
  simp only [intrusive_ptr.copy_ctor, hp, bind, Except.bind, retain_spec m p t h0 ht]
  split_ifs <;> rfl

theorem copy_ctor_null (m : Machine α) (rhs : Nat) (hp : m.target_ rhs = .ok 0) :
    intrusive_ptr.copy_ctor m rhs = .ok (m.push 0) := by
  simp only [intrusive_ptr.copy_ctor, hp, bind, Except.bind, retain_null, pure, Except.pure]

theorem eq_ok (m : Machine α) (a b pa pb : Nat) (ha : m.target_ a = .ok pa)
    (hb : m.target_ b = .ok pb) : intrusive_ptr.eq m a b = .ok (pa == pb) := by
  simp [intrusive_ptr.eq, intrusive_ptr.get, ha, hb, bind, Except.bind, pure, Except.pure]

theorem use_count_null (m : Machine α) (h : Nat) (hp : m.target_ h = .ok 0) :
    intrusive_ptr.use_count m h = .ok 0 := by
  simp [intrusive_ptr.use_count, hp, bind, Except.bind, singleton, pure, Except.pure]

theorem use_count_heap (m : Machine α) (h p : Nat) (t : intrusive_ptr_target α)
    (hp : m.target_ h = .ok p) (h0 : p ≠ 0) (ht : m.heap p = some t) :
    intrusive_ptr.use_count m h = .ok t.refcount_ := by
  simp [intrusive_ptr.use_count, hp, bind, Except.bind, singleton, pure, Except.pure, h0, ht]

theorem unique_of_use_count (m : Machine α) (h n : Nat)
    (hu : intrusive_ptr.use_count m h = .ok n) :
    intrusive_ptr.unique m h = .ok (n == 1) := by
  simp [intrusive_ptr.unique, hu, bind, Except.bind, pure, Except.pure]

theorem defined_ok (m : Machine α) (h p : Nat) (hp : m.target_ h = .ok p) :
    intrusive_ptr.defined m h = .ok (p != singleton) := by
  simp [intrusive_ptr.defined, hp, bind, Except.bind, pure, Except.pure]

theorem liveHandles_push (m : Machine α) (p : Nat) :
    (m.push p).liveHandles = m.liveHandles + 1 := by
  simp [Machine.push, Machine.liveHandles, List.countP_append]

theorem countP_set_none (l : List (Option Nat)) (i p : Nat) (h : l[i]? = some (some p)) :
    (l.set i none).countP Option.isSome + 1 = l.countP Option.isSome := by
  induction l generalizing i with
  | nil => simp at h
  | cons b l ih =>
    cases i with
    | zero =>
      simp at h
      subst h
      simp [List.countP_cons]
    | succ i =>
      simp at h
      have := ih i h
      simp only [List.set_cons_succ, List.countP_cons]
      omega

theorem liveHandles_kill (m : Machine α) (h p : Nat) (hp : m.target_ h = .ok p) :
    (m.kill h).liveHandles + 1 = m.liveHandles := by
  rw [target_ok] at hp
  exact countP_set_none m.handles h p hp

/-- Every live handle holds the address `addr`. -/
theorem count_eq_countP_of_only (l : List (Option Nat)) (addr : Nat)
    (h : ∀ x ∈ l, x = none ∨ x = some addr) :
    l.count (some addr) = l.countP Option.isSome := by
  induction l with
  | nil => simp
  | cons b l ih =>
    have hb := h b (List.mem_cons_self b l)
    have := ih (fun x hx => h x (List.mem_cons_of_mem b hx))
    simp only [List.count_cons, List.countP_cons]
    rcases hb with rfl | rfl <;> simp [this]

theorem only_of_target (m : Machine α) (addr h p : Nat)
    (ho : ∀ x ∈ m.handles, x = none ∨ x = some addr) (hp : m.target_ h = .ok p) :
    p = addr := by
  rw [target_ok] at hp
  have := ho _ (List.getElem?_mem hp)
  simpa using this

theorem dtor_spec (m : Machine α) (h p : Nat) (t : intrusive_ptr_target α)
    (hp : m.target_ h = .ok p) (h0 : p ≠ 0) (ht : m.heap p = some t) :
    intrusive_ptr.dtor m h =
      if (t.refcount_ + (2 ^ 64 - 1)) % 2 ^ 64 = 0 then
        .ok (Machine.kill { m.store p none with deleted := m.deleted ++ [(p, t.obj)] } h)
      else
        .ok ((m.store p (some
          { t with refcount_ := (t.refcount_ + (2 ^ 64 - 1)) % 2 ^ 64 })).kill h) := by
  unfold intrusive_ptr.dtor
  rw [hp]
  show (intrusive_ptr.reset_ m p >>= fun m1 => pure (m1.kill h)) = _
  rw [reset_spec m p t h0 ht]
  by_cases hc : (t.refcount_ + (2 ^ 64 - 1)) % 2 ^ 64 = 0
  · rw [if_pos hc, if_pos hc]
    rfl
  · rw [if_neg hc, if_neg hc]
    rfl
theorem live_of_target (m : Machine α) (h p : Nat) (hp : m.target_ h = .ok p) :
    1 ≤ m.liveHandles :=
  Nat.le_trans (holders_pos m h p hp) (holders_le_live m p)

/-- With no live handle left, no copy and no drop can follow. -/
theorem exec_no_handles (m m2 : Machine α) (ops : List (Op α)) (hl : m.liveHandles = 0)
    (hops : ∀ op ∈ ops, op.isCopyOrDrop = true) (he : Exec m ops m2) :
    ops = [] ∧ m2 = m := by
  cases he with
  | nil => exact ⟨rfl, rfl⟩
  | @cons _ m3 _ op ops hr hs hb3 he =>
    have hop := hops op (List.mem_cons_self op ops)
    exfalso
    cases op with
    | copy_ctor rhs =>
      simp only [step, intrusive_ptr.copy_ctor, bind_ok] at hs
      obtain ⟨p, hp, -⟩ := hs
      have := live_of_target m rhs p hp
      omega
    | dtor h =>
      simp only [step, intrusive_ptr.dtor, bind_ok] at hs
      obtain ⟨p, hp, -⟩ := hs
      have := live_of_target m h p hp
      omega
    | make_intrusive addr obj => simp [Op.isCopyOrDrop] at hop
    | default_ctor => simp [Op.isCopyOrDrop] at hop
    | move_ctor rhs => simp [Op.isCopyOrDrop] at hop
    | copy_assign lhs rhs => simp [Op.isCopyOrDrop] at hop
    | move_assign lhs rhs => simp [Op.isCopyOrDrop] at hop
    | swap lhs rhs => simp [Op.isCopyOrDrop] at hop
    | reset h => simp [Op.isCopyOrDrop] at hop
    | release h => simp [Op.isCopyOrDrop] at hop

theorem copy_ctor_result (m m3 : Machine α) (rhs p : Nat) (t : intrusive_ptr_target α)
    (hp : m.target_ rhs = .ok p) (h0 : p ≠ 0) (ht : m.heap p = some t)
    (hs : intrusive_ptr.copy_ctor m rhs = .ok m3) :
    m3.handles = m.handles ++ [some p] ∧ m3.deleted = m.deleted ∧
    ∃ u, m3.heap p = some u ∧ u.obj = t.obj := by
  rw [copy_ctor_spec m rhs p t hp h0 ht] at hs
  by_cases hc : (t.refcount_ + 1) % 2 ^ 64 = 1
  · rw [if_pos hc] at hs
    cases hs
  · rw [if_neg hc] at hs
    cases hs
    refine ⟨rfl, rfl, { t with refcount_ := (t.refcount_ + 1) % 2 ^ 64 }, ?_, rfl⟩
    simp only [Machine.push, Machine.store, if_true]

theorem dtor_result (m m3 : Machine α) (h p : Nat) (t : intrusive_ptr_target α)
    (hp : m.target_ h = .ok p) (h0 : p ≠ 0) (ht : m.heap p = some t)
    (hs : intrusive_ptr.dtor m h = .ok m3) :
    m3.handles = m.handles.set h none ∧
    ((t.refcount_ + (2 ^ 64 - 1)) % 2 ^ 64 = 0 → m3.deleted = m.deleted ++ [(p, t.obj)]) ∧
    ((t.refcount_ + (2 ^ 64 - 1)) % 2 ^ 64 ≠ 0 →
      m3.deleted = m.deleted ∧ ∃ u, m3.heap p = some u ∧ u.obj = t.obj) := by
  rw [dtor_spec m h p t hp h0 ht] at hs
  by_cases hc : (t.refcount_ + (2 ^ 64 - 1)) % 2 ^ 64 = 0
  · rw [if_pos hc] at hs
    cases hs
    exact ⟨rfl, fun _ => rfl, fun hne => absurd hc hne⟩
  · rw [if_neg hc] at hs
    cases hs
    refine ⟨rfl, fun he => absurd he hc, fun _ => ⟨rfl,
      { t with refcount_ := (t.refcount_ + (2 ^ 64 - 1)) % 2 ^ 64 }, ?_, rfl⟩⟩
    simp only [Machine.kill, Machine.store, if_true]

/-- The state of a program in which copies of one handle to the target at
`addr` are made and dropped. -/
theorem copy_drop_invariant (addr : Nat) (obj : α) (h0 : addr ≠ 0)
    (m m2 : Machine α) (ops : List (Op α))
    (hm : m.Counted) (hb : m.liveHandles < 2 ^ 64)
    (ho : ∀ x ∈ m.handles, x = none ∨ x = some addr)
    (hl : 1 ≤ m.liveHandles)
    (hh : ∃ t, m.heap addr = some t ∧ t.obj = obj)
    (hd : m.deleted = [])
    (hops : ∀ op ∈ ops, op.isCopyOrDrop = true) (he : Exec m ops m2) :
    m2.liveHandles + drops ops = m.liveHandles + copies ops ∧
    (∀ x ∈ m2.handles, x = none ∨ x = some addr) ∧
    m2.Counted ∧
    (1 ≤ m2.liveHandles → (∃ t, m2.heap addr = some t ∧ t.obj = obj) ∧ m2.deleted = []) ∧
    (m2.liveHandles = 0 → m2.deleted = [(addr, obj)]) := by
  induction he with
  | nil m =>
    exact ⟨by simp [drops, copies], ho, hm, fun _ => ⟨hh, hd⟩, fun h => by omega⟩
  | @cons m m3 m4 op ops hr hs hb3 he ih =>
    have hop := hops op (List.mem_cons_self op ops)
    have hops2 : ∀ op ∈ ops, op.isCopyOrDrop = true :=
      fun o ho2 => hops o (List.mem_cons_of_mem op ho2)
    have hm3 := counted_of_facts m m3 (step_facts m m3 op hm hb hr hs hb3)
    obtain ⟨t, ht, hto⟩ := hh
    have hnc : t.refcount_ = m.liveHandles := by
      have := ((hm addr h0).1 _ ht).1
      rw [this, Machine.holders, count_eq_countP_of_only _ addr ho]
      rfl
    cases op with
    | copy_ctor rhs =>
      simp only [step] at hs
      have hp : ∃ p, m.target_ rhs = .ok p := by
        simp only [intrusive_ptr.copy_ctor, bind_ok] at hs
        obtain ⟨p, hp, -⟩ := hs
        exact ⟨p, hp⟩
      obtain ⟨p, hp⟩ := hp
      have hpa := only_of_target m addr rhs p ho hp
      subst hpa
      obtain ⟨r1, r2, u, hu, huo⟩ := copy_ctor_result m m3 rhs p t hp h0 ht hs
      have hl3 : m3.liveHandles = m.liveHandles + 1 := by
        simp [Machine.liveHandles, r1, List.countP_append]
      have ih2 := ih hm3 hb3 (by
          intro x hx
          rw [r1] at hx
          simp only [List.mem_append, List.mem_singleton] at hx
          rcases hx with hx | hx
          · exact ho x hx
          · exact Or.inr hx) (by omega) ⟨u, hu, huo.trans hto⟩ (r2.trans hd) hops2
      obtain ⟨i1, i2, i3, i4, i5⟩ := ih2
      refine ⟨?_, i2, i3, i4, i5⟩
      simp only [drops, copies]
      omega
    | dtor h =>
      simp only [step] at hs
      have hp : ∃ p, m.target_ h = .ok p := by
        simp only [intrusive_ptr.dtor, bind_ok] at hs
        obtain ⟨p, hp, -⟩ := hs
        exact ⟨p, hp⟩
      obtain ⟨p, hp⟩ := hp
      have hpa := only_of_target m addr h p ho hp
      subst hpa
      obtain ⟨r1, r2, r3⟩ := dtor_result m m3 h p t hp h0 ht hs
      have hl3 : m3.liveHandles + 1 = m.liveHandles := by
        have := countP_set_none m.handles h p ((target_ok m h p).mp hp)
        simpa [Machine.liveHandles, r1] using this
      have honly : ∀ x ∈ m3.handles, x = none ∨ x = some p := by
        intro x hx
        rw [r1] at hx
        rcases List.mem_or_eq_of_mem_set hx with hx | hx
        · exact ho x hx
        · exact Or.inl hx
      by_cases hc : (t.refcount_ + (2 ^ 64 - 1)) % 2 ^ 64 = 0
      · have hz : m3.liveHandles = 0 := by omega
        obtain ⟨e1, e2⟩ := exec_no_handles m3 m4 ops hz hops2 he
        subst e1
        subst e2
        refine ⟨?_, honly, hm3, fun h1 => by omega, fun _ => ?_⟩
        · simp only [drops, copies]
          omega
        · rw [r2 hc, hd, hto]
          rfl
      · obtain ⟨r4, u, hu, huo⟩ := r3 hc
        have ih2 := ih hm3 hb3 honly (by omega) ⟨u, hu, huo.trans hto⟩ (r4.trans hd) hops2
        obtain ⟨i1, i2, i3, i4, i5⟩ := ih2
        refine ⟨?_, i2, i3, i4, i5⟩
        simp only [drops, copies]
        omega
    | make_intrusive addr obj => simp [Op.isCopyOrDrop] at hop
    | default_ctor => simp [Op.isCopyOrDrop] at hop
    | move_ctor rhs => simp [Op.isCopyOrDrop] at hop
    | copy_assign lhs rhs => simp [Op.isCopyOrDrop] at hop
    | move_assign lhs rhs => simp [Op.isCopyOrDrop] at hop
    | swap lhs rhs => simp [Op.isCopyOrDrop] at hop
    | reset h => simp [Op.isCopyOrDrop] at hop
    | release h => simp [Op.isCopyOrDrop] at hop

theorem make_ok (m m1 : Machine α) (addr : Nat) (obj : α)
    (hs : intrusive_ptr.make m addr obj = .ok m1) :
    addr ≠ 0 ∧ m.heap addr = none ∧
    m1 = ((m.store addr (some (intrusive_ptr_target.ctor obj))).store addr
          (some { refcount_ := 1, obj := obj })).push addr := by
  have hc : addr ≠ 0 ∧ m.heap addr = none := by
    unfold intrusive_ptr.make at hs
    split at hs
    · cases hs
    · next hc => simpa [not_or] using hc
  rw [make_spec m addr obj hc.1 hc.2] at hs
  cases hs
  exact ⟨hc.1, hc.2, rfl⟩

theorem storage_ctor_cases (addr size_bytes : Nat) (data_ptr : DataPtr)
    (allocator : Option Allocator) (resizable : Bool) (m1 : Machine StorageImpl)
    (hc : Storage.ctor_data_ptr Machine.init addr size_bytes data_ptr allocator resizable
        = .ok m1 ∨
      (Storage.ctor_allocate Machine.init addr size_bytes allocator resizable = .ok m1 ∧
        ∃ a, allocator = some a ∧ a.allocate size_bytes = .ok data_ptr)) :
    intrusive_ptr.make Machine.init addr
      (StorageImpl.ctor size_bytes data_ptr allocator resizable) = .ok m1 := by
  rcases hc with hc | ⟨hc, a, ha, hal⟩
  · exact hc
  · subst ha
    simpa [Storage.ctor_allocate, StorageImpl.ctor_allocate, hal, bind, Except.bind, pure,
      Except.pure] using hc

theorem join_of_target (m : Machine α) (h p : Nat) (hp : m.target_ h = .ok p) :
    (m.handles[h]?).join = some p := by
  rw [target_ok] at hp
  rw [hp]
  rfl

theorem step_handles (m m1 : Machine α) (op : Op α) (hs : step m op = .ok m1) :
    m1.handles = handleStep m.handles op := by
  cases op with
  | make_intrusive addr obj =>
    obtain ⟨-, -, rfl⟩ := make_ok m m1 addr obj hs
    rfl
  | default_ctor =>
    simp only [step, intrusive_ptr.default_ctor, intrusive_ptr.ctor_ptr, ne_eq,
      not_true_eq_false, if_false, Except.ok.injEq] at hs
    subst hs
    rfl
  | copy_ctor rhs =>
    simp only [step, intrusive_ptr.copy_ctor, bind_ok, pure, Except.pure, Except.ok.injEq] at hs
    obtain ⟨p, hp, m2, h2, rfl⟩ := hs
    obtain ⟨rh, -, -⟩ := retain_eff m m2 p h2
    simp only [handleStep, join_of_target m rhs p hp, Machine.push, rh]
  | move_ctor rhs =>
    simp only [step, intrusive_ptr.move_ctor, bind_ok, pure, Except.pure, Except.ok.injEq] at hs
    obtain ⟨p, hp, rfl⟩ := hs
    simp only [handleStep, join_of_target m rhs p hp, Machine.push, Machine.setTarget, singleton]
  | copy_assign lhs rhs =>
    simp only [step, intrusive_ptr.copy_assign, bind_ok] at hs
    obtain ⟨x, hx, p, hp, m2, h2, old, hold, hs⟩ := hs
    obtain ⟨rh, -, -⟩ := retain_eff m m2 p h2
    obtain ⟨sh, -⟩ := reset_eff _ m1 old hs
    simp only [handleStep, join_of_target m rhs p hp, sh, Machine.setTarget, rh]
  | move_assign lhs rhs =>
    simp only [step, intrusive_ptr.move_assign, bind_ok] at hs
    obtain ⟨x, hx, p, hp, old, hold, hs⟩ := hs
    obtain ⟨sh, -⟩ := reset_eff _ m1 old hs
    simp only [handleStep, join_of_target m rhs p hp, sh, Machine.setTarget, singleton]
  | swap lhs rhs =>
    simp only [step, intrusive_ptr.swap, bind_ok, pure, Except.pure, Except.ok.injEq] at hs
    obtain ⟨a, ha, b, hb, rfl⟩ := hs
    simp only [handleStep, join_of_target m rhs b hb, join_of_target m lhs a ha,
      Machine.setTarget]
  | reset h =>
    simp only [step, intrusive_ptr.reset, bind_ok, pure, Except.pure, Except.ok.injEq] at hs
    obtain ⟨p, hp, m2, h2, rfl⟩ := hs
    obtain ⟨sh, -⟩ := reset_eff m m2 p h2
    simp only [handleStep, Machine.setTarget, sh, singleton]
  | dtor h =>
    simp only [step, intrusive_ptr.dtor, bind_ok, pure, Except.pure, Except.ok.injEq] at hs
    obtain ⟨p, hp, m2, h2, rfl⟩ := hs
    obtain ⟨sh, -⟩ := reset_eff m m2 p h2
    simp only [handleStep, Machine.kill, sh]
  | release h =>
    simp only [step, intrusive_ptr.release, bind_ok, pure, Except.pure, Except.ok.injEq] at hs
    obtain ⟨p, hp, rfl⟩ := hs
    simp only [handleStep, Machine.setTarget, singleton]

theorem originOf_map (f : Nat → Nat) (l : List (Option Nat)) (h : Nat) :
    originOf (l.map (tag f)) h = tag f ((l[h]?).join) := by
  unfold originOf
  rw [List.getElem?_map]
  cases hl : l[h]? with
  | none => rfl
  | some x => rfl

theorem tag_zero (f : Nat → Nat) : tag f (some 0) = none := by
  simp [tag]

theorem map_handleStep (f : Nat → Nat) (l : List (Option Nat)) (op : Op α)
    (h : ∀ addr obj, op ≠ .make_intrusive addr obj) :
    (handleStep l op).map (tag f) = originStep (l.map (tag f)) op := by
  cases op with
  | make_intrusive addr obj => exact absurd rfl (h addr obj)
  | default_ctor => simp [handleStep, originStep, tag_zero]
  | copy_ctor rhs => simp [handleStep, originStep, originOf_map]
  | move_ctor rhs => simp [handleStep, originStep, originOf_map, List.map_set, tag_zero]
  | copy_assign lhs rhs => simp [handleStep, originStep, originOf_map, List.map_set]
  | move_assign lhs rhs => simp [handleStep, originStep, originOf_map, List.map_set, tag_zero]
  | swap lhs rhs => simp [handleStep, originStep, originOf_map, List.map_set]
  | reset h => simp [handleStep, originStep, List.map_set, tag_zero]
  | dtor h => simp [handleStep, originStep, List.map_set, tag]
  | release h => simp [handleStep, originStep, List.map_set, tag_zero]

theorem originStep_length_le (g : List (Option Nat)) (op : Op α) :
    g.length ≤ (originStep g op).length := by
  cases op <;> simp [originStep]

theorem alive_le_one (m : Machine α) (q : Nat) : m.alive q ≤ 1 := by
  unfold Machine.alive
  split <;> omega

theorem map_tag_congr (f f2 : Nat → Nat) (l : List (Option Nat))
    (h : ∀ p, some p ∈ l → p ≠ 0 → f2 p = f p) : l.map (tag f2) = l.map (tag f) := by
  apply List.map_congr_left
  intro x hx
  cases x with
  | none => rfl
  | some p =>
    by_cases h0 : p = 0
    · simp [tag, h0]
    · simp [tag, h0, h p hx h0]

theorem linked_step (m m1 : Machine α) (g : List (Option Nat)) (op : Op α)
    (hm : m.Counted) (hl : Linked m g) (hs : step m op = .ok m1) :
    Linked m1 (originStep g op) := by
  obtain ⟨f, hg, hlt, hinj⟩ := hl
  have hh := step_handles m m1 op hs
  by_cases hmk : ∃ addr obj, op = .make_intrusive addr obj
  · obtain ⟨addr, obj, rfl⟩ := hmk
    obtain ⟨-, h0, ha, hal⟩ := make_facts m m1 addr obj hm hs
    have hnone : m.heap addr = none := by
      unfold Machine.alive at ha
      cases hx : m.heap addr with
      | none => rfl
      | some t => simp [hx] at ha
    have hhold : m.holders addr = 0 := (hm addr h0).2 hnone
    have hnot : ¬ some addr ∈ m.handles := by
      intro hmem
      have := List.count_pos_iff.mpr hmem
      unfold Machine.holders at hhold
      omega
    have hlen : g.length = m.handles.length := by rw [hg]; simp
    refine ⟨fun q => if q = addr then g.length else f q, ?_, ?_, ?_⟩
    · rw [hh]
      simp only [handleStep, originStep, List.map_append, List.map_cons, List.map_nil]
      rw [map_tag_congr f (fun q => if q = addr then g.length else f q) m.handles
        (by
          intro p hp _
          have : p ≠ addr := fun e => hnot (e ▸ hp)
          simp [this]), ← hg]
      simp [tag, h0]
    · intro p hp0 hp
      simp only [originStep, List.length_append, List.length_singleton]
      by_cases e : p = addr
      · simp [e]
      · have hpa : ¬ addr = p := fun e2 => e e2.symm
        have := hal p
        simp only [hpa, if_false, Nat.add_zero] at this
        have := hlt p hp0 (this ▸ hp)
        simp only [e, if_false]
        omega
    · intro p q hp0 hq0 hp hq hf
      have hp2 := hal p
      have hq2 := hal q
      by_cases ep : p = addr <;> by_cases eq : q = addr
      · rw [ep, eq]
      · exfalso
        have hqa : ¬ addr = q := fun e2 => eq e2.symm
        simp only [hqa, if_false, Nat.add_zero] at hq2
        have := hlt q hq0 (hq2 ▸ hq)
        simp only [ep, eq, if_true, if_false] at hf
        omega
      · exfalso
        have hpa : ¬ addr = p := fun e2 => ep e2.symm
        simp only [hpa, if_false, Nat.add_zero] at hp2
        have := hlt p hp0 (hp2 ▸ hp)
        simp only [ep, eq, if_true, if_false] at hf
        omega
      · have hpa : ¬ addr = p := fun e2 => ep e2.symm
        have hqa : ¬ addr = q := fun e2 => eq e2.symm
        simp only [hpa, hqa, if_false, Nat.add_zero] at hp2 hq2
        simp only [ep, eq, if_false] at hf
        exact hinj p q hp0 hq0 (hp2 ▸ hp) (hq2 ▸ hq) hf
  · have hne : ∀ addr obj, op ≠ .make_intrusive addr obj :=
      fun addr obj e => hmk ⟨addr, obj, e⟩
    have hc0 : ∀ q, constructions [op] q = 0 := by
      intro q
      cases op <;> first | rfl | exact absurd rfl (hne _ _)
    have hal : ∀ q, q ≠ 0 → m1.alive q = 1 → m.alive q = 1 := by
      intro q hq h1
      have := (alive_step m m1 op hm hs q hq).1
      rw [hc0 q] at this
      have := alive_le_one m q
      omega
    refine ⟨f, ?_, ?_, ?_⟩
    · rw [hh, map_handleStep f m.handles op hne, ← hg]
    · intro p hp0 hp
      have := hlt p hp0 (hal p hp0 hp)
      have := originStep_length_le g op
      omega
    · intro p q hp0 hq0 hp hq hf
      exact hinj p q hp0 hq0 (hal p hp0 hp) (hal q hq0 hq) hf

theorem linked_exec (m m1 : Machine α) (g : List (Option Nat)) (ops : List (Op α))
    (hm : m.Counted) (hb : m.liveHandles < 2 ^ 64) (hl : Linked m g)
    (he : Exec m ops m1) : Linked m1 (originsFrom g ops) := by
  induction he generalizing g with
  | nil m => exact hl
  | @cons m m2 m3 op ops hr hs hb2 _ ih =>
    have hf := step_facts m m2 op hm hb hr hs hb2
    exact ih (originStep g op) (counted_of_facts m m2 hf) hb2 (linked_step m m2 g op hm hl hs)

theorem linked_init : Linked (Machine.init : Machine α) [] :=
  ⟨fun _ => 0, rfl, fun p _ h => by simp [Machine.alive, Machine.init] at h,
    fun p q _ _ h => by simp [Machine.alive, Machine.init] at h⟩

theorem originOf_target (m : Machine α) (g : List (Option Nat)) (f : Nat → Nat)
    (hg : g = m.handles.map (tag f)) (h p : Nat) (hp : m.target_ h = .ok p) :
    originOf g h = tag f (some p) := by
  rw [hg, originOf_map, join_of_target m h p hp]

theorem sampleOne_get : intrusive_ptr.get (finalState sampleOne) 0 = .ok 5 := rfl

theorem sampleStorage_exec :
    Exec (finalState [.make_intrusive 5 sampleImpl])
      [.copy_ctor 0, .copy_ctor 0, .copy_ctor 1, .dtor 1, .dtor 3]
      (finalState sampleStorageOps) :=
  Exec.cons rfl rfl (by decide) (Exec.cons rfl rfl (by decide) (Exec.cons rfl rfl (by decide)
    (Exec.cons rfl rfl (by decide) (Exec.cons rfl rfl (by decide) (Exec.nil _)))))

theorem sampleTwoStorages_exec :
    Exec Machine.init sampleTwoStorages (finalState sampleTwoStorages) :=
  Exec.cons rfl rfl (by decide) (Exec.cons rfl rfl (by decide) (Exec.nil _))

/-! ### Buffers -/

/-- The destructor of a buffer handle, by cases: nothing is called for a null
pointer, the deleter is called once on a pointer that is not null, and the
call is undefined when the deleter is a null function pointer. -/
theorem dataPtr_dtor_spec (d : DataPtr) :
    (d.ptr = 0 → d.dtor = .ok []) ∧
    (d.ptr ≠ 0 → d.deleter ≠ 0 → d.dtor = .ok [(d.deleter, d.ptr)]) ∧
    (d.ptr ≠ 0 → d.deleter = 0 → d.dtor = .error .undefined) := by
  unfold DataPtr.dtor
  refine ⟨fun h => ?_, fun h1 h2 => ?_, fun h1 h2 => ?_⟩
  · simp [h]
  · simp [h1, h2]
  · simp [h1, h2]

theorem dataPtr_dtor_valid (d : DataPtr) (hv : d.ptr ≠ 0 → d.deleter ≠ 0) :
    d.dtor = .ok (if d.ptr ≠ 0 then [(d.deleter, d.ptr)] else []) := by
  by_cases h : d.ptr = 0
  · rw [(dataPtr_dtor_spec d).1 h]
    simp [h]
  · rw [(dataPtr_dtor_spec d).2.1 h (hv h)]
    simp [h]

theorem set_data_ptr_spec (self : StorageImpl) (B : DataPtr) :
    self.set_data_ptr B
      = .ok ({ self with data_ptr_ := B }, self.data_ptr_,
          { ptr := 0, deleter := B.deleter }, []) := by
  simp [StorageImpl.set_data_ptr, DataPtr.move_ctor, DataPtr.move_assign, DataPtr.reset,
    DataPtr.dtor, bind, Except.bind, pure, Except.pure]

theorem storageImpl_reset_spec (self : StorageImpl)
    (hv : self.data_ptr_.ptr ≠ 0 → self.data_ptr_.deleter ≠ 0) :
    self.reset
      = .ok ({ self with data_ptr_ := { ptr := 0, deleter := self.data_ptr_.deleter },
                         size_bytes_ := 0 },
          if self.data_ptr_.ptr ≠ 0 then [(self.data_ptr_.deleter, self.data_ptr_.ptr)]
          else []) := by
  unfold StorageImpl.reset DataPtr.assign_nullptr DataPtr.reset
  rw [dataPtr_dtor_valid _ hv]
  rfl

theorem sampleStorageAllDropped_exec :
    Exec (finalState [.make_intrusive 5 sampleImpl]) [.copy_ctor 0, .dtor 0, .dtor 1]
      (finalState sampleStorageAllDropped) :=
  Exec.cons rfl rfl (by decide) (Exec.cons rfl rfl (by decide) (Exec.cons rfl rfl (by decide)
    (Exec.nil _)))

/-! ### The claims -/

/-- C1. Take any single-threaded run of handle operations from the empty
program: `make_intrusive`, default, copy and move construction, copy and move
assignment, `swap`, `reset()` and destruction, never `release()`. In the state
it reaches, (1) a target is alive exactly when some live handle holds it, so it
is never deleted while held and never outlives its last handle; (2) at every
address the targets constructed there have each been deleted exactly once,
except the one that is alive now; (3) every further operation on live handles
returns, and it deletes a target exactly when it takes the target from at least
one holder to none. -/
theorem intrusive_ptr_target_deleted_exactly_once (ops : List (Op α)) (m : Machine α)
    (he : Exec Machine.init ops m) :
    (∀ q, q ≠ 0 → (m.heap q ≠ none ↔ 1 ≤ m.holders q)) ∧
    (∀ q, q ≠ 0 → m.deletions q + m.alive q = constructions ops q) ∧
    (∀ op : Op α, op.isRelease = false → op.wellFormed m →
      ∃ m1, step m op = .ok m1 ∧
        (m1.liveHandles < 2 ^ 64 → ∀ q, q ≠ 0 →
          m1.deletions q
            = m.deletions q + (if 1 ≤ m.holders q ∧ m1.holders q = 0 then 1 else 0))) := by
  have hi : (Machine.init : Machine α).liveHandles < 2 ^ 64 := by
    simp [Machine.init, Machine.liveHandles]
  obtain ⟨hc, hb, hd⟩ := exec_counted Machine.init m ops init_counted hi he
  refine ⟨fun q hq => ?_, fun q hq => ?_, fun op hr hw => ?_⟩
  · rw [← alive_iff]
    have := (counted_iff m).mp hc q hq
    omega
  · have := hd q hq
    simpa [Machine.deletions, Machine.alive, Machine.init] using this
  · obtain ⟨m1, h1⟩ := step_progress m op hc hb hw
    exact ⟨m1, h1, fun hb1 q hq => (step_facts m m1 op hc hb hr h1 hb1 q hq).2.2⟩

theorem intrusive_ptr_target_deleted_exactly_once_witness :
    Exec Machine.init sampleDropAll (finalState sampleDropAll) ∧
    (finalState sampleDropAll).deletions 5 + (finalState sampleDropAll).alive 5
      = constructions sampleDropAll 5 ∧
    (finalState sampleDropAll).deletions 5 = 1 :=
  ⟨sampleDropAll_exec,
    (intrusive_ptr_target_deleted_exactly_once sampleDropAll (finalState sampleDropAll)
      sampleDropAll_exec).2.1 5 (by decide),
    by decide⟩

/-- C2. In every state reached by such a run (no `release()`), `use_count()`
of a handle that is not null returns the number of live handles holding the
same target; and from a handle whose `use_count()` is 1, any number of
copy-then-drop rounds return and leave `use_count()` at 1. -/
theorem use_count_eq_live_holders (ops : List (Op α)) (m : Machine α)
    (he : Exec Machine.init ops m) :
    (∀ h p, intrusive_ptr.get m h = .ok p → p ≠ singleton →
      intrusive_ptr.use_count m h = .ok (m.holders p)) ∧
    (∀ h, intrusive_ptr.use_count m h = .ok 1 →
      ∀ n, ∃ m1, rounds n m h = .ok m1 ∧ intrusive_ptr.use_count m1 h = .ok 1) := by
  have hi : (Machine.init : Machine α).liveHandles < 2 ^ 64 := by
    simp [Machine.init, Machine.liveHandles]
  obtain ⟨hc, -, -⟩ := exec_counted Machine.init m ops init_counted hi he
  refine ⟨fun h p hp h0 => ?_, fun h hu n => rounds_use_count n m h hu⟩
  obtain ⟨t, ht, htc⟩ := held_alive hc hp h0
  rw [use_count_ok]
  exact ⟨p, hp, Or.inr ⟨h0, t, ht, htc⟩⟩

theorem use_count_eq_live_holders_witness :
    Exec Machine.init sampleKeepTwo (finalState sampleKeepTwo) ∧
    intrusive_ptr.use_count (finalState sampleKeepTwo) 1
      = .ok ((finalState sampleKeepTwo).holders 5) ∧
    (finalState sampleKeepTwo).holders 5 = 2 :=
  ⟨sampleKeepTwo_exec,
    (use_count_eq_live_holders sampleKeepTwo (finalState sampleKeepTwo)
      sampleKeepTwo_exec).1 1 5 rfl (by decide),
    by decide⟩

/-- C3, amended. A `Storage` is constructed from (size, buffer, allocator), or
from (size, allocator) with `allocate` returning the buffer, and then only
copied and dropped. After `k` copies and `j` drops, `1 + k - j` handles are
alive and `use_count()` of each is `1 + k - j`; while `j <= k` no deleter has
run; once `j = k + 1` (the last handle is dropped) the deleter of the buffer
has run exactly once, on the pointer owned at construction, when that pointer
is not null, and has not run at all when it is null. The buffer is one that
can be freed: its deleter is not a null function pointer when its pointer is
not null. -/
theorem storage_copies_and_drops (addr size_bytes : Nat) (data_ptr : DataPtr)
    (allocator : Option Allocator) (resizable : Bool) (m1 m2 : Machine StorageImpl)
    (ops : List (Op StorageImpl))
    (hv : data_ptr.ptr ≠ 0 → data_ptr.deleter ≠ 0)
    (hc : Storage.ctor_data_ptr Machine.init addr size_bytes data_ptr allocator resizable
        = .ok m1 ∨
      (Storage.ctor_allocate Machine.init addr size_bytes allocator resizable = .ok m1 ∧
        ∃ a, allocator = some a ∧ a.allocate size_bytes = .ok data_ptr))
    (hops : ∀ op ∈ ops, op.isCopyOrDrop = true) (he : Exec m1 ops m2) :
    m2.liveHandles + drops ops = 1 + copies ops ∧
    (∀ h p, intrusive_ptr.get m2 h = .ok p →
      Storage.use_count m2 h = .ok (1 + copies ops - drops ops)) ∧
    (drops ops ≤ copies ops → Storage.deleterCalls m2 = .ok []) ∧
    (drops ops = copies ops + 1 →
      Storage.deleterCalls m2
        = .ok (if data_ptr.ptr ≠ 0 then [(data_ptr.deleter, data_ptr.ptr)] else [])) := by
  have hmk := storage_ctor_cases addr size_bytes data_ptr allocator resizable m1 hc
  have hcnt : m1.Counted :=
    counted_of_facts _ m1 (make_facts Machine.init m1 addr _ init_counted hmk).1
  obtain ⟨h0, -, hm1⟩ := make_ok _ _ _ _ hmk
  have e1 : m1.handles = [some addr] := by rw [hm1]; rfl
  have e2 : m1.heap addr
      = some { refcount_ := 1, obj := StorageImpl.ctor size_bytes data_ptr allocator resizable } := by
    rw [hm1]
    simp only [Machine.push, Machine.store, if_true]
  have e3 : m1.deleted = [] := by rw [hm1]; rfl
  have hl1 : m1.liveHandles = 1 := by simp [Machine.liveHandles, e1]
  obtain ⟨i1, i2, i3, i4, i5⟩ := copy_drop_invariant addr
    (StorageImpl.ctor size_bytes data_ptr allocator resizable) h0 m1 m2 ops hcnt
    (by omega) (by simp [e1]) (by omega) ⟨_, e2, rfl⟩ e3 hops he
  rw [hl1] at i1
  refine ⟨i1, fun h p hp => ?_, fun hle => ?_, fun heq => ?_⟩
  · unfold intrusive_ptr.get at hp
    have hpa := only_of_target m2 addr h p i2 hp
    subst hpa
    have hlive := live_of_target m2 h p hp
    obtain ⟨⟨t, ht, -⟩, -⟩ := i4 hlive
    have hrc := ((i3 p h0).1 t ht).1
    rw [Machine.holders, count_eq_countP_of_only _ p i2] at hrc
    have hrc2 : t.refcount_ = 1 + copies ops - drops ops := by
      have : m2.liveHandles = List.countP Option.isSome m2.handles := rfl
      omega
    unfold Storage.use_count
    rw [use_count_heap m2 h p t hp h0 ht, hrc2]
  · have hd := (i4 (by omega)).2
    unfold Storage.deleterCalls
    rw [hd]
    rfl
  · have hd := i5 (by omega)
    have hdt : StorageImpl.dtor (StorageImpl.ctor size_bytes data_ptr allocator resizable)
        = .ok (if data_ptr.ptr ≠ 0 then [(data_ptr.deleter, data_ptr.ptr)] else []) :=
      dataPtr_dtor_valid data_ptr hv
    unfold Storage.deleterCalls
    rw [hd]
    simp only [Storage.destroyed, hdt, bind, Except.bind, pure, Except.pure, List.append_nil]

theorem storage_copies_and_drops_witness :
    Storage.ctor_data_ptr Machine.init 5 16 { ptr := 100, deleter := 7 } none false
      = .ok (finalState [.make_intrusive 5 sampleImpl]) ∧
    Exec (finalState [.make_intrusive 5 sampleImpl])
      [.copy_ctor 0, .copy_ctor 0, .copy_ctor 1, .dtor 1, .dtor 3]
      (finalState sampleStorageOps) ∧
    Storage.use_count (finalState sampleStorageOps) 0 = .ok 2 ∧
    Storage.deleterCalls (finalState sampleStorageOps) = .ok [] ∧
    Exec (finalState [.make_intrusive 5 sampleImpl]) [.copy_ctor 0, .dtor 0, .dtor 1]
      (finalState sampleStorageAllDropped) ∧
    (finalState sampleStorageAllDropped).liveHandles = 0 ∧
    Storage.deleterCalls (finalState sampleStorageAllDropped) = .ok [(7, 100)] :=
  ⟨rfl, sampleStorage_exec,
    (storage_copies_and_drops 5 16 { ptr := 100, deleter := 7 } none false
      (finalState [.make_intrusive 5 sampleImpl]) (finalState sampleStorageOps)
      [.copy_ctor 0, .copy_ctor 0, .copy_ctor 1, .dtor 1, .dtor 3] (fun _ => by decide)
      (Or.inl rfl) (by simp [Op.isCopyOrDrop]) sampleStorage_exec).2.1 0 5 rfl,
    (storage_copies_and_drops 5 16 { ptr := 100, deleter := 7 } none false
      (finalState [.make_intrusive 5 sampleImpl]) (finalState sampleStorageOps)
      [.copy_ctor 0, .copy_ctor 0, .copy_ctor 1, .dtor 1, .dtor 3] (fun _ => by decide)
      (Or.inl rfl) (by simp [Op.isCopyOrDrop]) sampleStorage_exec).2.2.1 (by decide),
    sampleStorageAllDropped_exec, by decide,
    (storage_copies_and_drops 5 16 { ptr := 100, deleter := 7 } none false
      (finalState [.make_intrusive 5 sampleImpl]) (finalState sampleStorageAllDropped)
      [.copy_ctor 0, .dtor 0, .dtor 1] (fun _ => by decide)
      (Or.inl rfl) (by simp [Op.isCopyOrDrop]) sampleStorageAllDropped_exec).2.2.2 (by decide)⟩

/-- C3, the claim as stated fails: a `Storage` of size 0 around a null buffer is
constructed and dropped; the block is deleted, no handle is left, and the
deleter has been called zero times, not once. -/
theorem storage_null_buffer_deleter_not_called :
    Storage.ctor_data_ptr Machine.init 5 0 { ptr := 0, deleter := 7 } none false
      = run Machine.init [.make_intrusive 5 (StorageImpl.ctor 0 { ptr := 0, deleter := 7 } none false)] ∧
    run Machine.init sampleNullBufferOps = .ok (finalState sampleNullBufferOps) ∧
    (finalState sampleNullBufferOps).liveHandles = 0 ∧
    (finalState sampleNullBufferOps).deletions 5 = 1 ∧
    Storage.deleterCalls (finalState sampleNullBufferOps) = .ok [] :=
  ⟨rfl, rfl, by decide, by decide, rfl⟩

/-- C4, amended. Copy construction from a null handle returns a null handle and
changes no counter. Copy construction from a handle whose target has counter
`c` with `1 <= c < 2 ^ 64 - 1` returns; the new handle has the same target
(`get()` equal, `operator==` true), the source is unchanged, the counter of the
target is exactly `c + 1`, and no other target, handle or deletion changes. -/
theorem copy_ctor_shares_and_increments (m : Machine α) (rhs p : Nat)
    (hp : intrusive_ptr.get m rhs = .ok p) :
    (p = singleton →
      ∃ m1, intrusive_ptr.copy_ctor m rhs = .ok m1 ∧
        intrusive_ptr.get m1 m.handles.length = .ok singleton ∧
        intrusive_ptr.get m1 rhs = .ok singleton ∧
        m1.heap = m.heap ∧ m1.handles = m.handles ++ [some singleton] ∧
        m1.deleted = m.deleted) ∧
    (p ≠ singleton → ∀ t, m.heap p = some t → 1 ≤ t.refcount_ → t.refcount_ < 2 ^ 64 - 1 →
      ∃ m1, intrusive_ptr.copy_ctor m rhs = .ok m1 ∧
        intrusive_ptr.get m1 m.handles.length = .ok p ∧
        intrusive_ptr.eq m1 m.handles.length rhs = .ok true ∧
        intrusive_ptr.get m1 rhs = .ok p ∧
        m1.heap p = some { t with refcount_ := t.refcount_ + 1 } ∧
        (∀ q, q ≠ p → m1.heap q = m.heap q) ∧
        m1.handles = m.handles ++ [some p] ∧ m1.deleted = m.deleted) := by
  unfold intrusive_ptr.get at hp
  constructor
  · intro h0
    unfold singleton at h0
    subst h0
    refine ⟨m.push 0, copy_ctor_null m rhs hp, ?_, ?_, rfl, rfl, rfl⟩
    · exact target_push_new m 0
    · exact target_push m 0 rhs 0 hp
  · intro h0 t ht h1 h2
    have hmod : (t.refcount_ + 1) % 2 ^ 64 = t.refcount_ + 1 := by omega
    have hne : ¬ (t.refcount_ + 1) % 2 ^ 64 = 1 := by omega
    refine ⟨(m.store p (some { t with refcount_ := (t.refcount_ + 1) % 2 ^ 64 })).push p, ?_,
      ?_, ?_, ?_, ?_, ?_, rfl, rfl⟩
    · rw [copy_ctor_spec m rhs p t hp h0 ht, if_neg hne]
    · exact target_push_new (m.store p _) p
    · have e := eq_ok ((m.store p (some { t with refcount_ := (t.refcount_ + 1) % 2 ^ 64 })).push p)
        m.handles.length rhs p p (target_push_new (m.store p _) p)
        (target_push (m.store p _) p rhs p hp)
      simpa using e
    · exact target_push (m.store p _) p rhs p hp
    · simp only [Machine.push, Machine.store, if_true, hmod]
    · intro q hq
      simp [Machine.push, Machine.store, hq]

theorem copy_ctor_shares_and_increments_witness :
    intrusive_ptr.get (finalState sampleOne) 0 = .ok 5 ∧
    ∃ m1, intrusive_ptr.copy_ctor (finalState sampleOne) 0 = .ok m1 ∧
      m1.heap 5 = some { refcount_ := 2, obj := () } :=
  ⟨rfl,
    let ⟨m1, h1, _, _, _, h5, _⟩ :=
      (copy_ctor_shares_and_increments (finalState sampleOne) 0 5 sampleOne_get).2
        (by decide) { refcount_ := 1, obj := () } rfl (by decide) (by decide)
    ⟨m1, h1, h5⟩⟩

/-- C4, the claim as stated fails: with the counter at `2 ^ 64 - 1` the copy
returns, and the counter then reads 0, not `2 ^ 64`. -/
theorem copy_ctor_counter_wraps :
    (intrusive_ptr.copy_ctor saturated 0 >>= fun m1 => intrusive_ptr.use_count m1 1) = .ok 0 ∧
    intrusive_ptr.use_count saturated 0 = .ok (2 ^ 64 - 1) ∧
    (0 : Nat) ≠ (2 ^ 64 - 1) + 1 :=
  ⟨rfl, rfl, by decide⟩

/-- C5. Move construction from a live handle returns; the new handle holds the
target the source held, the source is left null (`get()` is the null
singleton, `defined()` false, `use_count()` 0), every target and counter is as
before, nothing is deleted, and no other handle changes. -/
theorem move_ctor_transfers (m : Machine α) (rhs p : Nat)
    (hp : intrusive_ptr.get m rhs = .ok p) :
    ∃ m1, intrusive_ptr.move_ctor m rhs = .ok m1 ∧
      intrusive_ptr.get m1 m.handles.length = .ok p ∧
      intrusive_ptr.get m1 rhs = .ok singleton ∧
      intrusive_ptr.defined m1 rhs = .ok false ∧
      intrusive_ptr.use_count m1 rhs = .ok 0 ∧
      m1.heap = m.heap ∧ m1.deleted = m.deleted ∧
      (∀ k, k ≠ rhs → k ≠ m.handles.length → intrusive_ptr.get m1 k = intrusive_ptr.get m k) := by
  unfold intrusive_ptr.get at hp ⊢
  have hlt := target_lt m rhs p hp
  have hset := target_setTarget (m.push p) rhs singleton
  have hp2 := target_push m p rhs p hp
  have hr : ((m.push p).setTarget rhs singleton).target_ rhs = .ok singleton := by
    rw [hset rhs p hp2, if_pos rfl]
  refine ⟨(m.push p).setTarget rhs singleton, ?_, ?_, hr, ?_, ?_, rfl, rfl, ?_⟩
  · simp [intrusive_ptr.move_ctor, hp, bind, Except.bind, pure, Except.pure]
  · rw [hset _ p hp2, if_neg (by omega)]
    exact target_push_new m p
  · rw [defined_ok _ _ _ hr]; rfl
  · exact use_count_null _ _ hr
  · intro k hk hk2
    rw [hset _ p hp2, if_neg hk]
    unfold Machine.target_ Machine.push
    simp only
    by_cases hlt2 : k < m.handles.length
    · rw [List.getElem?_append_left hlt2]
    · rw [List.getElem?_eq_none (by simp; omega), List.getElem?_eq_none (by omega)]

theorem move_ctor_transfers_witness :
    intrusive_ptr.get (finalState sampleOne) 0 = .ok 5 ∧
    ∃ m1, intrusive_ptr.move_ctor (finalState sampleOne) 0 = .ok m1 ∧
      intrusive_ptr.get m1 1 = .ok 5 ∧ intrusive_ptr.use_count m1 0 = .ok 0 ∧
      m1.heap = (finalState sampleOne).heap :=
  ⟨rfl,
    let ⟨m1, h1, h2, _, _, h5, h6, _⟩ :=
      move_ctor_transfers (finalState sampleOne) 0 5 sampleOne_get
    ⟨m1, h1, h2, h5, h6⟩⟩

/-- C6. A newly constructed `intrusive_ptr_target` has counter 0, so
`make_intrusive` never reaches the fatal assertion; when `new` answers with a
fresh non-null address it returns a handle to the new target with counter
exactly 1: `defined()` is true, `use_count()` is 1, `unique()` is true, and no
other target changes. -/
theorem make_intrusive_counter_one (m : Machine α) (addr : Nat) (obj : α) :
    (intrusive_ptr_target.ctor obj).refcount_ = 0 ∧
    intrusive_ptr.make m addr obj ≠ .error .terminate ∧
    (addr ≠ 0 → m.heap addr = none →
      ∃ m1, intrusive_ptr.make m addr obj = .ok m1 ∧
        intrusive_ptr.get m1 m.handles.length = .ok addr ∧
        intrusive_ptr.defined m1 m.handles.length = .ok true ∧
        intrusive_ptr.use_count m1 m.handles.length = .ok 1 ∧
        intrusive_ptr.unique m1 m.handles.length = .ok true ∧
        m1.heap addr = some { refcount_ := 1, obj := obj } ∧
        (∀ q, q ≠ addr → m1.heap q = m.heap q) ∧
        m1.handles = m.handles ++ [some addr] ∧ m1.deleted = m.deleted) := by
  refine ⟨rfl, ?_, ?_⟩
  · by_cases hc : addr = 0 ∨ (m.heap addr).isSome = true
    · simp [intrusive_ptr.make, hc]
    · simp only [not_or, Option.not_isSome_iff_eq_none] at hc
      rw [make_spec m addr obj hc.1 hc.2]
      simp
  · intro h0 hn
    have ht : (((m.store addr (some (intrusive_ptr_target.ctor obj))).store addr
          (some { refcount_ := 1, obj := obj })).push addr).target_ m.handles.length
        = .ok addr := target_push_new ((m.store addr _).store addr _) addr
    have hh : (((m.store addr (some (intrusive_ptr_target.ctor obj))).store addr
          (some { refcount_ := 1, obj := obj })).push addr).heap addr
        = some { refcount_ := 1, obj := obj } := by
      simp [Machine.push, Machine.store]
    have hu := use_count_heap _ _ _ _ ht h0 hh
    refine ⟨_, make_spec m addr obj h0 hn, ht, ?_, hu, ?_, hh, ?_, rfl, rfl⟩
    · rw [defined_ok _ _ _ ht]
      simp [singleton, h0]
    · rw [unique_of_use_count _ _ _ hu]
      rfl
    · intro q hq
      simp [Machine.push, Machine.store, hq]

theorem make_intrusive_counter_one_witness :
    ∃ m1, intrusive_ptr.make (Machine.init : Machine Unit) 5 () = .ok m1 ∧
      intrusive_ptr.use_count m1 0 = .ok 1 ∧ intrusive_ptr.unique m1 0 = .ok true :=
  let ⟨m1, h1, _, _, h4, h5, _⟩ :=
    (make_intrusive_counter_one (Machine.init : Machine Unit) 5 ()).2.2 (by decide) rfl
  ⟨m1, h1, h4, h5⟩

/-- C7. For a live handle, `use_count()` returns 0 when the handle is null and
the counter of the target otherwise; `unique()` is true exactly when
`use_count()` is 1, so it is false for a null handle. `Storage::use_count` and
`Storage::unique` are those of the handle inside. -/
theorem use_count_and_unique (m : Machine α) (h p : Nat)
    (hp : intrusive_ptr.get m h = .ok p) :
    (p = singleton →
      intrusive_ptr.use_count m h = .ok 0 ∧ intrusive_ptr.unique m h = .ok false) ∧
    (p ≠ singleton → ∀ t, m.heap p = some t →
      intrusive_ptr.use_count m h = .ok t.refcount_ ∧
      intrusive_ptr.unique m h = .ok (t.refcount_ == 1)) ∧
    (∀ n, intrusive_ptr.use_count m h = .ok n →
      (intrusive_ptr.unique m h = .ok true ↔ n = 1)) ∧
    (∀ (s : Machine StorageImpl) (k : Nat),
      Storage.use_count s k = intrusive_ptr.use_count s k ∧
      Storage.unique s k = intrusive_ptr.unique s k) := by
  unfold intrusive_ptr.get at hp
  refine ⟨fun h0 => ?_, fun h0 t ht => ?_, fun n hn => ?_, fun s k => ⟨rfl, rfl⟩⟩
  · unfold singleton at h0
    subst h0
    have hu := use_count_null m h hp
    exact ⟨hu, by rw [unique_of_use_count m h 0 hu]; rfl⟩
  · have hu := use_count_heap m h p t hp h0 ht
    exact ⟨hu, unique_of_use_count m h _ hu⟩
  · rw [unique_of_use_count m h n hn]
    simp

theorem use_count_and_unique_witness :
    intrusive_ptr.get (finalState sampleOne) 0 = .ok 5 ∧
    intrusive_ptr.use_count (finalState sampleOne) 0 = .ok 1 ∧
    intrusive_ptr.unique (finalState sampleOne) 0 = .ok true :=
  ⟨rfl,
    (use_count_and_unique (finalState sampleOne) 0 5 sampleOne_get).2.1 (by decide)
      { refcount_ := 1, obj := () } rfl⟩

/-- C8. On a target that is not null, `retain_()` (and with it the copy
constructor) ends in `std::terminate` exactly when the counter was 0 before
the increment; from counter 0 it never returns; and for every counter `c` with
`1 <= c < 2 ^ 64 - 1` it returns with the counter at `c + 1`. -/
theorem retain_terminates_iff_counter_zero (m : Machine α) (p : Nat)
    (t : intrusive_ptr_target α) (hp : p ≠ singleton) (ht : m.heap p = some t)
    (hlt : t.refcount_ < 2 ^ 64) :
    (intrusive_ptr.retain_ m p = .error .terminate ↔ t.refcount_ = 0) ∧
    (∀ rhs, m.target_ rhs = .ok p →
      (intrusive_ptr.copy_ctor m rhs = .error .terminate ↔ t.refcount_ = 0)) ∧
    (t.refcount_ = 0 → ∀ m1, intrusive_ptr.retain_ m p ≠ .ok m1) ∧
    (1 ≤ t.refcount_ → t.refcount_ < 2 ^ 64 - 1 →
      ∃ m1, intrusive_ptr.retain_ m p = .ok m1 ∧
        m1.heap p = some { t with refcount_ := t.refcount_ + 1 }) := by
  have hz : (t.refcount_ + 1) % 2 ^ 64 = 1 ↔ t.refcount_ = 0 := by omega
  have hr := retain_spec m p t hp ht
  refine ⟨?_, fun rhs hrhs => ?_, fun h0 m1 => ?_, fun h1 h2 => ?_⟩
  · rw [hr, ← hz]
    by_cases hc : (t.refcount_ + 1) % 2 ^ 64 = 1
    · rw [if_pos hc]; exact ⟨fun _ => hc, fun _ => rfl⟩
    · rw [if_neg hc]; exact ⟨fun h => (by cases h), fun h => absurd h hc⟩
  · rw [copy_ctor_spec m rhs p t hrhs hp ht, ← hz]
    by_cases hc : (t.refcount_ + 1) % 2 ^ 64 = 1
    · rw [if_pos hc]; exact ⟨fun _ => hc, fun _ => rfl⟩
    · rw [if_neg hc]; exact ⟨fun h => (by cases h), fun h => absurd h hc⟩
  · rw [hr, if_pos (hz.mpr h0)]
    simp
  · have hmod : (t.refcount_ + 1) % 2 ^ 64 = t.refcount_ + 1 := by omega
    have hne : ¬ (t.refcount_ + 1) % 2 ^ 64 = 1 := by omega
    rw [hr, if_neg hne]
    refine ⟨_, rfl, ?_⟩
    simp only [Machine.store, if_true, hmod]

theorem retain_terminates_iff_counter_zero_witness :
    zeroed.heap 5 = some { refcount_ := 0, obj := () } ∧
    intrusive_ptr.retain_ zeroed 5 = .error .terminate ∧
    intrusive_ptr.copy_ctor zeroed 0 = .error .terminate :=
  ⟨rfl,
    (retain_terminates_iff_counter_zero zeroed 5 { refcount_ := 0, obj := () }
      (by decide) rfl (by decide)).1.mpr rfl,
    ((retain_terminates_iff_counter_zero zeroed 5 { refcount_ := 0, obj := () }
      (by decide) rfl (by decide)).2.1 0 rfl).mpr rfl⟩

/-- C9. For a block holding buffer A and any buffer B, `set_data_ptr(B)`
returns exactly A (pointer and deleter), leaves the block holding B, calls no
deleter, and keeps size, resizable flag and allocator; `set_data_ptr` with the
returned buffer then returns B and restores the block. `Storage::set_data_ptr`
does the same on the block its handle holds, whose counter it keeps. -/
theorem set_data_ptr_round_trip (self : StorageImpl) (B : DataPtr) :
    ∃ r, self.set_data_ptr B = .ok r ∧
      r.2.1 = self.data_ptr_ ∧
      r.1.data_ptr_ = B ∧
      r.2.2.2 = [] ∧
      r.1.size_bytes_ = self.size_bytes_ ∧
      r.1.resizable_ = self.resizable_ ∧
      r.1.allocator_ = self.allocator_ ∧
      (∃ r2, r.1.set_data_ptr r.2.1 = .ok r2 ∧ r2.2.1 = B ∧ r2.1 = self ∧ r2.2.2.2 = []) ∧
      (∀ (m : Machine StorageImpl) (h p : Nat) (t : intrusive_ptr_target StorageImpl),
        intrusive_ptr.get m h = .ok p → p ≠ singleton → m.heap p = some t →
        Storage.set_data_ptr m h B
          = .ok (m.store p (some { t with obj := { t.obj with data_ptr_ := B } }),
              t.obj.data_ptr_, { ptr := 0, deleter := B.deleter }, [])) := by
  refine ⟨_, set_data_ptr_spec self B, rfl, rfl, rfl, rfl, rfl, rfl,
    ⟨_, set_data_ptr_spec _ _, rfl, rfl, rfl⟩, fun m h p t hp h0 ht => ?_⟩
  unfold Storage.set_data_ptr
  rw [hp]
  simp only [bind, Except.bind, h0, if_false, ht, set_data_ptr_spec, pure, Except.pure]

theorem set_data_ptr_round_trip_witness :
    sampleImpl.set_data_ptr { ptr := 200, deleter := 9 }
      = .ok ({ sampleImpl with data_ptr_ := { ptr := 200, deleter := 9 } },
          { ptr := 100, deleter := 7 }, { ptr := 0, deleter := 9 }, []) ∧
    Storage.set_data_ptr (finalState [.make_intrusive 5 sampleImpl]) 0
        { ptr := 200, deleter := 9 }
      = .ok ((finalState [.make_intrusive 5 sampleImpl]).store 5
          (some { refcount_ := 1,
                  obj := { sampleImpl with data_ptr_ := { ptr := 200, deleter := 9 } } }),
          { ptr := 100, deleter := 7 }, { ptr := 0, deleter := 9 }, []) :=
  ⟨rfl,
    let ⟨_, _, _, _, _, _, _, _, _, h⟩ :=
      set_data_ptr_round_trip sampleImpl { ptr := 200, deleter := 9 }
    h (finalState [.make_intrusive 5 sampleImpl]) 0 5 { refcount_ := 1, obj := sampleImpl }
      rfl (by decide) rfl⟩

/-- C10, amended. In every state reached by a run of handle operations without
`release()`, for live `Storage` handles `a` and `b`: `a.is_alias_of(b)` returns,
and it is true exactly when `a` and `b` have the same origin, that is, both
got their block by copies and moves from the same construction, or neither
holds a block (default-constructed, moved-from or reset handles have no
origin). So it is false for two handles made by independent constructions,
and true for two handles that hold no block. -/
theorem is_alias_of_iff_same_origin (ops : List (Op StorageImpl)) (m : Machine StorageImpl)
    (he : Exec Machine.init ops m) (a b pa pb : Nat)
    (ha : intrusive_ptr.get m a = .ok pa) (hb : intrusive_ptr.get m b = .ok pb) :
    Storage.is_alias_of m a b = .ok (pa == pb) ∧
    ((pa == pb) = true ↔ originOf (origins ops) a = originOf (origins ops) b) ∧
    (pa = singleton ↔ originOf (origins ops) a = none) ∧
    (pb = singleton ↔ originOf (origins ops) b = none) := by
  unfold intrusive_ptr.get at ha hb
  have hi : (Machine.init : Machine StorageImpl).liveHandles < 2 ^ 64 := by
    simp [Machine.init, Machine.liveHandles]
  obtain ⟨hc, -, -⟩ := exec_counted Machine.init m ops init_counted hi he
  obtain ⟨f, hg, -, hinj⟩ := linked_exec Machine.init m [] ops init_counted hi linked_init he
  have oa := originOf_target m _ f hg a pa ha
  have ob := originOf_target m _ f hg b pb hb
  have hal : ∀ h p, m.target_ h = .ok p → p ≠ 0 → m.alive p = 1 := by
    intro h p hp h0
    obtain ⟨t, ht, -⟩ := held_alive hc hp h0
    exact (counter_of_heap m p t ht).2
  unfold origins
  rw [oa, ob]
  refine ⟨eq_ok m a b pa pb ha hb, ?_, ?_, ?_⟩
  · constructor
    · intro e
      have : pa = pb := by simpa using e
      rw [this]
    · intro e
      by_cases ha0 : pa = 0 <;> by_cases hb0 : pb = 0
      · simp [ha0, hb0]
      · simp [tag, ha0, hb0] at e
      · simp [tag, ha0, hb0] at e
      · simp only [tag, ha0, hb0, if_false, Option.some.injEq] at e
        have := hinj pa pb ha0 hb0 (hal a pa ha ha0) (hal b pb hb hb0) e
        simp [this]
  · unfold singleton
    by_cases ha0 : pa = 0 <;> simp [tag, ha0]
  · unfold singleton
    by_cases hb0 : pb = 0 <;> simp [tag, hb0]

theorem is_alias_of_iff_same_origin_witness :
    Exec Machine.init sampleTwoStorages (finalState sampleTwoStorages) ∧
    Storage.is_alias_of (finalState sampleTwoStorages) 0 1 = .ok false ∧
    origins sampleTwoStorages = [some 0, some 1] :=
  ⟨sampleTwoStorages_exec,
    (is_alias_of_iff_same_origin sampleTwoStorages (finalState sampleTwoStorages)
      sampleTwoStorages_exec 0 1 5 6 rfl rfl).1,
    rfl⟩

/-- C10, the claim as stated fails: two default-constructed `Storage` handles
derive from no construction and reference no block, and `is_alias_of` returns
true for them. -/
theorem default_constructed_alias :
    Storage.is_alias_of (finalState sampleTwoDefaults) 0 1 = .ok true ∧
    intrusive_ptr.defined (finalState sampleTwoDefaults) 0 = .ok false ∧
    intrusive_ptr.defined (finalState sampleTwoDefaults) 1 = .ok false ∧
    origins sampleTwoDefaults = [none, none] :=
  ⟨rfl, rfl, rfl, rfl⟩

/-! ### Allocators and storage blocks -/

theorem raw_deallocate_spec (a : Allocator) (ptr : Nat) :
    a.raw_deallocate ptr
      = if a.raw_deleter = 0 then .error .terminate else .ok [(a.raw_deleter, ptr)] := by
  unfold Allocator.raw_deallocate assert
  by_cases h : a.raw_deleter = 0
  · simp [h]
  · simp [h]

theorem to_ptrdiff_t_nonneg (nbytes : Nat) (h : nbytes < 2 ^ 64) :
    0 ≤ to_ptrdiff_t nbytes ↔ nbytes < 2 ^ 63 := by
  unfold to_ptrdiff_t
  split
  · constructor
    · intro _; assumption
    · intro _; omega
  · constructor
    · intro h2; omega
    · intro h2; omega

theorem set_resizable_spec (self : StorageImpl) (r : Bool) :
    self.set_resizable r
      = if r = true ∧ self.allocator_.isSome = false then .error .terminate
        else .ok { self with resizable_ := r } := by
  unfold StorageImpl.set_resizable assert
  cases r <;> cases h : self.allocator_.isSome <;>
    simp [h, bind, Except.bind, pure, Except.pure]

/-- Every mutator of `StorageImpl` other than `set_allocator(nullptr)` keeps the
predicate that a resizable block has an allocator. -/
theorem resizableHasAllocator_preserved (self : StorageImpl)
    (h : self.resizableHasAllocator) :
    (∀ a : Allocator, (self.set_allocator (some a)).resizableHasAllocator) ∧
    (∀ r s, self.set_resizable r = .ok s → s.resizableHasAllocator) ∧
    (∀ n, (self.set_nbytes n).resizableHasAllocator) ∧
    (∀ d r, self.set_data_ptr d = .ok r → r.1.resizableHasAllocator) ∧
    (∀ d r, self.set_data_ptr_noswap d = .ok r → r.1.resizableHasAllocator) ∧
    (∀ r, self.reset = .ok r → r.1.resizableHasAllocator) ∧
    (∀ r, self.release_resources = .ok r → r.1.resizableHasAllocator) := by
  refine ⟨fun a _ => rfl, fun r s hs => ?_, fun n => h, fun d r hr => ?_, fun d r hr => ?_,
    fun r hr => ?_, fun r hr => ?_⟩
  · rw [set_resizable_spec] at hs
    split at hs
    · cases hs
    · next hc =>
      cases hs
      intro hr
      simp only [StorageImpl.resizable] at hr
      simp only [StorageImpl.allocator]
      cases ha : self.allocator_.isSome
      · exact absurd ⟨hr, ha⟩ hc
      · rfl
  · rw [set_data_ptr_spec] at hr
    cases hr
    exact h
  · simp only [StorageImpl.set_data_ptr_noswap, bind_ok, pure, Except.pure,
      Except.ok.injEq] at hr
    obtain ⟨a, -, rfl⟩ := hr
    exact h
  · simp only [StorageImpl.reset, bind_ok, pure, Except.pure, Except.ok.injEq] at hr
    obtain ⟨a, -, rfl⟩ := hr
    exact h
  · simp only [StorageImpl.release_resources, bind_ok, pure, Except.pure,
      Except.ok.injEq] at hr
    obtain ⟨a, -, rfl⟩ := hr
    exact h

/-- Rewriting the members of a live block keeps every `use_count()`. -/
theorem use_count_store_obj (m : Machine StorageImpl) (p : Nat)
    (t : intrusive_ptr_target StorageImpl) (o : StorageImpl) (ht : m.heap p = some t)
    (k : Nat) :
    intrusive_ptr.use_count (m.store p (some { t with obj := o })) k
      = intrusive_ptr.use_count m k := by
  unfold intrusive_ptr.use_count
  have hk : (m.store p (some { t with obj := o })).target_ k = m.target_ k := rfl
  rw [hk]
  cases hq : m.target_ k with
  | error e => rfl
  | ok q =>
    simp only [bind, Except.bind]
    by_cases h0 : q = singleton
    · simp [h0]
    · simp only [h0, if_false]
      by_cases hqp : q = p
      · subst hqp
        simp [Machine.store, ht]
      · simp [Machine.store, hqp]

theorem block_ok (m : Machine StorageImpl) (h p : Nat) (t : intrusive_ptr_target StorageImpl)
    (hp : intrusive_ptr.get m h = .ok p) (h0 : p ≠ singleton) (ht : m.heap p = some t) :
    Storage.block m h = .ok (p, t) := by
  simp [Storage.block, hp, bind, Except.bind, h0, ht, pure, Except.pure]

theorem block_null (m : Machine StorageImpl) (h : Nat)
    (hp : intrusive_ptr.get m h = .ok singleton) :
    Storage.block m h = .error .undefined := by
  simp [Storage.block, hp, bind, Except.bind]

theorem sampleStorageOps_exec : Exec Machine.init sampleStorageOps (finalState sampleStorageOps) :=
  Exec.cons rfl rfl (by decide) sampleStorage_exec

/-- C11, the code at the failing input: the constructor with a buffer stores
`resizable == true` next to a null allocator and returns, so a `Storage` whose
block has `resizable()` true and `allocator()` null exists; the constructor
without a buffer dereferences the null allocator, which is undefined and not
`std::terminate`; only `set_resizable(true)` ends in `std::terminate`. -/
theorem resizable_without_allocator_accepted :
    Storage.ctor_data_ptr Machine.init 5 16 { ptr := 100, deleter := 7 } none true
      = .ok (finalState [.make_intrusive 5 sampleResizableNoAllocator]) ∧
    Storage.resizable (finalState [.make_intrusive 5 sampleResizableNoAllocator]) 0
      = .ok true ∧
    Storage.allocator (finalState [.make_intrusive 5 sampleResizableNoAllocator]) 0
      = .ok none ∧
    sampleResizableNoAllocator.resizable = true ∧
    sampleResizableNoAllocator.allocator.isSome = false ∧
    StorageImpl.ctor_allocate 16 none true = .error .undefined ∧
    (StorageImpl.ctor 16 { ptr := 100, deleter := 7 } none false).set_resizable true
      = .error .terminate :=
  ⟨rfl, rfl, rfl, rfl, rfl, rfl, rfl⟩

/-- C12, the code at the failing input: a resizable block with an allocator
satisfies the predicate; `set_allocator(nullptr)` returns and leaves
`resizable()` true with `allocator()` null, so the predicate no longer holds. -/
theorem set_allocator_null_breaks_invariant :
    sampleResizable.resizableHasAllocator ∧
    (sampleResizable.set_allocator none).resizable = true ∧
    (sampleResizable.set_allocator none).allocator.isSome = false ∧
    ¬ (sampleResizable.set_allocator none).resizableHasAllocator :=
  ⟨fun _ => rfl, rfl, rfl, fun h => Bool.noConfusion (h rfl)⟩

/-- C13. On every platform `alloc_cpu(0)` returns null without calling the
backend or an assertion, and `DefaultCPUAllocator::allocate(0)` returns the
handle (null, `Delete`). Destroying or resetting that handle calls no deleter,
`Delete(nullptr)` passes nothing to `free`, and `raw_deallocate(nullptr)`
returns after the one call `Delete(nullptr)`, which frees nothing. -/
theorem allocate_zero_is_null (posix_memalign : Nat → Nat → Int × Nat) :
    alloc_cpu posix_memalign 0 = ([], .ok 0) ∧
    (DefaultCPUAllocator posix_memalign).allocate 0
      = .ok { ptr := 0, deleter := DefaultCPUAllocator.DeleteFn } ∧
    DataPtr.dtor { ptr := 0, deleter := DefaultCPUAllocator.DeleteFn } = .ok [] ∧
    DataPtr.reset { ptr := 0, deleter := DefaultCPUAllocator.DeleteFn } 0
      = .ok ({ ptr := 0, deleter := DefaultCPUAllocator.DeleteFn }, []) ∧
    DefaultCPUAllocator.Delete 0 = [] ∧
    (DefaultCPUAllocator posix_memalign).raw_deallocate 0
      = .ok [(DefaultCPUAllocator.DeleteFn, 0)] ∧
    DefaultCPUAllocator.freed [(DefaultCPUAllocator.DeleteFn, 0)] = [] :=
  ⟨rfl, rfl, rfl, rfl, rfl, rfl, rfl⟩

/-- C14. `raw_deallocate(ptr)` ends in `std::terminate`, with no call made,
exactly when `raw_deleter()` is null, and otherwise makes the single call
`raw_deleter()(ptr)`. A backend that keeps the `raw_deleter` of the base class
always terminates. For `DefaultCPUAllocator`, `raw_deallocate(ptr)` is the
single call `Delete(ptr)`, and `raw_allocate(n)` returns the pointer of
`allocate(n)` and calls no deleter. -/
theorem raw_deallocate_terminates_iff_no_deleter (a : Allocator) (ptr : Nat) :
    (a.raw_deallocate ptr = .error .terminate ↔ a.raw_deleter = 0) ∧
    (a.raw_deleter ≠ 0 → a.raw_deallocate ptr = .ok [(a.raw_deleter, ptr)]) ∧
    (∀ allocate, (Allocator.ofAllocate allocate).raw_deallocate ptr = .error .terminate) ∧
    (∀ posix_memalign,
      (DefaultCPUAllocator posix_memalign).raw_deallocate ptr
        = .ok [(DefaultCPUAllocator.DeleteFn, ptr)] ∧
      DefaultCPUAllocator.freed [(DefaultCPUAllocator.DeleteFn, ptr)]
        = DefaultCPUAllocator.Delete ptr) ∧
    (∀ posix_memalign n d, (DefaultCPUAllocator posix_memalign).allocate n = .ok d →
      (DefaultCPUAllocator posix_memalign).raw_allocate n = .ok (d.ptr, [])) := by
  refine ⟨?_, fun h => ?_, fun allocate => rfl, fun pm => ⟨rfl, ?_⟩, fun pm n d hd => ?_⟩
  · rw [raw_deallocate_spec]
    by_cases h : a.raw_deleter = 0
    · simp [h]
    · simp [h]
  · rw [raw_deallocate_spec, if_neg h]
  · simp [DefaultCPUAllocator.freed]
  · simp [Allocator.raw_allocate, hd, bind, Except.bind, pure, Except.pure, DataPtr.release,
      DataPtr.dtor]

theorem raw_deallocate_terminates_iff_no_deleter_witness :
    (DefaultCPUAllocator samplePlatform).allocate 8
      = .ok { ptr := 4096, deleter := DefaultCPUAllocator.DeleteFn } ∧
    (DefaultCPUAllocator samplePlatform).raw_allocate 8 = .ok (4096, []) ∧
    sampleAllocator.raw_deallocate 4096 = .ok [(7, 4096)] :=
  ⟨rfl,
    (raw_deallocate_terminates_iff_no_deleter sampleAllocator 0).2.2.2.2 samplePlatform 8
      { ptr := 4096, deleter := DefaultCPUAllocator.DeleteFn } rfl,
    (raw_deallocate_terminates_iff_no_deleter sampleAllocator 4096).2.1 (by decide)⟩

/-- C15. For a 64-bit `size_t` value `nbytes`: `(ptrdiff_t)nbytes` is negative
exactly when `nbytes >= 2 ^ 63`; for such `nbytes` `alloc_cpu` ends in
`std::terminate` without a call of `posix_memalign`; for `0 < nbytes < 2 ^ 63`
the size assertion passes and `posix_memalign(&data, 64, nbytes)` is called
once, its answer deciding the outcome. -/
theorem alloc_cpu_rejects_negative_sizes (posix_memalign : Nat → Nat → Int × Nat)
    (nbytes : Nat) (h : nbytes < 2 ^ 64) :
    (to_ptrdiff_t nbytes < 0 ↔ 2 ^ 63 ≤ nbytes) ∧
    (2 ^ 63 ≤ nbytes → alloc_cpu posix_memalign nbytes = ([], .error .terminate)) ∧
    (0 < nbytes → nbytes < 2 ^ 63 →
      assert (decide (to_ptrdiff_t nbytes ≥ 0)) = .ok () ∧
      alloc_cpu posix_memalign nbytes
        = ([(gAlignment, nbytes)],
            if (posix_memalign gAlignment nbytes).1 = 0
            then .ok (posix_memalign gAlignment nbytes).2 else .error .terminate)) := by
  have hn := to_ptrdiff_t_nonneg nbytes h
  refine ⟨by omega, fun h2 => ?_, fun h0 h2 => ?_⟩
  · have hneg : ¬ (to_ptrdiff_t nbytes ≥ 0) := by omega
    have h0 : nbytes ≠ 0 := by omega
    simp only [alloc_cpu, if_neg h0, assert, decide_eq_false hneg]
    rfl
  · have hpos : to_ptrdiff_t nbytes ≥ 0 := hn.mpr h2
    have h0' : nbytes ≠ 0 := by omega
    have ha : assert (decide (to_ptrdiff_t nbytes ≥ 0)) = .ok () := by
      simp only [assert, decide_eq_true hpos]
      rfl
    refine ⟨ha, ?_⟩
    simp only [alloc_cpu, if_neg h0', ha]
    by_cases he : (posix_memalign gAlignment nbytes).1 = 0
    · simp [assert, he]
    · simp [assert, he]

theorem alloc_cpu_rejects_negative_sizes_witness :
    alloc_cpu samplePlatform (2 ^ 63) = ([], .error .terminate) ∧
    alloc_cpu samplePlatform 8 = ([(64, 8)], .ok 4096) :=
  ⟨(alloc_cpu_rejects_negative_sizes samplePlatform (2 ^ 63) (by decide)).2.1 (by decide),
    ((alloc_cpu_rejects_negative_sizes samplePlatform 8 (by decide)).2.2
      (by decide) (by decide)).2⟩

/-- C16. For a block whose buffer can be freed (its deleter is not a null
function pointer when its pointer is not null), `StorageImpl::reset()` returns,
leaves `data()` null and `nbytes()` 0, keeps the resizable flag and the
allocator, and calls the deleter once, on the owned pointer, when that pointer
is not null (and not at all when it is null). Called
on a live block, it keeps the block alive with the same counter; no target,
handle or deletion changes, and every handle keeps its target and its
`use_count()`. -/
theorem reset_drops_buffer_keeps_block (self : StorageImpl)
    (hv : self.data ≠ 0 → self.data_ptr.deleter ≠ 0) :
    ∃ r, self.reset = .ok r ∧
      r.1.data = 0 ∧ r.1.nbytes = 0 ∧
      r.1.resizable = self.resizable ∧ r.1.allocator = self.allocator ∧
      (self.data ≠ 0 → r.2 = [(self.data_ptr.deleter, self.data)]) ∧
      (self.data = 0 → r.2 = []) ∧
      (∀ (m : Machine StorageImpl) (p : Nat) (t : intrusive_ptr_target StorageImpl),
        p ≠ singleton → m.heap p = some t → t.obj = self →
        ∃ m1, Storage.reset_block m p = .ok (m1, r.2) ∧
          m1.heap p = some { refcount_ := t.refcount_, obj := r.1 } ∧
          (∀ q, q ≠ p → m1.heap q = m.heap q) ∧
          m1.handles = m.handles ∧ m1.deleted = m.deleted ∧
          ∀ h, intrusive_ptr.get m1 h = intrusive_ptr.get m h ∧
            Storage.use_count m1 h = Storage.use_count m h) := by
  have hs := storageImpl_reset_spec self hv
  refine ⟨_, hs, rfl, rfl, rfl, rfl, fun h => ?_, fun h => ?_, fun m p t h0 ht ho => ?_⟩
  · simp only [StorageImpl.data] at h
    simp [h, StorageImpl.data, StorageImpl.data_ptr]
  · simp only [StorageImpl.data] at h
    simp [h]
  · subst ho
    refine ⟨m.store p (some { t with obj :=
        { t.obj with data_ptr_ := { ptr := 0, deleter := t.obj.data_ptr_.deleter },
                     size_bytes_ := 0 } }), ?_, ?_, ?_, rfl, rfl,
      fun h => ⟨rfl, use_count_store_obj m p t _ ht h⟩⟩
    · unfold Storage.reset_block
      rw [if_neg h0, ht]
      simp only [hs, bind, Except.bind, pure, Except.pure]
    · simp [Machine.store]
    · intro q hq
      simp [Machine.store, hq]

theorem reset_drops_buffer_keeps_block_witness :
    (finalState sampleStorageOps).heap 5 = some { refcount_ := 2, obj := sampleImpl } ∧
    sampleImpl.reset
      = .ok ({ sampleImpl with data_ptr_ := { ptr := 0, deleter := 7 }, size_bytes_ := 0 },
          [(7, 100)]) ∧
    ∃ r m1, sampleImpl.reset = .ok r ∧
      Storage.reset_block (finalState sampleStorageOps) 5 = .ok (m1, r.2) ∧
      m1.heap 5 = some { refcount_ := 2, obj := r.1 } ∧
      Storage.use_count m1 0 = Storage.use_count (finalState sampleStorageOps) 0 :=
  ⟨rfl, rfl,
    let ⟨r, hr, _, _, _, _, _, _, h⟩ :=
      reset_drops_buffer_keeps_block sampleImpl (fun _ => by decide)
    let ⟨m1, h1, h2, _, _, _, h6⟩ := h (finalState sampleStorageOps) 5
      { refcount_ := 2, obj := sampleImpl } (by decide) rfl rfl
    ⟨r, m1, hr, h1, h2, (h6 0).2⟩⟩

/-- C17. After `set_nbytes(n)`, `nbytes()` is `n` and the buffer (pointer and
deleter), the resizable flag and the allocator are as before.
`Storage::set_nbytes` on a handle to a live block returns; it changes the size
of that block only: the counter of the block, every other target, every handle
and every `use_count()` stay the same, and nothing is deleted. The functions
return no deleter calls and never reach `allocate`. -/
theorem set_nbytes_changes_only_size (self : StorageImpl) (n : Nat) :
    (self.set_nbytes n).nbytes = n ∧
    (self.set_nbytes n).data_ptr = self.data_ptr ∧
    (self.set_nbytes n).resizable = self.resizable ∧
    (self.set_nbytes n).allocator = self.allocator ∧
    (∀ (m : Machine StorageImpl) (h p : Nat) (t : intrusive_ptr_target StorageImpl),
      intrusive_ptr.get m h = .ok p → p ≠ singleton → m.heap p = some t → t.obj = self →
      ∃ m1, Storage.set_nbytes m h n = .ok m1 ∧ Storage.nbytes m1 h = .ok n ∧
        m1.heap p = some { refcount_ := t.refcount_, obj := self.set_nbytes n } ∧
        (∀ q, q ≠ p → m1.heap q = m.heap q) ∧
        m1.handles = m.handles ∧ m1.deleted = m.deleted ∧
        ∀ k, Storage.use_count m1 k = Storage.use_count m k) := by
  refine ⟨rfl, rfl, rfl, rfl, fun m h p t hp h0 ht ho => ?_⟩
  subst ho
  have hh : (m.store p (some { t with obj := t.obj.set_nbytes n })).heap p
      = some { refcount_ := t.refcount_, obj := t.obj.set_nbytes n } := by
    simp [Machine.store]
  refine ⟨m.store p (some { t with obj := t.obj.set_nbytes n }), ?_, ?_, hh, ?_, rfl, rfl,
    fun k => use_count_store_obj m p t _ ht k⟩
  · simp [Storage.set_nbytes, block_ok m h p t hp h0 ht, bind, Except.bind, pure, Except.pure]
  · have hb := block_ok (m.store p (some { t with obj := t.obj.set_nbytes n })) h p _ hp h0 hh
    unfold Storage.nbytes
    rw [hb]
    rfl
  · intro q hq
    simp [Machine.store, hq]

theorem set_nbytes_changes_only_size_witness :
    intrusive_ptr.get (finalState sampleStorageOps) 0 = .ok 5 ∧
    ∃ m1, Storage.set_nbytes (finalState sampleStorageOps) 0 64 = .ok m1 ∧
      Storage.nbytes m1 0 = .ok 64 ∧
      m1.heap 5 = some { refcount_ := 2, obj := sampleImpl.set_nbytes 64 } :=
  ⟨rfl,
    let ⟨m1, h1, h2, h3, _⟩ := (set_nbytes_changes_only_size sampleImpl 64).2.2.2.2
      (finalState sampleStorageOps) 0 5 { refcount_ := 2, obj := sampleImpl }
      rfl (by decide) rfl rfl
    ⟨m1, h1, h2, h3⟩⟩

/-- C18, amended. In every state reached by a run of handle operations without
`release()`, for a live `Storage` handle that holds a block (`defined()` true),
the block is alive and `nbytes()`, `resizable()`, `data()`, `data_ptr()`,
`allocator()` and `set_nbytes(n)` return. -/
theorem accessors_return_on_defined_storage (ops : List (Op StorageImpl))
    (m : Machine StorageImpl) (he : Exec Machine.init ops m) (h p : Nat)
    (hp : intrusive_ptr.get m h = .ok p) (hd : intrusive_ptr.defined m h = .ok true) :
    ∃ t, m.heap p = some t ∧
      Storage.nbytes m h = .ok t.obj.size_bytes_ ∧
      Storage.resizable m h = .ok t.obj.resizable_ ∧
      Storage.data m h = .ok t.obj.data_ptr_.ptr ∧
      Storage.data_ptr m h = .ok t.obj.data_ptr_ ∧
      Storage.allocator m h = .ok t.obj.allocator_ ∧
      ∀ n, Storage.set_nbytes m h n
        = .ok (m.store p (some { t with obj := t.obj.set_nbytes n })) := by
  have hi : (Machine.init : Machine StorageImpl).liveHandles < 2 ^ 64 := by
    simp [Machine.init, Machine.liveHandles]
  obtain ⟨hc, -, -⟩ := exec_counted Machine.init m ops init_counted hi he
  have hp2 : m.target_ h = .ok p := hp
  have h0 : p ≠ singleton := by
    rw [defined_ok m h p hp2] at hd
    simpa using hd
  obtain ⟨t, ht, -⟩ := held_alive hc hp2 h0
  have hb := block_ok m h p t hp h0 ht
  refine ⟨t, ht, ?_, ?_, ?_, ?_, ?_, fun n => ?_⟩ <;>
    simp [Storage.nbytes, Storage.resizable, Storage.data, Storage.data_ptr,
      Storage.allocator, Storage.set_nbytes, hb, bind, Except.bind, pure, Except.pure,
      StorageImpl.nbytes, StorageImpl.resizable, StorageImpl.data, StorageImpl.data_ptr,
      StorageImpl.allocator]

theorem accessors_return_on_defined_storage_witness :
    Exec Machine.init sampleStorageOps (finalState sampleStorageOps) ∧
    intrusive_ptr.defined (finalState sampleStorageOps) 0 = .ok true ∧
    ∃ t, (finalState sampleStorageOps).heap 5 = some t ∧
      Storage.nbytes (finalState sampleStorageOps) 0 = .ok t.obj.size_bytes_ :=
  ⟨sampleStorageOps_exec, rfl,
    let ⟨t, h1, h2, _⟩ := accessors_return_on_defined_storage sampleStorageOps
      (finalState sampleStorageOps) sampleStorageOps_exec 0 5 rfl rfl
    ⟨t, h1, h2⟩⟩

/-- C18, the claim as stated fails: on a default-constructed `Storage` each of
the accessors and `set_nbytes` dereferences the null block, and so does
`nbytes()` on a moved-from `Storage` and on one whose block was released. -/
theorem accessors_undefined_on_null_storage :
    Storage.nbytes (finalState sampleDefault) 0 = .error .undefined ∧
    Storage.resizable (finalState sampleDefault) 0 = .error .undefined ∧
    Storage.data (finalState sampleDefault) 0 = .error .undefined ∧
    Storage.data_ptr (finalState sampleDefault) 0 = .error .undefined ∧
    Storage.allocator (finalState sampleDefault) 0 = .error .undefined ∧
    Storage.set_nbytes (finalState sampleDefault) 0 8 = .error .undefined ∧
    Storage.nbytes (finalState sampleMovedFrom) 0 = .error .undefined ∧
    Storage.nbytes (finalState sampleReleased) 0 = .error .undefined :=
  ⟨rfl, rfl, rfl, rfl, rfl, rfl, rfl, rfl⟩

/-- C19. A target copy- or move-constructed from another starts with counter 0
and leaves the source as it was; copy and move assignment leave the counters
of destination and source as they were. -/
theorem refcount_not_copied_or_moved {α : Type} (self other : intrusive_ptr_target α)
    (obj : α) :
    (other.copy_ctor obj).1.refcount_ = 0 ∧ (other.copy_ctor obj).2 = other ∧
    (other.move_ctor obj).1.refcount_ = 0 ∧ (other.move_ctor obj).2 = other ∧
    (self.copy_assign other).1.refcount_ = self.refcount_ ∧
    (self.copy_assign other).2.refcount_ = other.refcount_ ∧
    (self.move_assign other).1.refcount_ = self.refcount_ ∧
    (self.move_assign other).2.refcount_ = other.refcount_ :=
  ⟨rfl, rfl, rfl, rfl, rfl, rfl, rfl, rfl⟩

/-- C20, the code at the failing input: a `Storage` around a block that owns
the pointer 100 is constructed and dropped. The block is handed to `delete`
with its buffer still owned, where `release_resources()` would have left it
null: the hook has not run, and the one deleter call comes from the destructor
of the block. -/
theorem release_resources_not_called_on_delete :
    run Machine.init sampleStorageDropped = .ok (finalState sampleStorageDropped) ∧
    (finalState sampleStorageDropped).deleted = [(5, sampleImpl)] ∧
    sampleImpl.data = 100 ∧
    sampleImpl.release_resources
      = .ok ({ sampleImpl with data_ptr_ := { ptr := 0, deleter := 7 } }, [(7, 100)]) ∧
    sampleImpl.release_resources.map (fun r => r.1.data) = .ok 0 ∧
    Storage.deleterCalls (finalState sampleStorageDropped) = .ok [(7, 100)] :=
  ⟨rfl, rfl, rfl, rfl, rfl, rfl⟩

/-! ### Assignment between handles -/

theorem countP_set_some (l : List (Option Nat)) (i x y : Nat) (h : l[i]? = some (some x)) :
    (l.set i (some y)).countP Option.isSome = l.countP Option.isSome := by
  induction l generalizing i with
  | nil => simp at h
  | cons b l ih =>
    cases i with
    | zero =>
      simp at h
      subst h
      simp [List.countP_cons]
    | succ i =>
      simp at h
      have := ih i h
      simp only [List.set_cons_succ, List.countP_cons]
      omega

theorem liveHandles_setTarget (m : Machine α) (h x y : Nat) (hx : m.target_ h = .ok x) :
    (m.setTarget h y).liveHandles = m.liveHandles := by
  rw [target_ok] at hx
  exact countP_set_some m.handles h x y hx

/-- Copy assignment in a state that keeps the counting discipline: it returns,
the left handle takes the target of the right one, and the discipline is kept. -/
theorem copy_assign_eff (m : Machine α) (hm : m.Counted) (hb : m.liveHandles < 2 ^ 64)
    (a b x p : Nat) (hx : m.target_ a = .ok x) (hp : m.target_ b = .ok p) :
    ∃ m1, intrusive_ptr.copy_assign m a b = .ok m1 ∧
      m1.handles = (m.setTarget a p).handles ∧ StepFacts m m1 := by
  obtain ⟨m1, h1⟩ := step_progress m (.copy_assign a b) hm hb ⟨⟨x, hx⟩, p, hp⟩
  have hh : m1.handles = (m.setTarget a p).handles := by
    rw [step_handles m m1 _ h1]
    simp only [handleStep, join_of_target m b p hp]
    rfl
  have hl : m1.liveHandles < 2 ^ 64 := by
    have : m1.liveHandles = (m.setTarget a p).liveHandles := by
      unfold Machine.liveHandles; rw [hh]
    rw [this, liveHandles_setTarget m a x p hx]
    exact hb
  exact ⟨m1, h1, hh, copy_assign_facts m m1 a b hm hb h1 hl⟩

/-- Move assignment in a state that keeps the counting discipline: it returns,
the right handle is set to null, then the left handle takes the target the
right one held, and the discipline is kept. -/
theorem move_assign_eff (m : Machine α) (hm : m.Counted) (hb : m.liveHandles < 2 ^ 64)
    (a b x p : Nat) (hx : m.target_ a = .ok x) (hp : m.target_ b = .ok p) :
    ∃ m1, intrusive_ptr.move_assign m a b = .ok m1 ∧
      m1.handles = ((m.setTarget b singleton).setTarget a p).handles ∧ StepFacts m m1 := by
  obtain ⟨m1, h1⟩ := step_progress m (.move_assign a b) hm hb ⟨⟨x, hx⟩, p, hp⟩
  have hh : m1.handles = ((m.setTarget b singleton).setTarget a p).handles := by
    rw [step_handles m m1 _ h1]
    simp only [handleStep, join_of_target m b p hp]
    rfl
  exact ⟨m1, h1, hh, move_assign_facts m m1 a b hm hb h1⟩

theorem reset_deleted (m m1 : Machine α) (p : Nat) (h : intrusive_ptr.reset_ m p = .ok m1) :
    m1.deleted = m.deleted ∨ ∃ v, p ≠ 0 ∧ m1.deleted = m.deleted ++ [(p, v)] := by
  obtain ⟨-, c, d⟩ := reset_ok m m1 p h
  by_cases h0 : p = 0
  · left; rw [c h0]
  · obtain ⟨-, d2, d3⟩ := d h0
    by_cases hz : (m.counter p + (2 ^ 64 - 1)) % 2 ^ 64 = 0
    · obtain ⟨t, -, ht⟩ := (d2 hz).1
      exact Or.inr ⟨t.obj, h0, ht⟩
    · exact Or.inl (d3 hz).1

theorem copy_assign_deleted (m m1 : Machine α) (a b : Nat)
    (hs : intrusive_ptr.copy_assign m a b = .ok m1) :
    m1.deleted = m.deleted ∨ ∃ q v, q ≠ 0 ∧ m1.deleted = m.deleted ++ [(q, v)] := by
  simp only [intrusive_ptr.copy_assign, bind_ok] at hs
  obtain ⟨x, -, p, -, m2, h2, old, -, hs⟩ := hs
  obtain ⟨-, rd, -⟩ := retain_ok m m2 p h2
  have c : (m2.setTarget a p).deleted = m.deleted := rd
  rcases reset_deleted _ m1 old hs with e | ⟨v, h0, e⟩
  · exact Or.inl (e.trans c)
  · exact Or.inr ⟨old, v, h0, by rw [e, c]⟩

theorem move_assign_deleted (m m1 : Machine α) (a b : Nat)
    (hs : intrusive_ptr.move_assign m a b = .ok m1) :
    m1.deleted = m.deleted ∨ ∃ q v, q ≠ 0 ∧ m1.deleted = m.deleted ++ [(q, v)] := by
  simp only [intrusive_ptr.move_assign, bind_ok] at hs
  obtain ⟨x, -, p, -, old, -, hs⟩ := hs
  have c : ((m.setTarget b singleton).setTarget a p).deleted = m.deleted := rfl
  rcases reset_deleted _ m1 old hs with e | ⟨v, h0, e⟩
  · exact Or.inl (e.trans c)
  · exact Or.inr ⟨old, v, h0, by rw [e, c]⟩

theorem deleted_of_deletions (m m1 : Machine α)
    (h : m1.deleted = m.deleted ∨ ∃ q v, q ≠ 0 ∧ m1.deleted = m.deleted ++ [(q, v)])
    (hd : ∀ q, q ≠ 0 → m1.deletions q = m.deletions q) : m1.deleted = m.deleted := by
  rcases h with e | ⟨q, v, h0, e⟩
  · exact e
  · have h1 := deletions_append m m1 q q v e
    have h2 := hd q h0
    simp only [if_true] at h1
    omega

theorem sampleTwoTargets_exec :
    Exec Machine.init sampleTwoTargets (finalState sampleTwoTargets) :=
  Exec.cons rfl rfl (by decide) (Exec.cons rfl rfl (by decide) (Exec.nil _))

/-- C21, amended. In every state reached by a run of handle operations without
`release()`, for live handles `a` (holding `x`) and `b` (holding `p`):
copy assignment `a = b` returns, `a` then holds `p`, `b` and every other handle
are unchanged; when the targets differ the counter of `p` rose by one and the
counter of `x` fell by one, `x` being deleted exactly when its counter was 1;
when the targets are the same nothing changes. Move assignment
`a = std::move(b)` with `a` distinct from `b` returns, `a` then holds `p` and
`b` is null; when the targets differ the counter of `p` is unchanged and the
counter of `x` fell by one (deleted exactly when it was 1); when `a` and `b`
held the same target its counter fell by one and it stays alive.
Self-assignment in either form returns and changes no handle, no counter and
no target, and deletes nothing. -/
theorem assignment_keeps_counting (ops : List (Op α)) (m : Machine α)
    (he : Exec Machine.init ops m) (a b x p : Nat)
    (ha : intrusive_ptr.get m a = .ok x) (hb : intrusive_ptr.get m b = .ok p) :
    (∃ m1, intrusive_ptr.copy_assign m a b = .ok m1 ∧
      intrusive_ptr.get m1 a = .ok p ∧ intrusive_ptr.get m1 b = .ok p ∧
      (∀ k, k ≠ a → intrusive_ptr.get m1 k = intrusive_ptr.get m k) ∧
      (x ≠ p → p ≠ singleton →
        m1.counter p = m.counter p + 1 ∧ m1.alive p = 1 ∧ m1.deletions p = m.deletions p) ∧
      (x ≠ p → x ≠ singleton →
        m1.counter x + 1 = m.counter x ∧
        m1.alive x = (if m.counter x = 1 then 0 else 1) ∧
        m1.deletions x = m.deletions x + (if m.counter x = 1 then 1 else 0)) ∧
      (∀ q, q ≠ singleton → x = p ∨ (q ≠ x ∧ q ≠ p) →
        m1.counter q = m.counter q ∧ m1.alive q = m.alive q ∧
        m1.deletions q = m.deletions q) ∧
      (x = p → m1.deleted = m.deleted)) ∧
    (a ≠ b → ∃ m1, intrusive_ptr.move_assign m a b = .ok m1 ∧
      intrusive_ptr.get m1 a = .ok p ∧ intrusive_ptr.get m1 b = .ok singleton ∧
      (∀ k, k ≠ a → k ≠ b → intrusive_ptr.get m1 k = intrusive_ptr.get m k) ∧
      (x ≠ p → p ≠ singleton →
        m1.counter p = m.counter p ∧ m1.alive p = 1 ∧ m1.deletions p = m.deletions p) ∧
      (x ≠ p → x ≠ singleton →
        m1.counter x + 1 = m.counter x ∧
        m1.alive x = (if m.counter x = 1 then 0 else 1) ∧
        m1.deletions x = m.deletions x + (if m.counter x = 1 then 1 else 0)) ∧
      (x = p → p ≠ singleton →
        m1.counter p + 1 = m.counter p ∧ m1.alive p = 1 ∧ m1.deletions p = m.deletions p) ∧
      (∀ q, q ≠ singleton → q ≠ x → q ≠ p →
        m1.counter q = m.counter q ∧ m1.alive q = m.alive q ∧
        m1.deletions q = m.deletions q) ∧
      (x = p → m1.deleted = m.deleted)) ∧
    (∃ m1, intrusive_ptr.copy_assign m a a = .ok m1 ∧
      (∀ k, intrusive_ptr.get m1 k = intrusive_ptr.get m k) ∧
      (∀ q, q ≠ singleton → m1.counter q = m.counter q ∧ m1.alive q = m.alive q) ∧
      m1.deleted = m.deleted) ∧
    (∃ m1, intrusive_ptr.move_assign m a a = .ok m1 ∧
      (∀ k, intrusive_ptr.get m1 k = intrusive_ptr.get m k) ∧
      (∀ q, q ≠ singleton → m1.counter q = m.counter q ∧ m1.alive q = m.alive q) ∧
      m1.deleted = m.deleted) := by
  have hi : (Machine.init : Machine α).liveHandles < 2 ^ 64 := by
    simp [Machine.init, Machine.liveHandles]
  obtain ⟨hc, hl, -⟩ := exec_counted Machine.init m ops init_counted hi he
  have hcm := (counted_iff m).mp hc
  unfold intrusive_ptr.get at ha hb
  have hxpos := holders_pos m a x ha
  have hppos := holders_pos m b p hb
  unfold singleton
  refine ⟨?_, fun hab => ?_, ?_, ?_⟩
  · obtain ⟨m1, h1, hh, hf⟩ := copy_assign_eff m hc hl a b x p ha hb
    have tg : ∀ k, m1.target_ k = if k = a then .ok p else m.target_ k := fun k => by
      rw [target_congr (m.setTarget a p) m1 hh k]
      exact target_setTarget m a p k x ha
    have hol : ∀ q, m1.holders q + (if x = q then 1 else 0)
        = m.holders q + (if p = q then 1 else 0) := fun q => by
      rw [holders_congr _ m1 hh q]
      exact holders_setTarget m a x p q ha
    have hun : ∀ q, q ≠ 0 → x = p ∨ (q ≠ x ∧ q ≠ p) →
        m1.counter q = m.counter q ∧ m1.alive q = m.alive q ∧
        m1.deletions q = m.deletions q := by
      intro q hq hcase
      have f := hf q hq
      have c := hcm q hq
      have o := hol q
      rcases hcase with e | ⟨e1, e2⟩
      · subst e
        split_ifs at f o <;> omega
      · have e3 : ¬ x = q := fun e => e1 e.symm
        have e4 : ¬ p = q := fun e => e2 e.symm
        rw [if_neg e3, if_neg e4] at o
        split_ifs at f <;> omega
    refine ⟨m1, h1, ?_, ?_, ?_, ?_, ?_, hun, ?_⟩
    · show m1.target_ a = _
      rw [tg, if_pos rfl]
    · show m1.target_ b = _
      rw [tg]
      split_ifs
      · rfl
      · exact hb
    · intro k hk
      show m1.target_ k = m.target_ k
      rw [tg, if_neg hk]
    · intro hxp hp0
      have f := hf p hp0
      have c := hcm p hp0
      have o := hol p
      rw [if_neg hxp, if_pos rfl] at o
      split_ifs at f <;> omega
    · intro hxp hx0
      have f := hf x hx0
      have c := hcm x hx0
      have o := hol x
      have hpx : ¬ p = x := fun e => hxp e.symm
      rw [if_pos rfl, if_neg hpx] at o
      split_ifs at f ⊢ <;> omega
    · intro e
      exact deleted_of_deletions m m1 (copy_assign_deleted m m1 a b h1)
        (fun q hq => (hun q hq (Or.inl e)).2.2)
  · obtain ⟨m1, h1, hh, hf⟩ := move_assign_eff m hc hl a b x p ha hb
    have hb0 : (m.setTarget b singleton).target_ a = .ok x := by
      rw [target_setTarget m b singleton a p hb, if_neg hab]
      exact ha
    have tg : ∀ k, m1.target_ k
        = if k = a then .ok p else if k = b then .ok singleton else m.target_ k := fun k => by
      rw [target_congr ((m.setTarget b singleton).setTarget a p) m1 hh k,
        target_setTarget (m.setTarget b singleton) a p k x hb0,
        target_setTarget m b singleton k p hb]
    have hol : ∀ q, q ≠ 0 → m1.holders q + (if x = q then 1 else 0) = m.holders q := by
      intro q hq
      have e1 := holders_setTarget m b p singleton q hb
      have e2 := holders_setTarget (m.setTarget b singleton) a x p q hb0
      have e3 := holders_congr _ m1 hh q
      have h0q : ¬ singleton = q := fun e => hq e.symm
      rw [if_neg h0q] at e1
      split_ifs at e1 e2 ⊢ <;> omega
    have ta : m1.target_ a = .ok p := by rw [tg, if_pos rfl]
    have hun : ∀ q, q ≠ 0 → q ≠ x →
        m1.counter q = m.counter q ∧ m1.alive q = m.alive q ∧
        m1.deletions q = m.deletions q := by
      intro q hq e1
      have f := hf q hq
      have c := hcm q hq
      have o := hol q hq
      have e3 : ¬ x = q := fun e => e1 e.symm
      rw [if_neg e3] at o
      split_ifs at f <;> omega
    have hsame : x = p → p ≠ 0 →
        m1.counter p + 1 = m.counter p ∧ m1.alive p = 1 ∧ m1.deletions p = m.deletions p := by
      intro e hp0
      subst e
      have f := hf x hp0
      have c := hcm x hp0
      have o := hol x hp0
      have h1pos := holders_pos m1 a x ta
      rw [if_pos rfl] at o
      split_ifs at f <;> omega
    refine ⟨m1, h1, ta, ?_, ?_, ?_, ?_, hsame, fun q hq e1 _ => hun q hq e1, ?_⟩
    · show m1.target_ b = _
      have hba : ¬ b = a := fun e => hab e.symm
      rw [tg, if_neg hba, if_pos rfl]
      rfl
    · intro k hk hk2
      show m1.target_ k = m.target_ k
      rw [tg, if_neg hk, if_neg hk2]
    · intro hxp hp0
      have hpx : p ≠ x := fun e => hxp e.symm
      obtain ⟨u1, u2, u3⟩ := hun p hp0 hpx
      refine ⟨u1, ?_, u3⟩
      have c := hcm p hp0
      omega
    · intro hxp hx0
      have f := hf x hx0
      have c := hcm x hx0
      have o := hol x hx0
      rw [if_pos rfl] at o
      split_ifs at f ⊢ <;> omega
    · intro e
      refine deleted_of_deletions m m1 (move_assign_deleted m m1 a b h1) (fun q hq => ?_)
      by_cases hqx : q = x
      · subst hqx
        subst e
        exact (hsame rfl hq).2.2
      · exact (hun q hq hqx).2.2
  · obtain ⟨m1, h1, hh, hf⟩ := copy_assign_eff m hc hl a a x x ha ha
    have tg : ∀ k, m1.target_ k = m.target_ k := fun k => by
      rw [target_congr (m.setTarget a x) m1 hh k, target_setTarget m a x k x ha]
      split_ifs with e
      · rw [e, ha]
      · rfl
    have hol : ∀ q, m1.holders q = m.holders q := fun q => by
      have := holders_setTarget m a x x q ha
      rw [holders_congr _ m1 hh q]
      omega
    have hun : ∀ q, q ≠ 0 →
        m1.counter q = m.counter q ∧ m1.alive q = m.alive q ∧
        m1.deletions q = m.deletions q := by
      intro q hq
      have f := hf q hq
      have c := hcm q hq
      have o := hol q
      split_ifs at f <;> omega
    exact ⟨m1, h1, tg, fun q hq => ⟨(hun q hq).1, (hun q hq).2.1⟩,
      deleted_of_deletions m m1 (copy_assign_deleted m m1 a a h1) (fun q hq => (hun q hq).2.2)⟩
  · obtain ⟨m1, h1, hh, hf⟩ := move_assign_eff m hc hl a a x x ha ha
    have hb0 : (m.setTarget a singleton).target_ a = .ok singleton := by
      rw [target_setTarget m a singleton a x ha, if_pos rfl]
    have tg : ∀ k, m1.target_ k = m.target_ k := fun k => by
      rw [target_congr ((m.setTarget a singleton).setTarget a x) m1 hh k,
        target_setTarget (m.setTarget a singleton) a x k singleton hb0,
        target_setTarget m a singleton k x ha]
      split_ifs with e
      · rw [e, ha]
      · rfl
    have hol : ∀ q, m1.holders q = m.holders q := fun q => by
      have e1 := holders_setTarget m a x singleton q ha
      have e2 := holders_setTarget (m.setTarget a singleton) a singleton x q hb0
      rw [holders_congr _ m1 hh q]
      omega
    have hun : ∀ q, q ≠ 0 →
        m1.counter q = m.counter q ∧ m1.alive q = m.alive q ∧
        m1.deletions q = m.deletions q := by
      intro q hq
      have f := hf q hq
      have c := hcm q hq
      have o := hol q
      split_ifs at f <;> omega
    exact ⟨m1, h1, tg, fun q hq => ⟨(hun q hq).1, (hun q hq).2.1⟩,
      deleted_of_deletions m m1 (move_assign_deleted m m1 a a h1) (fun q hq => (hun q hq).2.2)⟩

theorem assignment_keeps_counting_witness :
    Exec Machine.init sampleTwoTargets (finalState sampleTwoTargets) ∧
    intrusive_ptr.get (finalState sampleTwoTargets) 0 = .ok 5 ∧
    intrusive_ptr.get (finalState sampleTwoTargets) 1 = .ok 6 ∧
    (finalState sampleTwoTargets).counter 5 = 1 ∧
    ∃ m1, intrusive_ptr.copy_assign (finalState sampleTwoTargets) 0 1 = .ok m1 ∧
      intrusive_ptr.get m1 0 = .ok 6 ∧
      m1.counter 6 = (finalState sampleTwoTargets).counter 6 + 1 ∧
      m1.deletions 5 = (finalState sampleTwoTargets).deletions 5
        + (if (finalState sampleTwoTargets).counter 5 = 1 then 1 else 0) :=
  ⟨sampleTwoTargets_exec, rfl, rfl, rfl,
    let ⟨m1, h1, h2, _, _, h5, h6, _⟩ :=
      (assignment_keeps_counting sampleTwoTargets (finalState sampleTwoTargets)
        sampleTwoTargets_exec 0 1 5 6 rfl rfl).1
    ⟨m1, h1, h2, (h5 (by decide) (by decide)).1, (h6 (by decide) (by decide)).2.2⟩⟩

/-- C21, the claim as stated fails: the handles in slots 0 and 1 are distinct
and hold the same target, whose counter is 2. After the move assignment of
slot 1 to slot 0, slot 0 holds the target, slot 1 is null, nothing was deleted,
and the counter is 1, not 2. -/
theorem move_assign_shared_target_decrements :
    Exec Machine.init sampleShared (finalState sampleShared) ∧
    intrusive_ptr.get (finalState sampleShared) 0 = .ok 5 ∧
    intrusive_ptr.get (finalState sampleShared) 1 = .ok 5 ∧
    intrusive_ptr.use_count (finalState sampleShared) 1 = .ok 2 ∧
    (intrusive_ptr.move_assign (finalState sampleShared) 0 1
      >>= fun m1 => intrusive_ptr.get m1 0) = .ok 5 ∧
    (intrusive_ptr.move_assign (finalState sampleShared) 0 1
      >>= fun m1 => intrusive_ptr.get m1 1) = .ok singleton ∧
    (intrusive_ptr.move_assign (finalState sampleShared) 0 1
      >>= fun m1 => intrusive_ptr.use_count m1 0) = .ok 1 ∧
    (intrusive_ptr.move_assign (finalState sampleShared) 0 1
      >>= fun m1 => pure m1.deleted) = .ok [] :=
  ⟨Exec.cons rfl rfl (by decide) (Exec.cons rfl rfl (by decide) (Exec.nil _)),
    rfl, rfl, rfl, rfl, rfl, rfl, rfl⟩

end machine

end c10
